import Mathlib

/-!
# cfupdate: a shallow embedding of `cfupdate.go`

The program is a one-shot dynamic-DNS updater: it loads a JSON state file,
asks an echo service for the public address, and when the address differs from
the one last saved it posts the new address for every configured record and
saves the state.

Its own code (`getState`, `setState`, `run`, `getPublicIP`, `setPublicIP` and
the `Config` variable) is embedded as pure functions that pass the state of the
world along.  The Go library routines it calls are modelled next to it:

* a Go `string` is a list of bytes, valid UTF-8 or not;
* `encoding/json` is modelled for the type of `Config`, byte for byte:
  `MarshalIndent` with the escapes of `appendString`, `Unmarshal` as the scanner
  followed by the decoder, with its case-insensitive keys, its handling of
  `null` and its `UnmarshalTypeError`; the scanner's limit on the depth of
  nesting (10000, in recent releases) is not modelled;
* the files are a map from a path to what `ReadFile` returns there, and a
  `WriteFile` that succeeds makes the path read back the data written;
* the answers of the network, the readings of the clock and the outcome of the
  write are given by the environment, which the theorems quantify over;
* every call to the outside is recorded in a trace, lines printed included;
  closing a response body is not modelled.

Loops of the Go code that run along an input are given a bound on their steps
as first argument; for the parser the bounds supplied are shown never to be
reached (`parseValue_fuel_enough`, `unquoteLoop_fuel`).
-/

namespace Cfupdate

/-! ## Go strings and byte slices -/

/-- One byte of a Go `string` or `[]byte`. -/
abbrev Byte := Fin 256

/-- A Go `string`: an arbitrary sequence of bytes, not necessarily valid UTF-8. -/
abbrev GoString := List Byte

/-- A Go `[]byte`. -/
abbrev Bytes := List Byte

/-- Conversion `byte(n)` of a non-negative integer, keeping the low eight bits. -/
def byte (n : Nat) : Byte := ⟨n % 256, Nat.mod_lt n (by decide)⟩

/-! ## `unicode/utf8` -/

/-- The constant `utf8.RuneError` (U+FFFD). -/
def RuneError : Nat := 0xFFFD

/-- The constant `utf8.MaxRune`. -/
def MaxRune : Nat := 0x10FFFF

/-- The tables `first` and `acceptRanges` of `unicode/utf8`: for the leading
byte of a multi-byte sequence, the length of the sequence and the lowest and
highest second byte accepted; `none` for the bytes marked invalid (`xx`). -/
def first (p0 : Byte) : Option (Nat × Nat × Nat) :=
  if 0xC2 ≤ p0.val ∧ p0.val ≤ 0xDF then some (2, 0x80, 0xBF)
  else if p0.val = 0xE0 then some (3, 0xA0, 0xBF)
  else if 0xE1 ≤ p0.val ∧ p0.val ≤ 0xEC then some (3, 0x80, 0xBF)
  else if p0.val = 0xED then some (3, 0x80, 0x9F)
  else if 0xEE ≤ p0.val ∧ p0.val ≤ 0xEF then some (3, 0x80, 0xBF)
  else if p0.val = 0xF0 then some (4, 0x90, 0xBF)
  else if 0xF1 ≤ p0.val ∧ p0.val ≤ 0xF3 then some (4, 0x80, 0xBF)
  else if p0.val = 0xF4 then some (4, 0x80, 0x8F)
  else none

/-- The function `utf8.DecodeRune`: the first rune of `p` and its width in
bytes; `(RuneError, 0)` for empty input and `(RuneError, 1)` for an invalid
encoding. -/
def decodeRune (p : List Byte) : Nat × Nat :=
  match p with
  | [] => (RuneError, 0)
  | p0 :: t =>
    if p0.val < 0x80 then (p0.val, 1)
    else
      match first p0 with
      | none => (RuneError, 1)
      | some (sz, lo, hi) =>
        if p.length < sz then (RuneError, 1)
        else
          match t with
          | [] => (RuneError, 1)
          | b1 :: t1 =>
            if b1.val < lo ∨ hi < b1.val then (RuneError, 1)
            else if sz ≤ 2 then (p0.val % 32 * 64 + b1.val % 64, 2)
            else
              match t1 with
              | [] => (RuneError, 1)
              | b2 :: t2 =>
                if b2.val < 0x80 ∨ 0xBF < b2.val then (RuneError, 1)
                else if sz ≤ 3 then
                  (p0.val % 16 * 4096 + b1.val % 64 * 64 + b2.val % 64, 3)
                else
                  match t2 with
                  | [] => (RuneError, 1)
                  | b3 :: _ =>
                    if b3.val < 0x80 ∨ 0xBF < b3.val then (RuneError, 1)
                    else
                      (p0.val % 8 * 262144 + b1.val % 64 * 4096 + b2.val % 64 * 64
                        + b3.val % 64, 4)

/-- The function `utf8.AppendRune` / `utf8.EncodeRune`: the UTF-8 encoding of a
rune; surrogates and values above `MaxRune` are written as U+FFFD. -/
def encodeRune (r : Nat) : List Byte :=
  if r ≤ 0x7F then [byte r]
  else if r ≤ 0x7FF then [byte (0xC0 + r / 64), byte (0x80 + r % 64)]
  else if MaxRune < r ∨ (0xD800 ≤ r ∧ r ≤ 0xDFFF) then [0xEF, 0xBF, 0xBD]
  else if r ≤ 0xFFFF then
    [byte (0xE0 + r / 4096), byte (0x80 + r / 64 % 64), byte (0x80 + r % 64)]
  else
    [byte (0xF0 + r / 262144), byte (0x80 + r / 4096 % 64), byte (0x80 + r / 64 % 64),
      byte (0x80 + r % 64)]

/-- Loop of `utf8.Valid`, with the number of bytes still to scan as fuel. -/
def validLoop : Nat → List Byte → Bool
  | 0, p => p.isEmpty
  | _ + 1, [] => true
  | n + 1, b :: t =>
    if decodeRune (b :: t) = (RuneError, 1) then false
    else validLoop n ((b :: t).drop (decodeRune (b :: t)).2)

/-- The function `utf8.ValidString`: `s` consists entirely of valid UTF-8. -/
def utf8Valid (s : GoString) : Bool := validLoop s.length s

/-- A Go string constant of the source, as the bytes of its UTF-8 encoding. -/
def goStr (s : String) : GoString :=
  s.data.foldr (fun c acc => encodeRune c.toNat ++ acc) []

/-! ## `int64` -/

/-- A Go `int64`. -/
structure Int64 where
  val : Int
  lo : -9223372036854775808 ≤ val
  hi : val ≤ 9223372036854775807
deriving DecidableEq

/-- Conversion of an integer to `int64`, wrapping around as Go arithmetic does. -/
def Int64.wrap (i : Int) : Int64 :=
  ⟨(i + 9223372036854775808) % 18446744073709551616 - 9223372036854775808,
    by omega, by omega⟩

instance (n : Nat) : OfNat Int64 n := ⟨Int64.wrap n⟩

instance : Add Int64 := ⟨fun a b => Int64.wrap (a.val + b.val)⟩

/-! ## The `Config` variable -/

/-- An element of `Config.Records`. -/
structure Record where
  Hostname : GoString
  Id : GoString
deriving DecidableEq

/-- The type of `Config.History`. -/
structure History where
  LastIP : GoString
  LastSet : Int64
  NextVerify : Int64
deriving DecidableEq

/-- The type of the package variable `Config`.  `Records` is a slice: `none`
is the nil slice, `some l` a non-nil slice with the elements `l`. -/
structure Config where
  LogFile : GoString
  Email : GoString
  Token : GoString
  Zone : GoString
  Records : Option (List Record)
  History : History
deriving DecidableEq

/-- The zero value of a record. -/
def Record.zero : Record := ⟨[], []⟩

/-- The zero value of `Config`, which the variable holds when the process starts. -/
def Config.zero : Config := ⟨[], [], [], [], none, ⟨[], 0, 0⟩⟩

/-- The elements `range Config.Records` iterates over. -/
def Config.records (c : Config) : List Record := c.Records.getD []

/-! ## Errors -/

/-- A Go `error` value.  Only the kinds that reach `run` are told apart; the
text of a library error is kept as an opaque message. -/
inductive GoError where
  /-- an error of the operating system or the network, with its message -/
  | io (msg : GoString)
  /-- a `*json.SyntaxError` -/
  | malformed
  /-- a `*json.UnmarshalTypeError` -/
  | mistyped
deriving DecidableEq

/-! ## `encoding/json`: encoding -/

/-- The digit string `"0123456789abcdef"` indexed by a nibble. -/
def hexDigit (n : Nat) : Byte := if n < 10 then byte (0x30 + n) else byte (0x57 + n)

/-- The table `htmlSafeSet`: the ASCII bytes written without escaping. -/
def htmlSafe (b : Byte) : Bool :=
  decide (0x20 ≤ b.val ∧ b.val < 0x80 ∧ b ≠ 0x22 ∧ b ≠ 0x5C ∧ b ≠ 0x3C ∧ b ≠ 0x3E ∧ b ≠ 0x26)

/-- The loop of `appendString` (with `escapeHTML` set, as `Marshal` sets it):
the bytes between the quotes of the JSON string for `src`.  Which control
characters get a two-byte escape has changed between releases (`\t`, `\b`,
`\f`); these are the recent ones, and the scanner reads either form back
alike. -/
def appendStringLoop : Nat → List Byte → Bytes
  | 0, _ => []
  | _ + 1, [] => []
  | n + 1, b :: rest =>
    if b.val < 0x80 then
      if htmlSafe b then b :: appendStringLoop n rest
      else if b = 0x5C ∨ b = 0x22 then 0x5C :: b :: appendStringLoop n rest
      else if b = 0x08 then 0x5C :: 0x62 :: appendStringLoop n rest
      else if b = 0x0C then 0x5C :: 0x66 :: appendStringLoop n rest
      else if b = 0x0A then 0x5C :: 0x6E :: appendStringLoop n rest
      else if b = 0x0D then 0x5C :: 0x72 :: appendStringLoop n rest
      else if b = 0x09 then 0x5C :: 0x74 :: appendStringLoop n rest
      else
        0x5C :: 0x75 :: 0x30 :: 0x30 :: hexDigit (b.val / 16) :: hexDigit (b.val % 16)
          :: appendStringLoop n rest
    else
      let c := (decodeRune (b :: rest)).1
      let size := (decodeRune (b :: rest)).2
      if c = RuneError ∧ size = 1 then
        0x5C :: 0x75 :: 0x66 :: 0x66 :: 0x66 :: 0x64 :: appendStringLoop n rest
      else if c = 0x2028 ∨ c = 0x2029 then
        0x5C :: 0x75 :: 0x32 :: 0x30 :: 0x32 :: hexDigit (c % 16)
          :: appendStringLoop n ((b :: rest).drop size)
      else (b :: rest).take size ++ appendStringLoop n ((b :: rest).drop size)

/-- The function `appendString` of `encoding/json`: a Go string as a quoted
JSON string.  Invalid UTF-8 is replaced by `�`. -/
def appendString (src : GoString) : Bytes :=
  0x22 :: (appendStringLoop src.length src ++ [0x22])

/-- The loop of `strconv.FormatUint` in base ten: the digits of `u`, written
from the right in front of `acc`. -/
def formatLoop : Nat → Nat → Bytes → Bytes
  | 0, _, acc => acc
  | f + 1, u, acc =>
    if u < 10 then byte (0x30 + u) :: acc
    else formatLoop f (u / 10) (byte (0x30 + u % 10) :: acc)

/-- The function `strconv.AppendInt(_, i, 10)`. -/
def formatInt (i : Int64) : Bytes :=
  if i.val < 0 then 0x2D :: formatLoop 20 i.val.natAbs []
  else formatLoop 20 i.val.natAbs []

/-- One element of `Records` as `MarshalIndent(_, "", "\t")` lays it out. -/
def marshalRecord (r : Record) : Bytes :=
  goStr "\x7b\n\t\t\t\"Hostname\": " ++ (appendString r.Hostname ++
  (goStr ",\n\t\t\t\"Id\": " ++ (appendString r.Id ++
  goStr "\n\t\t\x7d")))

/-- The elements of a non-empty `Records` after the first, each with its comma. -/
def marshalMore : List Record → Bytes
  | [] => []
  | r :: rs => goStr ",\n\t\t" ++ (marshalRecord r ++ marshalMore rs)

/-- The value of the `Records` field: `null` for the nil slice, `[]` for an
empty one. -/
def marshalRecords : Option (List Record) → Bytes
  | none => goStr "null"
  | some [] => goStr "[]"
  | some (r :: rs) => goStr "[\n\t\t" ++ (marshalRecord r ++ (marshalMore rs ++ goStr "\n\t]"))

/-- The value of the `History` field. -/
def marshalHistory (h : History) : Bytes :=
  goStr "\x7b\n\t\t\"LastIP\": " ++ (appendString h.LastIP ++
  (goStr ",\n\t\t\"LastSet\": " ++ (formatInt h.LastSet ++
  (goStr ",\n\t\t\"NextVerify\": " ++ (formatInt h.NextVerify ++
  goStr "\n\t\x7d")))))

/-- The call `json.MarshalIndent(&o, "", "\t")` for `o` holding a pointer to a
`Config`: the text and the error, which is always nil for this type. -/
def jsonMarshalIndent (c : Config) : Bytes × Option GoError :=
  (goStr "\x7b\n\t\"LogFile\": " ++ (appendString c.LogFile ++
   (goStr ",\n\t\"Email\": " ++ (appendString c.Email ++
   (goStr ",\n\t\"Token\": " ++ (appendString c.Token ++
   (goStr ",\n\t\"Zone\": " ++ (appendString c.Zone ++
   (goStr ",\n\t\"Records\": " ++ (marshalRecords c.Records ++
   (goStr ",\n\t\"History\": " ++ (marshalHistory c.History ++
   goStr "\n\x7d"))))))))))), none)

/-! ## `encoding/json`: scanning -/

/-- A JSON value as the scanner delimits it.  A number keeps its text. -/
inductive JSON where
  | null
  | bool (b : Bool)
  | num (text : Bytes)
  | str (s : GoString)
  | arr (elems : List JSON)
  | obj (members : List (GoString × JSON))

/-- The function `isSpace` of the scanner. -/
def isSpace (c : Byte) : Bool := decide (c = 0x20 ∨ c = 0x09 ∨ c = 0x0D ∨ c = 0x0A)

/-- Skip the white space in front of a token. -/
def skipSpace (s : Bytes) : Bytes := s.dropWhile isSpace

/-- A decimal digit. -/
def isDigit (c : Byte) : Bool := decide (0x30 ≤ c.val ∧ c.val ≤ 0x39)

/-- The value of a hexadecimal digit, of either case. -/
def hexVal (c : Byte) : Option Nat :=
  if 0x30 ≤ c.val ∧ c.val ≤ 0x39 then some (c.val - 0x30)
  else if 0x61 ≤ c.val ∧ c.val ≤ 0x66 then some (c.val - 0x61 + 10)
  else if 0x41 ≤ c.val ∧ c.val ≤ 0x46 then some (c.val - 0x41 + 10)
  else none

/-- The function `getu4`: the rune of a `\uXXXX` escape at the start of `s`,
`none` where Go returns `-1`. -/
def getu4 (s : Bytes) : Option Nat :=
  match s with
  | c0 :: c1 :: h1 :: h2 :: h3 :: h4 :: _ =>
    if c0 = 0x5C ∧ c1 = 0x75 then
      match hexVal h1, hexVal h2, hexVal h3, hexVal h4 with
      | some a, some b, some c, some d => some (((a * 16 + b) * 16 + c) * 16 + d)
      | _, _, _, _ => none
    else none
  | _ => none

/-- The function `utf16.DecodeRune`: the rune of a surrogate pair, U+FFFD when
the pair is not valid. -/
def utf16DecodeRune (r1 r2 : Nat) : Nat :=
  if 0xD800 ≤ r1 ∧ r1 < 0xDC00 ∧ 0xDC00 ≤ r2 ∧ r2 < 0xE000 then
    (r1 - 0xD800) * 1024 + (r2 - 0xDC00) + 0x10000
  else RuneError

/-- Put `pre` in front of the string a scan returned. -/
def prepend (pre : Bytes) (r : Option (GoString × Bytes)) : Option (GoString × Bytes) :=
  r.map (fun x => (pre ++ x.1, x.2))

/-- The scan of a JSON string after its opening quote, together with
`unquote`: the Go string it denotes and the input after the closing quote;
`none` for a syntax error.  Invalid UTF-8 and unpaired surrogates become
U+FFFD. -/
def unquoteLoop : Nat → Bytes → Option (GoString × Bytes)
  | 0, _ => none
  | _ + 1, [] => none
  | n + 1, c :: rest =>
    if c = 0x22 then some ([], rest)
    else if c = 0x5C then
      match rest with
      | [] => none
      | e :: rest2 =>
        if e = 0x22 ∨ e = 0x5C ∨ e = 0x2F then prepend [e] (unquoteLoop n rest2)
        else if e = 0x62 then prepend [0x08] (unquoteLoop n rest2)
        else if e = 0x66 then prepend [0x0C] (unquoteLoop n rest2)
        else if e = 0x6E then prepend [0x0A] (unquoteLoop n rest2)
        else if e = 0x72 then prepend [0x0D] (unquoteLoop n rest2)
        else if e = 0x74 then prepend [0x09] (unquoteLoop n rest2)
        else if e = 0x75 then
          match getu4 (c :: rest) with
          | none => none
          | some rr =>
            if 0xD800 ≤ rr ∧ rr < 0xE000 then
              match getu4 ((c :: rest).drop 6) with
              | none => prepend (encodeRune RuneError) (unquoteLoop n ((c :: rest).drop 6))
              | some rr1 =>
                if utf16DecodeRune rr rr1 ≠ RuneError then
                  prepend (encodeRune (utf16DecodeRune rr rr1))
                    (unquoteLoop n ((c :: rest).drop 12))
                else prepend (encodeRune RuneError) (unquoteLoop n ((c :: rest).drop 6))
            else prepend (encodeRune rr) (unquoteLoop n ((c :: rest).drop 6))
        else none
    else if c.val < 0x20 then none
    else if c.val < 0x80 then prepend [c] (unquoteLoop n rest)
    else
      prepend (encodeRune (decodeRune (c :: rest)).1)
        (unquoteLoop n ((c :: rest).drop (decodeRune (c :: rest)).2))

/-- A JSON string whose opening quote has been read. -/
def scanString (s : Bytes) : Option (GoString × Bytes) := unquoteLoop s.length s

/-- One or more digits. -/
def scanDigits (s : Bytes) : Option (Bytes × Bytes) :=
  if s.takeWhile isDigit = [] then none else some (s.takeWhile isDigit, s.dropWhile isDigit)

/-- The integer part of a number: `0`, or a non-zero digit and more digits. -/
def scanIntPart (s : Bytes) : Option (Bytes × Bytes) :=
  match s with
  | [] => none
  | c :: t =>
    if c = 0x30 then some ([c], t)
    else if isDigit c then some (c :: t.takeWhile isDigit, t.dropWhile isDigit)
    else none

/-- The optional fraction of a number. -/
def scanFrac (s : Bytes) : Option (Bytes × Bytes) :=
  match s with
  | c :: t =>
    if c = 0x2E then (scanDigits t).map (fun x => (c :: x.1, x.2)) else some ([], s)
  | [] => some ([], s)

/-- The optional exponent of a number. -/
def scanExp (s : Bytes) : Option (Bytes × Bytes) :=
  match s with
  | c :: t =>
    if c = 0x65 ∨ c = 0x45 then
      match t with
      | d :: u =>
        if d = 0x2B ∨ d = 0x2D then (scanDigits u).map (fun x => (c :: d :: x.1, x.2))
        else (scanDigits t).map (fun x => (c :: x.1, x.2))
      | [] => none
    else some ([], s)
  | [] => some ([], s)

/-- A JSON number: its text and the input after it. -/
def scanNumber (s : Bytes) : Option (Bytes × Bytes) :=
  let sign : Bytes := if s.head? = some 0x2D then [0x2D] else []
  match scanIntPart (s.drop sign.length) with
  | none => none
  | some (ip, s1) =>
    match scanFrac s1 with
    | none => none
    | some (fp, s2) =>
      match scanExp s2 with
      | none => none
      | some (ep, s3) => some (sign ++ ip ++ fp ++ ep, s3)

/-- Read the literal `lit` at the start of `s`. -/
def expectLit (lit s : Bytes) : Option Bytes :=
  if s.take lit.length = lit then some (s.drop lit.length) else none

mutual
/-- One JSON value at the start of `s` (white space skipped) and the input
after it; `none` for a syntax error.  The first argument bounds the number of
nested calls. -/
def parseValue : Nat → Bytes → Option (JSON × Bytes)
  | 0, _ => none
  | n + 1, s =>
    match skipSpace s with
    | [] => none
    | c :: rest =>
      if c = 0x7B then
        match skipSpace rest with
        | [] => none
        | d :: rest2 =>
          if d = 0x7D then some (JSON.obj [], rest2)
          else (parseMembers n (d :: rest2)).map (fun x => (JSON.obj x.1, x.2))
      else if c = 0x5B then
        match skipSpace rest with
        | [] => none
        | d :: rest2 =>
          if d = 0x5D then some (JSON.arr [], rest2)
          else (parseElems n (d :: rest2)).map (fun x => (JSON.arr x.1, x.2))
      else if c = 0x22 then (scanString rest).map (fun x => (JSON.str x.1, x.2))
      else if c = 0x2D ∨ isDigit c then
        (scanNumber (c :: rest)).map (fun x => (JSON.num x.1, x.2))
      else if c = 0x74 then (expectLit (goStr "true") (c :: rest)).map (fun r => (JSON.bool true, r))
      else if c = 0x66 then
        (expectLit (goStr "false") (c :: rest)).map (fun r => (JSON.bool false, r))
      else if c = 0x6E then (expectLit (goStr "null") (c :: rest)).map (fun r => (JSON.null, r))
      else none
/-- The elements of an array up to its closing bracket; `s` starts at an element. -/
def parseElems : Nat → Bytes → Option (List JSON × Bytes)
  | 0, _ => none
  | n + 1, s =>
    match parseValue n s with
    | none => none
    | some (v, rest) =>
      match skipSpace rest with
      | [] => none
      | c :: rest2 =>
        if c = 0x2C then (parseElems n rest2).map (fun x => (v :: x.1, x.2))
        else if c = 0x5D then some ([v], rest2)
        else none
/-- The members of an object up to its closing brace; `s` starts at a key. -/
def parseMembers : Nat → Bytes → Option (List (GoString × JSON) × Bytes)
  | 0, _ => none
  | n + 1, s =>
    match skipSpace s with
    | [] => none
    | q :: rest =>
      if q = 0x22 then
        match scanString rest with
        | none => none
        | some (key, rest1) =>
          match skipSpace rest1 with
          | [] => none
          | c :: rest2 =>
            if c = 0x3A then
              match parseValue n rest2 with
              | none => none
              | some (v, rest3) =>
                match skipSpace rest3 with
                | [] => none
                | d :: rest4 =>
                  if d = 0x2C then (parseMembers n rest4).map (fun x => ((key, v) :: x.1, x.2))
                  else if d = 0x7D then some ([(key, v)], rest4)
                  else none
            else none
      else none
end

/-- The scan of a whole text (`checkValid`): one value, white space around it
and nothing else.  Two nested calls of the parser read at least one byte, so
the bound given is never reached (`parseValue_fuel_enough`). -/
def parseJSON (data : Bytes) : Option JSON :=
  match parseValue (2 * data.length + 2) data with
  | none => none
  | some (v, rest) => if skipSpace rest = [] then some v else none

/-! ## `encoding/json`: decoding into `Config` -/

/-- The function `strconv.ParseInt(s, 10, 64)`: `none` for a syntax or a range
error. -/
def parseInt (s : Bytes) : Option Int64 :=
  let neg : Bool := s.head? = some 0x2D
  let digits : Bytes := if s.head? = some 0x2D ∨ s.head? = some 0x2B then s.tail else s
  if digits ≠ [] ∧ digits.all isDigit = true then
    let u : Int := (digits.foldl (fun a d => a * 10 + (d.val - 0x30)) 0 : Nat)
    if neg then
      if h : u ≤ 9223372036854775808 then some ⟨-u, by omega, by omega⟩ else none
    else
      if h : u ≤ 9223372036854775807 then some ⟨u, by omega, by omega⟩ else none
  else none

/-- The upper-case form of an ASCII letter; other bytes are left alone. -/
def toUpper (c : Byte) : Byte :=
  if 0x61 ≤ c.val ∧ c.val ≤ 0x7A then byte (c.val - 0x20) else c

/-- The match of an object key with the ASCII name of a struct field: equal
under Unicode simple case folding (`bytes.EqualFold`).  Apart from the ASCII
letters of the other case, only U+017F folds to `s` and U+212A to `k`. -/
def equalFold : GoString → GoString → Bool
  | [], [] => true
  | _ :: _, [] => false
  | [], _ :: _ => false
  | k :: ks, c :: cs =>
    if toUpper k = toUpper c then equalFold ks cs
    else if toUpper c = 0x53 ∧ k = 0xC5 ∧ ks.take 1 = [0xBF] then equalFold (ks.drop 1) cs
    else if toUpper c = 0x4B ∧ k = 0xE2 ∧ ks.take 2 = [0x84, 0xAA] then
      equalFold (ks.drop 2) cs
    else false

/-- The method `saveError`: keep the first error. -/
def saveError (saved : Option GoError) (err : GoError) : Option GoError :=
  match saved with
  | none => some err
  | some e => some e

/-- Decode a value into a `string` field: a JSON string is stored, `null`
leaves the field alone, anything else is an `UnmarshalTypeError`. -/
def storeString (v : JSON) (old : GoString) (saved : Option GoError) :
    GoString × Option GoError :=
  match v with
  | JSON.str s => (s, saved)
  | JSON.null => (old, saved)
  | _ => (old, saveError saved GoError.mistyped)

/-- Decode a value into an `int64` field: a number that `ParseInt` accepts is
stored, `null` leaves the field alone, anything else is an
`UnmarshalTypeError`. -/
def storeInt64 (v : JSON) (old : Int64) (saved : Option GoError) : Int64 × Option GoError :=
  match v with
  | JSON.num text =>
    match parseInt text with
    | some i => (i, saved)
    | none => (old, saveError saved GoError.mistyped)
  | JSON.null => (old, saved)
  | _ => (old, saveError saved GoError.mistyped)

/-- One member of an object decoded into a record. -/
def recordMember (st : Record × Option GoError) (m : GoString × JSON) :
    Record × Option GoError :=
  if equalFold m.1 (goStr "Hostname") then
    ({ st.1 with Hostname := (storeString m.2 st.1.Hostname st.2).1 },
      (storeString m.2 st.1.Hostname st.2).2)
  else if equalFold m.1 (goStr "Id") then
    ({ st.1 with Id := (storeString m.2 st.1.Id st.2).1 }, (storeString m.2 st.1.Id st.2).2)
  else st

/-- Decode a value into an element of `Records`: the members of an object are
stored one after the other, unknown keys skipped. -/
def decodeRecord (v : JSON) (old : Record) (saved : Option GoError) :
    Record × Option GoError :=
  match v with
  | JSON.obj ms => ms.foldl recordMember (old, saved)
  | JSON.null => (old, saved)
  | _ => (old, saveError saved GoError.mistyped)

/-- The elements of an array decoded into the slice's memory `mem`, element
`i` into what position `i` held before (the zero record past its end). -/
def decodeElems : List JSON → List Record → Option GoError → List Record × Option GoError
  | [], _, saved => ([], saved)
  | e :: es, mem, saved =>
    ((decodeRecord e (mem.headD Record.zero) saved).1 ::
        (decodeElems es mem.tail (decodeRecord e (mem.headD Record.zero) saved).2).1,
      (decodeElems es mem.tail (decodeRecord e (mem.headD Record.zero) saved).2).2)

/-- What decoding keeps besides the `Config`: the records left in the slice's
memory past its length by an earlier, longer array, and the first error. -/
structure DecodeState where
  config : Config
  spare : List Record
  saved : Option GoError

/-- Decode a value into `Records`.  An array reuses the slice's memory and sets
its length; an empty array gives a fresh empty slice, `null` the nil slice. -/
def decodeRecords (v : JSON) (st : DecodeState) : DecodeState :=
  match v with
  | JSON.arr [] => { st with config := { st.config with Records := some [] }, spare := [] }
  | JSON.arr (e :: es) =>
    { config := { st.config with
        Records := some (decodeElems (e :: es) (st.config.records ++ st.spare) st.saved).1 },
      spare := (st.config.records ++ st.spare).drop (e :: es).length,
      saved := (decodeElems (e :: es) (st.config.records ++ st.spare) st.saved).2 }
  | JSON.null => { st with config := { st.config with Records := none }, spare := [] }
  | _ => { st with saved := saveError st.saved GoError.mistyped }

/-- One member of an object decoded into `History`. -/
def historyMember (st : History × Option GoError) (m : GoString × JSON) :
    History × Option GoError :=
  if equalFold m.1 (goStr "LastIP") then
    ({ st.1 with LastIP := (storeString m.2 st.1.LastIP st.2).1 },
      (storeString m.2 st.1.LastIP st.2).2)
  else if equalFold m.1 (goStr "LastSet") then
    ({ st.1 with LastSet := (storeInt64 m.2 st.1.LastSet st.2).1 },
      (storeInt64 m.2 st.1.LastSet st.2).2)
  else if equalFold m.1 (goStr "NextVerify") then
    ({ st.1 with NextVerify := (storeInt64 m.2 st.1.NextVerify st.2).1 },
      (storeInt64 m.2 st.1.NextVerify st.2).2)
  else st

/-- Decode a value into `History`. -/
def decodeHistory (v : JSON) (old : History) (saved : Option GoError) :
    History × Option GoError :=
  match v with
  | JSON.obj ms => ms.foldl historyMember (old, saved)
  | JSON.null => (old, saved)
  | _ => (old, saveError saved GoError.mistyped)

/-- One member of the top-level object decoded into `Config`. -/
def configMember (st : DecodeState) (m : GoString × JSON) : DecodeState :=
  if equalFold m.1 (goStr "LogFile") then
    { st with config := { st.config with LogFile := (storeString m.2 st.config.LogFile st.saved).1 },
              saved := (storeString m.2 st.config.LogFile st.saved).2 }
  else if equalFold m.1 (goStr "Email") then
    { st with config := { st.config with Email := (storeString m.2 st.config.Email st.saved).1 },
              saved := (storeString m.2 st.config.Email st.saved).2 }
  else if equalFold m.1 (goStr "Token") then
    { st with config := { st.config with Token := (storeString m.2 st.config.Token st.saved).1 },
              saved := (storeString m.2 st.config.Token st.saved).2 }
  else if equalFold m.1 (goStr "Zone") then
    { st with config := { st.config with Zone := (storeString m.2 st.config.Zone st.saved).1 },
              saved := (storeString m.2 st.config.Zone st.saved).2 }
  else if equalFold m.1 (goStr "Records") then decodeRecords m.2 st
  else if equalFold m.1 (goStr "History") then
    { st with config := { st.config with
                History := (decodeHistory m.2 st.config.History st.saved).1 },
              saved := (decodeHistory m.2 st.config.History st.saved).2 }
  else st

/-- Decode the value of the whole text into `Config`.  A top-level `null`
changes nothing; a value that is no object is an `UnmarshalTypeError`. -/
def decodeConfig (v : JSON) (o : Config) : Config × Option GoError :=
  match v with
  | JSON.obj ms => ((ms.foldl configMember ⟨o, [], none⟩).config,
      (ms.foldl configMember ⟨o, [], none⟩).saved)
  | JSON.null => (o, none)
  | _ => (o, some GoError.mistyped)

/-- The call `json.Unmarshal(data, &o)` for `o` holding a pointer to the
`Config` value `o`: the value afterwards and the error.  The text is checked
first, and a text with a syntax error changes nothing; a value of the wrong
type is skipped, decoding goes on and the first such error is returned. -/
def jsonUnmarshal (data : Bytes) (o : Config) : Config × Option GoError :=
  match parseJSON data with
  | none => (o, some GoError.malformed)
  | some v => decodeConfig v o

/-! ## `time` -/

/-- A `time.Time`, as the wall-clock reading it stands for: the seconds since
the Unix epoch and the nanoseconds within the second. -/
structure Time where
  sec : Int64
  nsec : Fin 1000000000

/-- The constant `time.Minute`, a `Duration` in nanoseconds. -/
def Minute : Int := 60 * 1000000000

/-- The method `Time.Unix`. -/
def Time.Unix (t : Time) : Int64 := t.sec

/-- The nanoseconds of a sum that lies within one second. -/
def nanos (n : Int) : Fin 1000000000 := ⟨n.toNat % 1000000000, Nat.mod_lt _ (by decide)⟩

/-- The method `Time.Add`: whole seconds of `d` go to the seconds, the rest to
the nanoseconds, with a carry. -/
def Time.Add (t : Time) (d : Int) : Time :=
  if 1000000000 ≤ (t.nsec.val : Int) + d.tmod 1000000000 then
    ⟨Int64.wrap (t.sec.val + d.tdiv 1000000000 + 1),
      nanos ((t.nsec.val : Int) + d.tmod 1000000000 - 1000000000)⟩
  else if (t.nsec.val : Int) + d.tmod 1000000000 < 0 then
    ⟨Int64.wrap (t.sec.val + d.tdiv 1000000000 - 1),
      nanos ((t.nsec.val : Int) + d.tmod 1000000000 + 1000000000)⟩
  else ⟨Int64.wrap (t.sec.val + d.tdiv 1000000000), nanos ((t.nsec.val : Int) + d.tmod 1000000000)⟩

/-! ## `net/url` -/

/-- The type `url.Values`, a map from a key to its values, kept as the list of
its entries in the order the keys were first set. -/
abbrev Values := List (GoString × List GoString)

/-- The method `Values.Set`: the key gets the one value, replacing what it had. -/
def Values.Set (v : Values) (key value : GoString) : Values :=
  if v.any (fun kv => kv.1 = key) then
    v.map (fun kv => if kv.1 = key then (key, [value]) else kv)
  else v ++ [(key, [value])]

/-- The fields of a `url.URL` that the program touches. -/
structure URL where
  Scheme : GoString
  Host : GoString
  Path : GoString

/-- The bytes of `s` before the first `c`. -/
def upTo (c : Byte) (s : GoString) : GoString := s.takeWhile (fun b => b ≠ c)

/-- The bytes of `s` from the first `c` on. -/
def fromFirst (c : Byte) (s : GoString) : GoString := s.dropWhile (fun b => b ≠ c)

/-- The function `url.ParseRequestURI` on an absolute URL of the form
`scheme://host/path` without user, port, query or escapes, which is the form of
the one constant the program passes; the error is not looked at. -/
def parseRequestURI (rawurl : GoString) : URL :=
  { Scheme := upTo 0x3A rawurl
    Host := upTo 0x2F ((fromFirst 0x3A rawurl).drop 3)
    Path := fromFirst 0x2F ((fromFirst 0x3A rawurl).drop 3) }

/-- The method `URL.String` for the same form, which `fmt.Sprintf("%v", u)` calls. -/
def URL.String (u : URL) : GoString := u.Scheme ++ goStr "://" ++ u.Host ++ u.Path

/-! ## The world outside the process -/

/-- An `http.Response` as far as the program looks at it: the status line and
what `ioutil.ReadAll(resp.Body)` returns. -/
structure Response where
  Status : GoString
  Body : Except GoError Bytes

/-- The files: what `ioutil.ReadFile` returns for each path. -/
abbrev FileSystem := GoString → Except GoError Bytes

/-- What a call of `ioutil.WriteFile` does: it succeeds, and the file then
holds the data, or it fails with an error and leaves the file in some state. -/
inductive WriteOutcome where
  | ok
  | failed (err : GoError) (left : Except GoError Bytes)

/-- An operand of `fmt.Println`. -/
inductive Operand where
  | str (s : GoString)
  | errorText (err : GoError)
deriving DecidableEq

/-- A call the process makes to the world outside. -/
inductive Event where
  | readFile (file : GoString)
  | writeFile (file : GoString) (data : Bytes) (perm : Nat)
  | httpGet (url : GoString)
  | httpPostForm (url : GoString) (data : Values)
  | println (args : List Operand)
deriving DecidableEq

/-- Everything the run of one process depends on and does not control: the
files at its start, the answer to the GET, the answer to each POST by the
number of POSTs made before it, the readings of the clock by the number of
readings before, and what the write does. -/
structure Env where
  files : FileSystem
  get : Except GoError Response
  post : Nat → Except GoError Response
  clock : Nat → Time
  write : WriteOutcome

/-- The state of the world during a run: the environment, the files as they
now are, the calls made so far and how many of them were POSTs and clock
readings. -/
structure World where
  env : Env
  files : FileSystem
  trace : List Event
  posts : Nat
  ticks : Nat

/-- The world when the process starts. -/
def start (env : Env) : World := ⟨env, env.files, [], 0, 0⟩

/-- The call `ioutil.ReadFile(file)`. -/
def ioutilReadFile (w : World) (file : GoString) : World × Except GoError Bytes :=
  ({ w with trace := w.trace ++ [Event.readFile file] }, w.files file)

/-- The call `ioutil.WriteFile(file, data, perm)`. -/
def ioutilWriteFile (w : World) (file : GoString) (data : Bytes) (perm : Nat) :
    World × Option GoError :=
  match w.env.write with
  | WriteOutcome.ok =>
    ({ w with trace := w.trace ++ [Event.writeFile file data perm],
              files := Function.update w.files file (Except.ok data) }, none)
  | WriteOutcome.failed err left =>
    ({ w with trace := w.trace ++ [Event.writeFile file data perm],
              files := Function.update w.files file left }, some err)

/-- The call `http.Get(url)`. -/
def httpGet (w : World) (url : GoString) : World × Except GoError Response :=
  ({ w with trace := w.trace ++ [Event.httpGet url] }, w.env.get)

/-- The call `http.PostForm(url, data)`. -/
def httpPostForm (w : World) (url : GoString) (data : Values) :
    World × Except GoError Response :=
  ({ w with trace := w.trace ++ [Event.httpPostForm url data], posts := w.posts + 1 },
    w.env.post w.posts)

/-- The call `time.Now()`. -/
def timeNow (w : World) : World × Time := ({ w with ticks := w.ticks + 1 }, w.env.clock w.ticks)

/-- The call `fmt.Println(args...)`. -/
def fmtPrintln (w : World) (args : List Operand) : World :=
  { w with trace := w.trace ++ [Event.println args] }

/-! ## The program -/

/-- The function `getState`: read the file and, when that worked, decode it
into the object.  Returns the world, the object afterwards and the error. -/
def getState (w : World) (file : GoString) (o : Config) : World × Config × Option GoError :=
  match ioutilReadFile w file with
  | (w1, Except.error err) => (w1, o, some err)
  | (w1, Except.ok config) => (w1, jsonUnmarshal config o)

/-- The function `setState`: encode the object and, when that worked, write
the file with mode 0600. -/
def setState (w : World) (file : GoString) (o : Config) : World × Option GoError :=
  match jsonMarshalIndent o with
  | (_, some err) => (w, some err)
  | (exported, none) => ioutilWriteFile w file exported 0o600

/-- The function `getPublicIP`: the body of the answer to a GET of the
IP-echo service, as a string. -/
def getPublicIP (w : World) : World × GoString × Option GoError :=
  match httpGet w (goStr "http://myip.dnsomatic.com/") with
  | (w1, Except.error err) => (w1, [], some err)
  | (w1, Except.ok resp) =>
    match resp.Body with
    | Except.error err => (w1, [], some err)
    | Except.ok ip => (w1, ip, none)

/-- The form `setPublicIP` builds for one record. -/
def recEditForm (c : Config) (record : Record) (ip : GoString) : Values :=
  let data : Values := []
  let data := Values.Set data (goStr "a") (goStr "rec_edit")
  let data := Values.Set data (goStr "tkn") c.Token
  let data := Values.Set data (goStr "email") c.Email
  let data := Values.Set data (goStr "z") c.Zone
  let data := Values.Set data (goStr "id") record.Id
  let data := Values.Set data (goStr "name") record.Hostname
  let data := Values.Set data (goStr "type") (goStr "A")
  let data := Values.Set data (goStr "ttl") (goStr "1")
  Values.Set data (goStr "content") ip

/-- The address `setPublicIP` posts to: `api` parsed, its path set to
`resource`, printed with `%v`. -/
def urlStr : GoString :=
  ({ parseRequestURI (goStr "https://www.cloudflare.com") with
      Path := goStr "/api_json.html" } : URL).String

/-- The loop of `setPublicIP` over the records still to do: post the form,
read the body, print body and status; return at the first error. -/
def setPublicIPLoop (c : Config) (ip : GoString) : List Record → World → World × Option GoError
  | [], w => (w, none)
  | record :: rest, w =>
    match httpPostForm w urlStr (recEditForm c record ip) with
    | (w1, Except.error err) => (w1, some err)
    | (w1, Except.ok resp) =>
      match resp.Body with
      | Except.error err => (w1, some err)
      | Except.ok body =>
        setPublicIPLoop c ip rest
          (fmtPrintln
            (fmtPrintln w1 [Operand.str (goStr "Body: "), Operand.str body])
            [Operand.str (goStr "Status Code: "), Operand.str resp.Status,
              Operand.str (goStr "\n")])

/-- The function `setPublicIP`, reading the variable `Config`. -/
def setPublicIP (c : Config) (w : World) (ip : GoString) : World × Option GoError :=
  setPublicIPLoop c ip c.records w

/-- How a run ends: the world, the variable `Config` and the exit status of
the process, 1 from `os.Exit(1)` and 0 when `run` returns and `main` after it. -/
structure Outcome where
  world : World
  config : Config
  exit : Nat

/-- Print an error and leave with status 1. -/
def fail (w : World) (c : Config) (err : GoError) : Outcome :=
  ⟨fmtPrintln w [Operand.str (goStr "error: "), Operand.errorText err], c, 1⟩

/-- The function `run`, called with the value of the `--config` flag and the
variable `Config` at that point. -/
def run (w : World) (config : GoString) (c : Config) : Outcome :=
  if config = [] then
    ⟨fmtPrintln w [Operand.str (goStr "error: No config file specified. Use --config or -c.")],
      c, 1⟩
  else
    match getState w config c with
    | (w1, c1, some err) => fail w1 c1 err
    | (w1, c1, none) =>
      match getPublicIP w1 with
      | (w2, _, some err) => fail w2 c1 err
      | (w2, publicIP, none) =>
        if publicIP ≠ c1.History.LastIP then
          match setPublicIP c1 w2 publicIP with
          | (w3, some err) => fail w3 c1 err
          | (w3, none) =>
            let c2 : Config := { c1 with History := { c1.History with LastIP := publicIP } }
            let c3 : Config :=
              { c2 with History := { c2.History with LastSet := (timeNow w3).2.Unix } }
            let c4 : Config :=
              { c3 with History := { c3.History with
                  NextVerify := ((timeNow (timeNow w3).1).2.Add (14 * Minute)).Unix } }
            match setState (timeNow (timeNow w3).1).1 config c4 with
            | (w4, some err) => fail w4 c4 err
            | (w4, none) => ⟨w4, c4, 0⟩
        else ⟨w2, c1, 0⟩

/-- The run of a fresh process: `Config` is zero and nothing has happened yet. -/
def execute (env : Env) (config : GoString) : Outcome := run (start env) config Config.zero

/-! ## Observations of a run, sample data and notions used in the proofs -/

/-- The POSTs of a trace, in order: the address and the form of each. -/
def posts (tr : List Event) : List (GoString × Values) :=
  tr.filterMap (fun e => match e with
    | Event.httpPostForm url data => some (url, data)
    | _ => none)

/-- The file writes of a trace, in order. -/
def writes (tr : List Event) : List (GoString × Bytes × Nat) :=
  tr.filterMap (fun e => match e with
    | Event.writeFile file data perm => some (file, data, perm)
    | _ => none)

/-- The file reads of a trace, in order. -/
def reads (tr : List Event) : List GoString :=
  tr.filterMap (fun e => match e with
    | Event.readFile file => some file
    | _ => none)

/-- The GETs of a trace, in order. -/
def gets (tr : List Event) : List GoString :=
  tr.filterMap (fun e => match e with
    | Event.httpGet url => some url
    | _ => none)

/-- A request completes: the call returned a response and its body was read. -/
def completes (r : Except GoError Response) : Bool :=
  match r with
  | Except.error _ => false
  | Except.ok resp =>
    match resp.Body with
    | Except.error _ => false
    | Except.ok _ => true

/-- The address every record is posted to. -/
def apiURL : GoString := goStr "https://www.cloudflare.com/api_json.html"

/-- The nine form fields of the request for one record. -/
def nineFields (c : Config) (record : Record) (ip : GoString) : Values :=
  [(goStr "a", [goStr "rec_edit"]), (goStr "tkn", [c.Token]), (goStr "email", [c.Email]),
    (goStr "z", [c.Zone]), (goStr "id", [record.Id]), (goStr "name", [record.Hostname]),
    (goStr "type", [goStr "A"]), (goStr "ttl", [goStr "1"]), (goStr "content", [ip])]

/-- The world after the POST for `r` has been made. -/
def posted (c : Config) (ip : GoString) (r : Record) (w : World) : World :=
  { w with trace := w.trace ++ [Event.httpPostForm apiURL (nineFields c r ip)],
           posts := w.posts + 1 }

/-- The world after the answer to the POST for `r` has been printed. -/
def printed (c : Config) (ip : GoString) (r : Record) (w : World) (resp : Response)
    (body : Bytes) : World :=
  fmtPrintln
    (fmtPrintln (posted c ip r w) [Operand.str (goStr "Body: "), Operand.str body])
    [Operand.str (goStr "Status Code: "), Operand.str resp.Status, Operand.str (goStr "\n")]

/-- The world in which the records are posted: the file has been read and the
address fetched. -/
def ready (env : Env) (config : GoString) : World :=
  ⟨env, env.files,
    [Event.readFile config, Event.httpGet (goStr "http://myip.dnsomatic.com/")], 0, 0⟩

/-- The configuration `run` hands to `setState`. -/
def updated (env : Env) (cfg : Config) (ip : GoString) : Config :=
  { cfg with History := ⟨ip, (env.clock 0).Unix, ((env.clock 1).Add (14 * Minute)).Unix⟩ }

/-- The world after the POSTs of a run that found the address changed. -/
def afterPosts (env : Env) (config : GoString) (cfg : Config) (ip : GoString) : World :=
  (setPublicIPLoop cfg ip cfg.records (ready env config)).1

/-- A state file with three records whose last address is 1.2.3.4. -/
def sampleFile : Bytes :=
  goStr ("\x7b\"Email\":\"me@example.org\",\"Token\":\"secret\",\"Zone\":\"example.org\"," ++
    "\"Records\":[\x7b\"Hostname\":\"a\",\"Id\":\"1\"\x7d,\x7b\"Hostname\":\"b\",\"Id\":\"2\"\x7d," ++
    "\x7b\"Hostname\":\"c\",\"Id\":\"3\"\x7d],\"History\":\x7b\"LastIP\":\"1.2.3.4\"\x7d\x7d")

/-- The configuration `sampleFile` holds. -/
def sampleConfig : Config :=
  { LogFile := [], Email := goStr "me@example.org", Token := goStr "secret",
    Zone := goStr "example.org",
    Records := some [⟨goStr "a", goStr "1"⟩, ⟨goStr "b", goStr "2"⟩, ⟨goStr "c", goStr "3"⟩],
    History := ⟨goStr "1.2.3.4", 0, 0⟩ }

/-- The path of the sample state file. -/
def samplePath : GoString := goStr "cfupdate.json"

/-- An answer with status 200 and the given body. -/
def okResponse (body : Bytes) : Response := ⟨goStr "200 OK", Except.ok body⟩

/-- A network error. -/
def netError : GoError := GoError.io (goStr "connection refused")

/-- An environment in which every path holds the sample file, the echo service
answers `ip`, the POSTs get the answers `post`, and the two clock readings are
`t0` and `t1`. -/
def sampleEnv (ip : Bytes) (post : Nat → Except GoError Response) (t0 t1 : Time)
    (write : WriteOutcome) : Env :=
  { files := fun _ => Except.ok sampleFile
    get := Except.ok (okResponse ip)
    post := post
    clock := fun n => if n = 0 then t0 else t1
    write := write }

/-- Every POST is answered with status 200. -/
def postsOk : Nat → Except GoError Response := fun _ => Except.ok (okResponse (goStr "\x7b\x7d"))

/-- The second POST fails, the others are answered. -/
def secondPostFails : Nat → Except GoError Response :=
  fun n => if n = 1 then Except.error netError else Except.ok (okResponse (goStr "\x7b\x7d"))

/-- Noon sharp, as a clock reading. -/
def noon : Time := ⟨43200, 0⟩

/-- What `appendStringLoop` writes for an ASCII byte. -/
def asciiEscape (b : Byte) : Bytes :=
  if htmlSafe b = true then [b]
  else if b = 0x5C ∨ b = 0x22 then [0x5C, b]
  else if b = 0x08 then [0x5C, 0x62]
  else if b = 0x0C then [0x5C, 0x66]
  else if b = 0x0A then [0x5C, 0x6E]
  else if b = 0x0D then [0x5C, 0x72]
  else if b = 0x09 then [0x5C, 0x74]
  else [0x5C, 0x75, 0x30, 0x30, hexDigit (b.val / 16), hexDigit (b.val % 16)]

/-- The text between the quotes that `appendString` writes for `s`. -/
def quoted (s : GoString) : Bytes := appendStringLoop s.length s

/-- The value of a string of decimal digits, as `ParseInt` accumulates it. -/
def digitsValue (ds : Bytes) : Nat := ds.foldl (fun a d => a * 10 + (d.val - 0x30)) 0

/-- What must follow a number for the scan to stop there: no digit, point or
exponent mark. -/
def numberEnd (r : Bytes) : Prop :=
  ∀ c, r.head? = some c → isDigit c = false ∧ c ≠ 0x2E ∧ c ≠ 0x65 ∧ c ≠ 0x45

/-- Every byte of `ws` is white space. -/
def spaces (ws : Bytes) : Prop := ws.all isSpace = true

/-- What follows a value in indented text: a comma or a line break. -/
def follows (r : Bytes) : Prop := r.head? = some 0x2C ∨ r.head? = some 0x0A

/-- A member of an object in indented text: the key, a colon, a blank and the
text of the value. -/
def memberText (key : GoString) (vtext : Bytes) : Bytes :=
  appendString key ++ (0x3A :: 0x20 :: vtext)

/-- The members of an object after the first, each behind a comma and the
white space `sep`. -/
def membersTail (sep : Bytes) : List (GoString × Bytes × JSON) → Bytes
  | [] => []
  | m :: ms => 0x2C :: (sep ++ (memberText m.1 m.2.1 ++ membersTail sep ms))

/-- The JSON value of a record. -/
def recordTree (r : Record) : JSON :=
  JSON.obj [(goStr "Hostname", JSON.str r.Hostname), (goStr "Id", JSON.str r.Id)]

/-- The JSON value of `Records`. -/
def recordsTree : Option (List Record) → JSON
  | none => JSON.null
  | some rs => JSON.arr (rs.map recordTree)

/-- The JSON value of `History`. -/
def historyTree (h : History) : JSON :=
  JSON.obj [(goStr "LastIP", JSON.str h.LastIP), (goStr "LastSet", JSON.num (formatInt h.LastSet)),
    (goStr "NextVerify", JSON.num (formatInt h.NextVerify))]

/-- The JSON value of a configuration. -/
def configTree (c : Config) : JSON :=
  JSON.obj [(goStr "LogFile", JSON.str c.LogFile), (goStr "Email", JSON.str c.Email),
    (goStr "Token", JSON.str c.Token), (goStr "Zone", JSON.str c.Zone),
    (goStr "Records", recordsTree c.Records), (goStr "History", historyTree c.History)]

/-- Every string of the record is valid UTF-8. -/
def Record.valid (r : Record) : Prop := utf8Valid r.Hostname = true ∧ utf8Valid r.Id = true

/-- Every string of the configuration is valid UTF-8. -/
def Config.valid (c : Config) : Prop :=
  utf8Valid c.LogFile = true ∧ utf8Valid c.Email = true ∧ utf8Valid c.Token = true ∧
  utf8Valid c.Zone = true ∧ (∀ r ∈ c.records, Record.valid r) ∧
  utf8Valid c.History.LastIP = true

/-- A line break and one tab. -/
def nl1 : Bytes := [0x0A, 0x09]

/-- A line break and two tabs. -/
def nl2 : Bytes := [0x0A, 0x09, 0x09]

/-- A line break and three tabs. -/
def nl3 : Bytes := [0x0A, 0x09, 0x09, 0x09]

mutual
/-- Every string value inside a JSON value is valid UTF-8. -/
def JSON.ok : JSON → Prop
  | JSON.str s => utf8Valid s = true
  | JSON.arr l => okList l
  | JSON.obj ms => okMembers ms
  | JSON.null => True
  | JSON.bool _ => True
  | JSON.num _ => True
/-- Every element of the list is `ok`. -/
def okList : List JSON → Prop
  | [] => True
  | v :: vs => JSON.ok v ∧ okList vs
/-- Every value of the members is `ok`. -/
def okMembers : List (GoString × JSON) → Prop
  | [] => True
  | m :: ms => JSON.ok m.2 ∧ okMembers ms
end

/-- What decoding maintains: the strings of the configuration and of the
records left in the slice's memory are valid UTF-8. -/
def DecodeState.valid (st : DecodeState) : Prop :=
  Config.valid st.config ∧ ∀ r ∈ st.spare, Record.valid r

/-- The last nanosecond before noon. -/
def beforeNoon : Time := ⟨43199, 999999999⟩

/-- The configuration a run has after loading the file at `config`. -/
def loaded (env : Env) (config : GoString) : Config :=
  (getState (start env) config Config.zero).2.1

/-- The error of loading the file at `config`, `none` when it loads. -/
def loadError (env : Env) (config : GoString) : Option GoError :=
  (getState (start env) config Config.zero).2.2

/-- The address `getPublicIP` returns in this environment. -/
def resolved (env : Env) : GoString := (getPublicIP (start env)).2.1

/-- The write of the state file fails. -/
def writeFails (env : Env) : Prop := ∃ err left, env.write = WriteOutcome.failed err left

/-- An environment in which no file exists. -/
def noFiles : Env :=
  { files := fun _ => Except.error (GoError.io (goStr "no such file or directory"))
    get := Except.ok (okResponse (goStr "1.2.3.4"))
    post := postsOk
    clock := fun _ => noon
    write := WriteOutcome.ok }

/-- An environment in which every file holds JSON of the wrong shape: the
`Email` is a number. -/
def wrongShape : Env :=
  { noFiles with files := fun _ => Except.ok (goStr "\x7b\"Email\": 5\x7d") }

/-- An environment in which every file holds the text `null`, which is valid
JSON but no object. -/
def nullFile : Env :=
  { noFiles with files := fun _ => Except.ok (goStr "null") }

/-- A configuration whose `LastIP` is the single byte `0xFF`, which is not
valid UTF-8. -/
def badConfig : Config := { Config.zero with History := ⟨[0xFF], 0, 0⟩ }

/-- The configuration that comes back after `badConfig` is saved: the byte has
become U+FFFD. -/
def coercedConfig : Config := { Config.zero with History := ⟨[0xEF, 0xBF, 0xBD], 0, 0⟩ }

/-- A configuration with text outside ASCII, all of it valid UTF-8. -/
def unicodeConfig : Config :=
  { sampleConfig with LogFile := goStr "日志 <cfupdate>.log", Zone := goStr "exämple.org\n",
                      History := ⟨goStr "5.6.7.8", 1700000000, 1700000840⟩ }

instance (c : Config) : Decidable (Config.valid c) := by
  unfold Config.valid Record.valid
  infer_instance

/-! ## What a trace shows -/

/-! ## Lemmas on the parts of `run` -/

theorem urlStr_eq : urlStr = apiURL := by decide

theorem recEditForm_eq (c : Config) (r : Record) (ip : GoString) :
    recEditForm c r ip = nineFields c r ip := rfl

theorem completes_ok {r : Except GoError Response} (h : completes r = true) :
    ∃ resp body, r = Except.ok resp ∧ resp.Body = Except.ok body := by
  cases r with
  | error e => simp [completes] at h
  | ok resp =>
    cases hb : resp.Body with
    | error e => simp [completes, hb] at h
    | ok body => exact ⟨resp, body, rfl, hb⟩

theorem loop_cons_error (c : Config) (ip : GoString) (r : Record) (rest : List Record)
    (w : World) (e : GoError) (hp : w.env.post w.posts = Except.error e) :
    setPublicIPLoop c ip (r :: rest) w = (posted c ip r w, some e) := by
  simp [setPublicIPLoop, httpPostForm, hp, posted, urlStr_eq, recEditForm_eq]

theorem loop_cons_unread (c : Config) (ip : GoString) (r : Record) (rest : List Record)
    (w : World) (resp : Response) (e : GoError) (hp : w.env.post w.posts = Except.ok resp)
    (hb : resp.Body = Except.error e) :
    setPublicIPLoop c ip (r :: rest) w = (posted c ip r w, some e) := by
  simp [setPublicIPLoop, httpPostForm, hp, hb, posted, urlStr_eq, recEditForm_eq]

theorem loop_cons_ok (c : Config) (ip : GoString) (r : Record) (rest : List Record)
    (w : World) (resp : Response) (body : Bytes) (hp : w.env.post w.posts = Except.ok resp)
    (hb : resp.Body = Except.ok body) :
    setPublicIPLoop c ip (r :: rest) w = setPublicIPLoop c ip rest (printed c ip r w resp body) := by
  simp [setPublicIPLoop, httpPostForm, hp, hb, posted, printed, urlStr_eq, recEditForm_eq]

theorem loop_cons_fail (c : Config) (ip : GoString) (r : Record) (rest : List Record)
    (w : World) (h : completes (w.env.post w.posts) = false) :
    ∃ e, setPublicIPLoop c ip (r :: rest) w = (posted c ip r w, some e) := by
  cases hp : w.env.post w.posts with
  | error e => exact ⟨e, loop_cons_error c ip r rest w e hp⟩
  | ok resp =>
    cases hb : resp.Body with
    | error e => exact ⟨e, loop_cons_unread c ip r rest w resp e hp hb⟩
    | ok body => simp [completes, hp, hb] at h

/-- The loop leaves files, environment and clock alone, and adds no read, GET
or write to the trace. -/
theorem loop_frame (c : Config) (ip : GoString) (recs : List Record) (w : World) :
    (setPublicIPLoop c ip recs w).1.files = w.files ∧
    (setPublicIPLoop c ip recs w).1.env = w.env ∧
    (setPublicIPLoop c ip recs w).1.ticks = w.ticks ∧
    writes (setPublicIPLoop c ip recs w).1.trace = writes w.trace ∧
    reads (setPublicIPLoop c ip recs w).1.trace = reads w.trace ∧
    gets (setPublicIPLoop c ip recs w).1.trace = gets w.trace := by
  induction recs generalizing w with
  | nil => simp [setPublicIPLoop]
  | cons r rest ih =>
    cases hc : completes (w.env.post w.posts) with
    | false =>
      obtain ⟨e, he⟩ := loop_cons_fail c ip r rest w hc
      simp [he, posted, writes, reads, gets]
    | true =>
      obtain ⟨resp, body, hp, hb⟩ := completes_ok hc
      rw [loop_cons_ok c ip r rest w resp body hp hb]
      obtain ⟨h1, h2, h3, h4, h5, h6⟩ := ih (printed c ip r w resp body)
      refine ⟨h1.trans rfl, h2.trans rfl, h3.trans rfl, h4.trans ?_, h5.trans ?_, h6.trans ?_⟩
        <;> simp [printed, posted, fmtPrintln, writes, reads, gets]

/-- When every POST completes, the loop returns no error and has posted the
form of each record in order. -/
theorem loop_all (c : Config) (ip : GoString) (recs : List Record) (w : World)
    (h : ∀ k, k < recs.length → completes (w.env.post (w.posts + k)) = true) :
    (setPublicIPLoop c ip recs w).2 = none ∧
    posts (setPublicIPLoop c ip recs w).1.trace =
      posts w.trace ++ recs.map (fun r => (apiURL, nineFields c r ip)) := by
  induction recs generalizing w with
  | nil => simp [setPublicIPLoop]
  | cons r rest ih =>
    obtain ⟨resp, body, hp, hb⟩ := completes_ok (h 0 (by simp))
    simp only [Nat.add_zero] at hp
    rw [loop_cons_ok c ip r rest w resp body hp hb]
    have ih' := ih (printed c ip r w resp body) (by
        intro k hk
        have := h (k + 1) (by simpa using hk)
        simpa [printed, posted, fmtPrintln, Nat.add_assoc, Nat.add_comm 1 k] using this)
    refine ⟨ih'.1, ih'.2.trans ?_⟩
    simp [printed, posted, fmtPrintln, posts]

/-- When POST number `k` is the first that does not complete, the loop returns
an error and has posted the forms of the first `k + 1` records only. -/
theorem loop_fail (c : Config) (ip : GoString) (recs : List Record) (w : World) (k : Nat)
    (hk : k < recs.length)
    (hbefore : ∀ j, j < k → completes (w.env.post (w.posts + j)) = true)
    (hfail : completes (w.env.post (w.posts + k)) = false) :
    (setPublicIPLoop c ip recs w).2 ≠ none ∧
    posts (setPublicIPLoop c ip recs w).1.trace =
      posts w.trace ++ (recs.take (k + 1)).map (fun r => (apiURL, nineFields c r ip)) := by
  induction recs generalizing w k with
  | nil => simp at hk
  | cons r rest ih =>
    cases k with
    | zero =>
      simp only [Nat.add_zero] at hfail
      obtain ⟨e, he⟩ := loop_cons_fail c ip r rest w hfail
      simp [he, posted, posts]
    | succ k =>
      obtain ⟨resp, body, hp, hb⟩ := completes_ok (hbefore 0 (by omega))
      simp only [Nat.add_zero] at hp
      rw [loop_cons_ok c ip r rest w resp body hp hb]
      have ih' := ih (printed c ip r w resp body) k (by simpa using hk)
        (by
          intro j hj
          have := hbefore (j + 1) (by omega)
          simpa [printed, posted, fmtPrintln, Nat.add_assoc, Nat.add_comm 1 j] using this)
        (by simpa [printed, posted, fmtPrintln, Nat.add_assoc, Nat.add_comm 1 k] using hfail)
      refine ⟨ih'.1, ih'.2.trans ?_⟩
      simp [printed, posted, fmtPrintln, posts]

/-- The loop returns an error exactly when some POST it can reach does not
complete. -/
theorem loop_error_iff (c : Config) (ip : GoString) (recs : List Record) (w : World) :
    (setPublicIPLoop c ip recs w).2 ≠ none ↔
      ∃ k, k < recs.length ∧ completes (w.env.post (w.posts + k)) = false := by
  constructor
  · intro h
    by_contra hne
    have hall : ∀ k, k < recs.length → completes (w.env.post (w.posts + k)) = true := by
      intro k hk
      by_contra hc
      exact hne ⟨k, hk, by simpa using hc⟩
    exact h (loop_all c ip recs w hall).1
  · rintro ⟨k, hk, hc⟩
    -- take the first POST that does not complete
    have hex : ∃ k, k < recs.length ∧ completes (w.env.post (w.posts + k)) = false :=
      ⟨k, hk, hc⟩
    classical
    let k0 := Nat.find hex
    have hk0 : k0 < recs.length ∧ completes (w.env.post (w.posts + k0)) = false :=
      Nat.find_spec hex
    have hmin : ∀ j, j < k0 → completes (w.env.post (w.posts + j)) = true := by
      intro j hj
      have := Nat.find_min hex hj
      by_contra hcj
      exact this ⟨by omega, by simpa using hcj⟩
    exact (loop_fail c ip recs w k0 hk0.1 hmin hk0.2).1

/-! ## The steps of a run -/

theorem getState_world (w : World) (file : GoString) (o : Config) :
    getState w file o =
      (⟨w.env, w.files, w.trace ++ [Event.readFile file], w.posts, w.ticks⟩,
        (getState w file o).2) := by
  unfold getState ioutilReadFile
  cases w.files file <;> rfl

theorem getState_result (w : World) (file : GoString) (o : Config) :
    (getState w file o).2 =
      match w.files file with
      | Except.error err => (o, some err)
      | Except.ok data => jsonUnmarshal data o := by
  unfold getState ioutilReadFile
  cases w.files file <;> rfl

theorem getPublicIP_ok (w : World) (resp : Response) (ip : Bytes)
    (hget : w.env.get = Except.ok resp) (hbody : resp.Body = Except.ok ip) :
    getPublicIP w =
      (⟨w.env, w.files, w.trace ++ [Event.httpGet (goStr "http://myip.dnsomatic.com/")],
        w.posts, w.ticks⟩, ip, none) := by
  simp [getPublicIP, httpGet, hget, hbody]

theorem getPublicIP_fail (w : World) (h : completes w.env.get = false) :
    ∃ e, getPublicIP w =
      (⟨w.env, w.files, w.trace ++ [Event.httpGet (goStr "http://myip.dnsomatic.com/")],
        w.posts, w.ticks⟩, [], some e) := by
  cases hg : w.env.get with
  | error e => exact ⟨e, by simp [getPublicIP, httpGet, hg]⟩
  | ok resp =>
    cases hb : resp.Body with
    | error e => exact ⟨e, by simp [getPublicIP, httpGet, hg, hb]⟩
    | ok body => simp [completes, hg, hb] at h

/-- A run that finds the address unchanged. -/
theorem execute_same (env : Env) (config : GoString) (cfg : Config) (resp : Response)
    (ip : GoString) (hne : config ≠ [])
    (hload : (getState (start env) config Config.zero).2 = (cfg, none))
    (hget : env.get = Except.ok resp) (hbody : resp.Body = Except.ok ip)
    (hsame : ip = cfg.History.LastIP) :
    execute env config = ⟨ready env config, cfg, 0⟩ := by
  unfold execute run
  rw [if_neg hne, getState_world, hload]
  simp only []
  rw [getPublicIP_ok _ resp ip hget hbody]
  simp [hsame, ready, start]

/-- A run that finds the address changed, up to the end of the POSTs. -/
theorem execute_changed (env : Env) (config : GoString) (cfg : Config) (resp : Response)
    (ip : GoString) (hne : config ≠ [])
    (hload : (getState (start env) config Config.zero).2 = (cfg, none))
    (hget : env.get = Except.ok resp) (hbody : resp.Body = Except.ok ip)
    (hdiff : ip ≠ cfg.History.LastIP) :
    execute env config =
      match setPublicIPLoop cfg ip cfg.records (ready env config) with
      | (w3, some err) => fail w3 cfg err
      | (w3, none) =>
        match setState ⟨w3.env, w3.files, w3.trace, w3.posts, w3.ticks + 1 + 1⟩ config
            { cfg with History := ⟨ip, (w3.env.clock w3.ticks).Unix,
                ((w3.env.clock (w3.ticks + 1)).Add (14 * Minute)).Unix⟩ } with
        | (w4, some err) =>
          fail w4 { cfg with History := ⟨ip, (w3.env.clock w3.ticks).Unix,
                ((w3.env.clock (w3.ticks + 1)).Add (14 * Minute)).Unix⟩ } err
        | (w4, none) =>
          ⟨w4, { cfg with History := ⟨ip, (w3.env.clock w3.ticks).Unix,
                ((w3.env.clock (w3.ticks + 1)).Add (14 * Minute)).Unix⟩ }, 0⟩ := by
  unfold execute run
  rw [if_neg hne, getState_world, hload]
  simp only []
  rw [getPublicIP_ok _ resp ip hget hbody]
  simp only [ne_eq, hdiff, not_false_eq_true, if_true, setPublicIP]
  rfl

theorem setState_eq (w : World) (file : GoString) (o : Config) :
    setState w file o = ioutilWriteFile w file (jsonMarshalIndent o).1 0o600 := rfl

/-- A run that finds the address changed and completes every POST. -/
theorem execute_updated (env : Env) (config : GoString) (cfg : Config) (resp : Response)
    (ip : GoString) (hne : config ≠ [])
    (hload : (getState (start env) config Config.zero).2 = (cfg, none))
    (hget : env.get = Except.ok resp) (hbody : resp.Body = Except.ok ip)
    (hdiff : ip ≠ cfg.History.LastIP)
    (hall : ∀ k, k < cfg.records.length → completes (env.post k) = true) :
    execute env config =
      match env.write with
      | WriteOutcome.ok =>
        ⟨⟨env, Function.update env.files config
              (Except.ok (jsonMarshalIndent (updated env cfg ip)).1),
            (afterPosts env config cfg ip).trace ++
              [Event.writeFile config (jsonMarshalIndent (updated env cfg ip)).1 0o600],
            (afterPosts env config cfg ip).posts, 2⟩, updated env cfg ip, 0⟩
      | WriteOutcome.failed err left =>
        fail ⟨env, Function.update env.files config left,
            (afterPosts env config cfg ip).trace ++
              [Event.writeFile config (jsonMarshalIndent (updated env cfg ip)).1 0o600],
            (afterPosts env config cfg ip).posts, 2⟩ (updated env cfg ip) err := by
  rw [execute_changed env config cfg resp ip hne hload hget hbody hdiff]
  have hall' : ∀ k, k < cfg.records.length →
      completes ((ready env config).env.post ((ready env config).posts + k)) = true := by
    intro k hk
    simpa [ready] using hall k hk
  have h1 := (loop_all cfg ip cfg.records (ready env config) hall').1
  obtain ⟨hf, he, ht, -, -, -⟩ := loop_frame cfg ip cfg.records (ready env config)
  generalize hw : setPublicIPLoop cfg ip cfg.records (ready env config) = res at *
  obtain ⟨w3, err⟩ := res
  simp only at h1 hf he ht
  have hw3 : afterPosts env config cfg ip = w3 := by simp [afterPosts, hw]
  subst h1
  simp only [setState_eq, ioutilWriteFile, he, hf, ht, ready, hw3, updated]
  cases env.write <;> rfl

/-- The POSTs of a run that found the address changed and completed them all. -/
theorem afterPosts_posts (env : Env) (config : GoString) (cfg : Config) (ip : GoString)
    (hall : ∀ k, k < cfg.records.length → completes (env.post k) = true) :
    posts (afterPosts env config cfg ip).trace =
      cfg.records.map (fun r => (apiURL, nineFields cfg r ip)) := by
  have hall' : ∀ k, k < cfg.records.length →
      completes ((ready env config).env.post ((ready env config).posts + k)) = true := by
    intro k hk
    simpa [ready] using hall k hk
  have h := (loop_all cfg ip cfg.records (ready env config) hall').2
  simpa [afterPosts, ready, posts] using h

theorem afterPosts_frame (env : Env) (config : GoString) (cfg : Config) (ip : GoString) :
    (afterPosts env config cfg ip).files = env.files ∧
    writes (afterPosts env config cfg ip).trace = [] ∧
    reads (afterPosts env config cfg ip).trace = [config] ∧
    gets (afterPosts env config cfg ip).trace = [goStr "http://myip.dnsomatic.com/"] := by
  obtain ⟨hf, -, -, hw, hr, hg⟩ := loop_frame cfg ip cfg.records (ready env config)
  refine ⟨hf, hw.trans ?_, hr.trans ?_, hg.trans ?_⟩ <;> simp [ready, writes, reads, gets]

theorem int64_ext {a b : Int64} (h : a.val = b.val) : a = b := by
  cases a; cases b; simp only at h; subst h; rfl

/-! ## Sample data -/

set_option maxRecDepth 100000 in
theorem sampleFile_decodes : jsonUnmarshal sampleFile Config.zero = (sampleConfig, none) := by
  decide

theorem sample_loads (ip : Bytes) (post : Nat → Except GoError Response) (t0 t1 : Time)
    (write : WriteOutcome) :
    (getState (start (sampleEnv ip post t0 t1 write)) samplePath Config.zero).2 =
      (sampleConfig, none) := by
  rw [getState_result]
  exact sampleFile_decodes

theorem samplePath_ne : samplePath ≠ [] := by decide

/-! ## UTF-8: encoding a decoded rune gives the bytes back -/

theorem byte_val (b : Byte) : byte b.val = b := by
  apply Fin.ext
  simp [byte, Nat.mod_eq_of_lt b.isLt]

theorem byte_eq_of_val {n : Nat} {b : Byte} (h : n = b.val) : byte n = b := by
  subst h
  exact byte_val b

/-- The leading bytes of two-byte sequences. -/
theorem first_two (b : Byte) (h1 : 0xC2 ≤ b.val) (h2 : b.val ≤ 0xDF) :
    first b = some (2, 0x80, 0xBF) := by
  simp [first, h1, h2]

/-- The leading bytes of three-byte sequences, and of four-byte sequences. -/
theorem first_cases (b : Byte) (hb : 0x80 ≤ b.val) :
    first b = none ∨ (first b = some (2, 0x80, 0xBF) ∧ 0xC2 ≤ b.val ∧ b.val ≤ 0xDF) ∨
    (first b = some (3, 0xA0, 0xBF) ∧ b.val = 0xE0) ∨
    (first b = some (3, 0x80, 0xBF) ∧ 0xE1 ≤ b.val ∧ b.val ≤ 0xEF ∧ b.val ≠ 0xED) ∨
    (first b = some (3, 0x80, 0x9F) ∧ b.val = 0xED) ∨
    (first b = some (4, 0x90, 0xBF) ∧ b.val = 0xF0) ∨
    (first b = some (4, 0x80, 0xBF) ∧ 0xF1 ≤ b.val ∧ b.val ≤ 0xF3) ∨
    (first b = some (4, 0x80, 0x8F) ∧ b.val = 0xF4) := by
  unfold first
  split_ifs <;> simp <;> omega

/-- The decoding of a two-byte sequence. -/
theorem decodeRune_two (b b1 : Byte) (t : List Byte) (h1 : 0xC2 ≤ b.val) (h2 : b.val ≤ 0xDF) :
    decodeRune (b :: b1 :: t) =
      if b1.val < 0x80 ∨ 0xBF < b1.val then (RuneError, 1)
      else (b.val % 32 * 64 + b1.val % 64, 2) := by
  have hb : ¬ b.val < 0x80 := by omega
  simp [decodeRune, hb, first_two b h1 h2]

theorem encodeRune_two (b b1 : Byte) (h1 : 0xC2 ≤ b.val) (h2 : b.val ≤ 0xDF)
    (h3 : 0x80 ≤ b1.val) (h4 : b1.val ≤ 0xBF) :
    encodeRune (b.val % 32 * 64 + b1.val % 64) = [b, b1] := by
  unfold encodeRune
  rw [if_neg (by omega), if_pos (by omega)]
  congr 1
  · exact byte_eq_of_val (by omega)
  · congr 1
    exact byte_eq_of_val (by omega)

/-- The decoding of a three-byte sequence. -/
theorem decodeRune_three (b b1 b2 : Byte) (t : List Byte) (lo hi : Nat) (hb : 0x80 ≤ b.val)
    (hf : first b = some (3, lo, hi)) :
    decodeRune (b :: b1 :: b2 :: t) =
      if b1.val < lo ∨ hi < b1.val then (RuneError, 1)
      else if b2.val < 0x80 ∨ 0xBF < b2.val then (RuneError, 1)
      else (b.val % 16 * 4096 + b1.val % 64 * 64 + b2.val % 64, 3) := by
  have hb' : ¬ b.val < 0x80 := by omega
  simp [decodeRune, hb', hf]

/-- The decoding of a four-byte sequence. -/
theorem decodeRune_four (b b1 b2 b3 : Byte) (t : List Byte) (lo hi : Nat) (hb : 0x80 ≤ b.val)
    (hf : first b = some (4, lo, hi)) :
    decodeRune (b :: b1 :: b2 :: b3 :: t) =
      if b1.val < lo ∨ hi < b1.val then (RuneError, 1)
      else if b2.val < 0x80 ∨ 0xBF < b2.val then (RuneError, 1)
      else if b3.val < 0x80 ∨ 0xBF < b3.val then (RuneError, 1)
      else (b.val % 8 * 262144 + b1.val % 64 * 4096 + b2.val % 64 * 64 + b3.val % 64, 4) := by
  have hb' : ¬ b.val < 0x80 := by omega
  simp [decodeRune, hb', hf]

/-- A sequence cut short decodes to `(RuneError, 1)`. -/
theorem decodeRune_short (b : Byte) (t : List Byte) (sz lo hi : Nat) (hb : 0x80 ≤ b.val)
    (hf : first b = some (sz, lo, hi)) (hlen : (b :: t).length < sz) :
    decodeRune (b :: t) = (RuneError, 1) := by
  have hb' : ¬ b.val < 0x80 := by omega
  simp only [decodeRune, hb', if_false, hf, hlen, if_true]

theorem encodeRune_three (b b1 b2 : Byte) (h1 : 0xE0 ≤ b.val) (h2 : b.val ≤ 0xEF)
    (h3 : 0x80 ≤ b1.val) (h4 : b1.val ≤ 0xBF) (h5 : b.val = 0xE0 → 0xA0 ≤ b1.val)
    (h6 : b.val = 0xED → b1.val ≤ 0x9F) (h7 : 0x80 ≤ b2.val) (h8 : b2.val ≤ 0xBF) :
    encodeRune (b.val % 16 * 4096 + b1.val % 64 * 64 + b2.val % 64) = [b, b1, b2] := by
  unfold encodeRune MaxRune
  rw [if_neg (by omega), if_neg (by omega), if_neg (by omega), if_pos (by omega)]
  congr 1
  · exact byte_eq_of_val (by omega)
  · congr 1
    · exact byte_eq_of_val (by omega)
    · congr 1
      exact byte_eq_of_val (by omega)

theorem encodeRune_four (b b1 b2 b3 : Byte) (h1 : 0xF0 ≤ b.val) (h2 : b.val ≤ 0xF4)
    (h3 : 0x80 ≤ b1.val) (h4 : b1.val ≤ 0xBF) (h5 : b.val = 0xF0 → 0x90 ≤ b1.val)
    (h6 : b.val = 0xF4 → b1.val ≤ 0x8F) (h7 : 0x80 ≤ b2.val) (h8 : b2.val ≤ 0xBF)
    (h9 : 0x80 ≤ b3.val) (h10 : b3.val ≤ 0xBF) :
    encodeRune (b.val % 8 * 262144 + b1.val % 64 * 4096 + b2.val % 64 * 64 + b3.val % 64) =
      [b, b1, b2, b3] := by
  unfold encodeRune MaxRune
  rw [if_neg (by omega), if_neg (by omega), if_neg (by omega), if_neg (by omega)]
  congr 1
  · exact byte_eq_of_val (by omega)
  · congr 1
    · exact byte_eq_of_val (by omega)
    · congr 1
      · exact byte_eq_of_val (by omega)
      · congr 1
        exact byte_eq_of_val (by omega)

/-- What a valid multi-byte sequence at the head of `b :: t` gives: its length
`sz` and its rune `c`, the encoding of `c` is the sequence itself, and whatever
follows the sequence does not change the decoding. -/
theorem decodeRune_multi (b : Byte) (t : List Byte) (hb : 0x80 ≤ b.val)
    (hv : decodeRune (b :: t) ≠ (RuneError, 1)) :
    ∃ c sz, decodeRune (b :: t) = (c, sz) ∧ 2 ≤ sz ∧ sz ≤ (b :: t).length ∧
      encodeRune c = (b :: t).take sz ∧
      ∀ x, decodeRune ((b :: t).take sz ++ x) = (c, sz) := by
  have hb' : ¬ b.val < 0x80 := by omega
  rcases first_cases b hb with hf | ⟨hf, h1, h2⟩ | ⟨hf, h1⟩ | ⟨hf, h1, h2, h3⟩ | ⟨hf, h1⟩ |
      ⟨hf, h1⟩ | ⟨hf, h1, h2⟩ | ⟨hf, h1⟩
  · exact absurd (by simp [decodeRune, hb', hf]) hv
  · -- two bytes
    rcases t with _ | ⟨b1, t⟩
    · exact absurd (decodeRune_short b [] _ _ _ hb hf (by simp)) hv
    · rw [decodeRune_two b b1 t h1 h2] at hv ⊢
      by_cases hc : b1.val < 0x80 ∨ 0xBF < b1.val
      · simp [hc] at hv
      · rw [if_neg hc]
        refine ⟨_, 2, rfl, le_refl _, by simp, ?_, ?_⟩
        · exact encodeRune_two b b1 h1 h2 (by omega) (by omega)
        · intro x
          show decodeRune (b :: b1 :: ([] ++ x)) = _
          rw [decodeRune_two b b1 _ h1 h2, if_neg hc]
  all_goals
    first
    | -- three bytes
      rcases t with _ | ⟨b1, _ | ⟨b2, t⟩⟩
      · exact absurd (decodeRune_short b [] _ _ _ hb hf (by simp)) hv
      · exact absurd (decodeRune_short b [b1] _ _ _ hb hf (by simp)) hv
      · rw [decodeRune_three b b1 b2 t _ _ hb hf] at hv ⊢
        split_ifs at hv ⊢ with hc1 hc2
        · exact absurd rfl hv
        · exact absurd rfl hv
        · refine ⟨_, 3, rfl, by omega, by simp, ?_, ?_⟩
          · exact encodeRune_three b b1 b2 (by omega) (by omega) (by omega) (by omega)
              (by omega) (by omega) (by omega) (by omega)
          · intro x
            show decodeRune (b :: b1 :: b2 :: ([] ++ x)) = _
            rw [decodeRune_three b b1 b2 _ _ _ hb hf, if_neg hc1, if_neg hc2]
    | -- four bytes
      rcases t with _ | ⟨b1, _ | ⟨b2, _ | ⟨b3, t⟩⟩⟩
      · exact absurd (decodeRune_short b [] _ _ _ hb hf (by simp)) hv
      · exact absurd (decodeRune_short b [b1] _ _ _ hb hf (by simp)) hv
      · exact absurd (decodeRune_short b [b1, b2] _ _ _ hb hf (by simp)) hv
      · rw [decodeRune_four b b1 b2 b3 t _ _ hb hf] at hv ⊢
        split_ifs at hv ⊢ with hc1 hc2 hc3
        · exact absurd rfl hv
        · exact absurd rfl hv
        · exact absurd rfl hv
        · refine ⟨_, 4, rfl, by omega, by simp, ?_, ?_⟩
          · exact encodeRune_four b b1 b2 b3 (by omega) (by omega) (by omega) (by omega)
              (by omega) (by omega) (by omega) (by omega) (by omega) (by omega)
          · intro x
            show decodeRune (b :: b1 :: b2 :: b3 :: ([] ++ x)) = _
            rw [decodeRune_four b b1 b2 b3 _ _ _ hb hf, if_neg hc1, if_neg hc2, if_neg hc3]

/-- An ASCII byte decodes to itself. -/
theorem decodeRune_ascii (b : Byte) (t : List Byte) (hb : b.val < 0x80) :
    decodeRune (b :: t) = (b.val, 1) := by
  simp [decodeRune, hb]

/-! ## A quoted string scans back to the string -/

theorem prepend_some (pre s : Bytes) (rest : Bytes) :
    prepend pre (some (s, rest)) = some (pre ++ s, rest) := rfl

theorem hexVal_hexDigit (x : Nat) (hx : x < 16) : hexVal (hexDigit x) = some x := by
  interval_cases x <;> rfl

/-- One step of `unquoteLoop` at a plain ASCII byte. -/
theorem unquoteLoop_plain (m : Nat) (c : Byte) (r : Bytes) (h1 : c ≠ 0x22) (h2 : c ≠ 0x5C)
    (h3 : 0x20 ≤ c.val) (h4 : c.val < 0x80) :
    unquoteLoop (m + 1) (c :: r) = prepend [c] (unquoteLoop m r) := by
  have h3' : ¬ c.val < 0x20 := by omega
  simp [unquoteLoop, h1, h2, h3', h4]

/-- One step of `unquoteLoop` at the closing quote. -/
theorem unquoteLoop_quote (m : Nat) (r : Bytes) :
    unquoteLoop (m + 1) (0x22 :: r) = some ([], r) := by
  simp [unquoteLoop]

/-- One step of `unquoteLoop` at a two-byte escape. -/
theorem unquoteLoop_escape (m : Nat) (e x : Byte) (r : Bytes)
    (h : (e = 0x22 ∧ x = 0x22) ∨ (e = 0x5C ∧ x = 0x5C) ∨ (e = 0x62 ∧ x = 0x08) ∨
      (e = 0x66 ∧ x = 0x0C) ∨ (e = 0x6E ∧ x = 0x0A) ∨ (e = 0x72 ∧ x = 0x0D) ∨
      (e = 0x74 ∧ x = 0x09)) :
    unquoteLoop (m + 1) (0x5C :: e :: r) = prepend [x] (unquoteLoop m r) := by
  rcases h with ⟨rfl, rfl⟩ | ⟨rfl, rfl⟩ | ⟨rfl, rfl⟩ | ⟨rfl, rfl⟩ | ⟨rfl, rfl⟩ | ⟨rfl, rfl⟩ |
    ⟨rfl, rfl⟩ <;> simp [unquoteLoop]

/-- One step of `unquoteLoop` at a `\u` escape of a rune that is no surrogate. -/
theorem unquoteLoop_u4 (m : Nat) (h1 h2 h3 h4 : Byte) (r : Bytes) (a b c d : Nat)
    (ha : hexVal h1 = some a) (hb : hexVal h2 = some b) (hc : hexVal h3 = some c)
    (hd : hexVal h4 = some d)
    (hs : ¬ (0xD800 ≤ ((a * 16 + b) * 16 + c) * 16 + d ∧
      ((a * 16 + b) * 16 + c) * 16 + d < 0xE000)) :
    unquoteLoop (m + 1) (0x5C :: 0x75 :: h1 :: h2 :: h3 :: h4 :: r) =
      prepend (encodeRune (((a * 16 + b) * 16 + c) * 16 + d)) (unquoteLoop m r) := by
  simp [unquoteLoop, getu4, ha, hb, hc, hd, hs]

/-- One step of `unquoteLoop` at a byte that is not ASCII. -/
theorem unquoteLoop_multi (m : Nat) (c : Byte) (r : Bytes) (h : 0x80 ≤ c.val) :
    unquoteLoop (m + 1) (c :: r) =
      prepend (encodeRune (decodeRune (c :: r)).1)
        (unquoteLoop m ((c :: r).drop (decodeRune (c :: r)).2)) := by
  have h1 : c ≠ 0x22 := by intro hc; rw [hc] at h; exact absurd h (by decide)
  have h2 : c ≠ 0x5C := by intro hc; rw [hc] at h; exact absurd h (by decide)
  have h3 : ¬ c.val < 0x20 := by omega
  have h4 : ¬ c.val < 0x80 := by omega
  simp [unquoteLoop, h1, h2, h3, h4]

theorem validLoop_cons (n : Nat) (b : Byte) (t : List Byte)
    (h : validLoop (n + 1) (b :: t) = true) :
    decodeRune (b :: t) ≠ (RuneError, 1) ∧
      validLoop n ((b :: t).drop (decodeRune (b :: t)).2) = true := by
  unfold validLoop at h
  by_cases hc : decodeRune (b :: t) = (RuneError, 1)
  · simp [hc] at h
  · simpa [hc] using h

theorem validLoop_ascii (n : Nat) (b : Byte) (t : List Byte) (hb : b.val < 0x80)
    (h : validLoop (n + 1) (b :: t) = true) : validLoop n t = true := by
  have := (validLoop_cons n b t h).2
  simpa [decodeRune_ascii b t hb] using this

theorem appendStringLoop_ascii (n : Nat) (b : Byte) (t : List Byte) (hb : b.val < 0x80) :
    appendStringLoop (n + 1) (b :: t) = asciiEscape b ++ appendStringLoop n t := by
  rw [appendStringLoop, if_pos hb]
  unfold asciiEscape
  split_ifs <;> rfl

/-- The quoted form of a valid UTF-8 string, followed by the closing quote,
scans back to the string. -/
theorem unquoteLoop_appendStringLoop (n : Nat) :
    ∀ (s : List Byte), s.length ≤ n → validLoop n s = true → ∀ (m : Nat) (rest : Bytes),
      (appendStringLoop n s).length + 1 ≤ m →
      unquoteLoop m (appendStringLoop n s ++ 0x22 :: rest) = some (s, rest) := by
  induction n with
  | zero =>
    intro s hs _ m rest hm
    have : s = [] := List.eq_nil_of_length_eq_zero (by omega)
    subst this
    obtain ⟨m, rfl⟩ : ∃ k, m = k + 1 := ⟨m - 1, by omega⟩
    simp [appendStringLoop, unquoteLoop_quote]
  | succ n ih =>
    intro s hs hv m rest hm
    obtain ⟨m, rfl⟩ : ∃ k, m = k + 1 := ⟨m - 1, by omega⟩
    cases s with
    | nil => simp [appendStringLoop, unquoteLoop_quote]
    | cons b t =>
      have hlen : t.length ≤ n := by simpa using hs
      by_cases hb : b.val < 0x80
      · -- an ASCII byte
        have hvt := validLoop_ascii n b t hb hv
        by_cases hs : htmlSafe b = true
        · have he : appendStringLoop (n + 1) (b :: t) = b :: appendStringLoop n t := by
            simp [appendStringLoop, hb, hs]
          rw [he] at hm ⊢
          have hsafe : 0x20 ≤ b.val ∧ b.val < 0x80 ∧ b ≠ 0x22 ∧ b ≠ 0x5C ∧ b ≠ 0x3C ∧
              b ≠ 0x3E ∧ b ≠ 0x26 := by simpa [htmlSafe] using hs
          rw [List.cons_append, unquoteLoop_plain m b _ hsafe.2.2.1 hsafe.2.2.2.1 hsafe.1 hb,
            ih t hlen hvt m rest (by simpa using hm), prepend_some]
          rfl
        · by_cases hq : b = 0x5C ∨ b = 0x22
          · have he : appendStringLoop (n + 1) (b :: t) = 0x5C :: b :: appendStringLoop n t := by
              simp [appendStringLoop, hb, hs, hq]
            rw [he] at hm ⊢
            rw [List.cons_append, List.cons_append, unquoteLoop_escape m b b _ (by
                rcases hq with rfl | rfl <;> simp),
              ih t hlen hvt m rest (by simp at hm; omega), prepend_some]
            rfl
          · have hq1 : b ≠ 0x5C := fun h => hq (Or.inl h)
            have hq2 : b ≠ 0x22 := fun h => hq (Or.inr h)
            by_cases h8 : b = 0x08
            · have he : appendStringLoop (n + 1) (b :: t) = 0x5C :: 0x62 :: appendStringLoop n t := by
                rw [appendStringLoop_ascii n b t hb, asciiEscape, if_neg hs, if_neg hq,
                  if_pos h8]
                rfl
              rw [he] at hm ⊢
              rw [List.cons_append, List.cons_append, unquoteLoop_escape m 0x62 0x08 _ (by simp),
                ih t hlen hvt m rest (by simp at hm; omega), prepend_some, h8]
              rfl
            by_cases hC : b = 0x0C
            · have he : appendStringLoop (n + 1) (b :: t) = 0x5C :: 0x66 :: appendStringLoop n t := by
                rw [appendStringLoop_ascii n b t hb, asciiEscape, if_neg hs, if_neg hq, if_neg h8,
                  if_pos hC]
                rfl
              rw [he] at hm ⊢
              rw [List.cons_append, List.cons_append, unquoteLoop_escape m 0x66 0x0C _ (by simp),
                ih t hlen hvt m rest (by simp at hm; omega), prepend_some, hC]
              rfl
            by_cases hA : b = 0x0A
            · have he : appendStringLoop (n + 1) (b :: t) = 0x5C :: 0x6E :: appendStringLoop n t := by
                rw [appendStringLoop_ascii n b t hb, asciiEscape, if_neg hs, if_neg hq, if_neg h8, if_neg hC,
                  if_pos hA]
                rfl
              rw [he] at hm ⊢
              rw [List.cons_append, List.cons_append, unquoteLoop_escape m 0x6E 0x0A _ (by simp),
                ih t hlen hvt m rest (by simp at hm; omega), prepend_some, hA]
              rfl
            by_cases hD : b = 0x0D
            · have he : appendStringLoop (n + 1) (b :: t) = 0x5C :: 0x72 :: appendStringLoop n t := by
                rw [appendStringLoop_ascii n b t hb, asciiEscape, if_neg hs, if_neg hq, if_neg h8, if_neg hC, if_neg hA,
                  if_pos hD]
                rfl
              rw [he] at hm ⊢
              rw [List.cons_append, List.cons_append, unquoteLoop_escape m 0x72 0x0D _ (by simp),
                ih t hlen hvt m rest (by simp at hm; omega), prepend_some, hD]
              rfl
            by_cases h9 : b = 0x09
            · have he : appendStringLoop (n + 1) (b :: t) = 0x5C :: 0x74 :: appendStringLoop n t := by
                rw [appendStringLoop_ascii n b t hb, asciiEscape, if_neg hs, if_neg hq, if_neg h8, if_neg hC, if_neg hA, if_neg hD,
                  if_pos h9]
                rfl
              rw [he] at hm ⊢
              rw [List.cons_append, List.cons_append, unquoteLoop_escape m 0x74 0x09 _ (by simp),
                ih t hlen hvt m rest (by simp at hm; omega), prepend_some, h9]
              rfl
            · have he : appendStringLoop (n + 1) (b :: t) =
                  0x5C :: 0x75 :: 0x30 :: 0x30 :: hexDigit (b.val / 16) :: hexDigit (b.val % 16)
                    :: appendStringLoop n t := by
                rw [appendStringLoop_ascii n b t hb, asciiEscape, if_neg hs, if_neg hq, if_neg h8,
                  if_neg hC, if_neg hA, if_neg hD, if_neg h9]
                rfl
              rw [he] at hm ⊢
              simp only [List.cons_append]
              rw [unquoteLoop_u4 m 0x30 0x30 _ _ _ 0 0 (b.val / 16) (b.val % 16) rfl rfl
                  (hexVal_hexDigit _ (by omega)) (hexVal_hexDigit _ (by omega)) (by omega),
                ih t hlen hvt m rest (by simp at hm; omega), prepend_some]
              have hval : ((0 * 16 + 0) * 16 + b.val / 16) * 16 + b.val % 16 = b.val := by omega
              rw [hval]
              have henc : encodeRune b.val = [b] := by
                unfold encodeRune
                rw [if_pos (by omega), byte_val]
              rw [henc]
              rfl
      · -- the first byte of a multi-byte sequence
        have hb' : 0x80 ≤ b.val := by omega
        obtain ⟨hne, hvd⟩ := validLoop_cons n b t hv
        obtain ⟨c, sz, hdec, hsz2, hszl, henc, hx⟩ := decodeRune_multi b t hb' hne
        rw [hdec] at hvd
        simp only at hvd
        have hdl : ((b :: t).drop sz).length ≤ n := by
          simp only [List.length_drop, List.length_cons] at hs ⊢
          omega
        have htl : ((b :: t).take sz).length = sz := by
          rw [List.length_take]
          exact Nat.min_eq_left hszl
        have hnot : ¬ (c = RuneError ∧ sz = 1) := by omega
        by_cases hsep : c = 0x2028 ∨ c = 0x2029
        · have he : appendStringLoop (n + 1) (b :: t) =
              0x5C :: 0x75 :: 0x32 :: 0x30 :: 0x32 :: hexDigit (c % 16)
                :: appendStringLoop n ((b :: t).drop sz) := by
            rw [appendStringLoop, if_neg hb]
            simp only [hdec]
            rw [if_neg hnot, if_pos hsep]
          rw [he] at hm ⊢
          simp only [List.cons_append]
          rw [unquoteLoop_u4 m 0x32 0x30 0x32 _ _ 2 0 2 (c % 16) rfl rfl rfl
              (hexVal_hexDigit _ (by omega)) (by omega),
            ih _ hdl hvd m rest (by simp at hm; omega), prepend_some]
          have hval : ((2 * 16 + 0) * 16 + 2) * 16 + c % 16 = c := by omega
          rw [hval, henc, List.take_append_drop]
        · have he : appendStringLoop (n + 1) (b :: t) =
              (b :: t).take sz ++ appendStringLoop n ((b :: t).drop sz) := by
            rw [appendStringLoop, if_neg hb]
            simp only [hdec]
            rw [if_neg hnot, if_neg hsep]
          rw [he] at hm ⊢
          obtain ⟨k, rfl⟩ : ∃ k, sz = k + 1 := ⟨sz - 1, by omega⟩
          have hstep : unquoteLoop (m + 1)
              (((b :: t).take (k + 1) ++ appendStringLoop n ((b :: t).drop (k + 1))) ++
                0x22 :: rest) =
              prepend ((b :: t).take (k + 1))
                (unquoteLoop m (appendStringLoop n ((b :: t).drop (k + 1)) ++ 0x22 :: rest)) := by
            have hform : ((b :: t).take (k + 1) ++ appendStringLoop n ((b :: t).drop (k + 1))) ++
                0x22 :: rest = b :: (t.take k ++
                  (appendStringLoop n ((b :: t).drop (k + 1)) ++ 0x22 :: rest)) := by
              simp [List.take_succ_cons]
            have hx' := hx (appendStringLoop n ((b :: t).drop (k + 1)) ++ 0x22 :: rest)
            have hform2 : (b :: t).take (k + 1) ++
                (appendStringLoop n ((b :: t).drop (k + 1)) ++ 0x22 :: rest) =
                b :: (t.take k ++
                  (appendStringLoop n ((b :: t).drop (k + 1)) ++ 0x22 :: rest)) := by
              simp [List.take_succ_cons]
            rw [hform2] at hx'
            rw [hform, unquoteLoop_multi m b _ hb', hx']
            simp only
            rw [henc, ← hform2, List.drop_left' htl]
          rw [hstep, ih _ hdl hvd m rest (by
            rw [List.length_append, htl] at hm
            omega), prepend_some, List.take_append_drop]

theorem appendString_eq (s : GoString) : appendString s = 0x22 :: (quoted s ++ [0x22]) := rfl

/-- A JSON string written by `appendString` for valid UTF-8 scans back to it. -/
theorem scanString_quoted (s : GoString) (hv : utf8Valid s = true) (rest : Bytes) :
    scanString (quoted s ++ 0x22 :: rest) = some (s, rest) := by
  unfold scanString quoted
  exact unquoteLoop_appendStringLoop s.length s (le_refl _) hv _ rest (by simp)

/-! ## A number written by `formatInt` scans and parses back -/

theorem digitsValue_append (ds : Bytes) (d : Byte) :
    digitsValue (ds ++ [d]) = digitsValue ds * 10 + (d.val - 0x30) := by
  simp [digitsValue, List.foldl_append]

theorem isDigit_byte (u : Nat) (hu : u < 10) : isDigit (byte (0x30 + u)) = true := by
  have : (byte (0x30 + u)).val = 0x30 + u := by
    simp only [byte]
    omega
  simp [isDigit, this]
  omega

theorem byte_digit_val (u : Nat) (hu : u < 10) : (byte (0x30 + u)).val - 0x30 = u := by
  have : (byte (0x30 + u)).val = 0x30 + u := by
    simp only [byte]
    omega
  omega

/-- The digits `formatLoop` writes: at least one, all decimal, with the value
`u`, and with a leading zero only for the single digit `0`. -/
theorem formatLoop_spec (f : Nat) :
    ∀ (u : Nat) (acc : Bytes), u < 10 ^ f → 0 < f →
      ∃ ds, formatLoop f u acc = ds ++ acc ∧ ds ≠ [] ∧ (∀ d ∈ ds, isDigit d = true) ∧
        digitsValue ds = u ∧ (ds.head? = some 0x30 → ds = [0x30]) := by
  induction f with
  | zero => intro u acc _ hf; omega
  | succ f ih =>
    intro u acc hu _
    by_cases h10 : u < 10
    · refine ⟨[byte (0x30 + u)], ?_, by simp, ?_, ?_, ?_⟩
      · simp [formatLoop, h10]
      · intro d hd
        simp only [List.mem_singleton] at hd
        subst hd
        exact isDigit_byte u h10
      · simp [digitsValue, byte_digit_val u h10]
      · intro h
        simp only [List.head?_cons, Option.some.injEq] at h
        rw [h]
    · have hf : 0 < f := by
        rcases Nat.eq_zero_or_pos f with h0 | h0
        · subst h0
          simp at hu
          omega
        · exact h0
      have hdiv : u / 10 < 10 ^ f := by
        rw [Nat.div_lt_iff_lt_mul (by decide)]
        rw [pow_succ] at hu
        exact hu
      obtain ⟨ds, hds, hne, hdig, hval, hlead⟩ :=
        ih (u / 10) (byte (0x30 + u % 10) :: acc) hdiv hf
      refine ⟨ds ++ [byte (0x30 + u % 10)], ?_, by simp, ?_, ?_, ?_⟩
      · simp [formatLoop, h10, hds]
      · intro d hd
        rcases List.mem_append.1 hd with hd | hd
        · exact hdig d hd
        · simp only [List.mem_singleton] at hd
          subst hd
          exact isDigit_byte _ (Nat.mod_lt _ (by decide))
      · rw [digitsValue_append, hval, byte_digit_val _ (Nat.mod_lt _ (by decide))]
        omega
      · intro h
        exfalso
        cases ds with
        | nil => exact hne rfl
        | cons d ds' =>
          simp only [List.cons_append, List.head?_cons, Option.some.injEq] at h
          have := hlead (by simp [h])
          rw [this] at hval
          simp [digitsValue] at hval
          omega

/-- The digits of the absolute value of an `int64`. -/
theorem formatLoop_int64 (i : Int64) :
    ∃ ds, formatLoop 20 i.val.natAbs [] = ds ∧ ds ≠ [] ∧ (∀ d ∈ ds, isDigit d = true) ∧
      digitsValue ds = i.val.natAbs ∧ (ds.head? = some 0x30 → ds = [0x30]) := by
  have hb : i.val.natAbs < 10 ^ 20 := by
    have h1 := i.lo
    have h2 := i.hi
    omega
  obtain ⟨ds, h1, h2, h3, h4, h5⟩ := formatLoop_spec 20 i.val.natAbs [] hb (by decide)
  exact ⟨ds, by simpa using h1, h2, h3, h4, h5⟩

theorem takeWhile_numberEnd (r : Bytes) (hr : numberEnd r) : r.takeWhile isDigit = [] := by
  cases r with
  | nil => rfl
  | cons c t =>
    have := (hr c rfl).1
    simp [List.takeWhile_cons, this]

theorem dropWhile_numberEnd (r : Bytes) (hr : numberEnd r) : r.dropWhile isDigit = r := by
  cases r with
  | nil => rfl
  | cons c t =>
    have := (hr c rfl).1
    simp [List.dropWhile_cons, this]

theorem scanFrac_numberEnd (r : Bytes) (hr : numberEnd r) : scanFrac r = some ([], r) := by
  cases r with
  | nil => rfl
  | cons c t =>
    have := (hr c rfl).2.1
    simp [scanFrac, this]

theorem scanExp_numberEnd (r : Bytes) (hr : numberEnd r) : scanExp r = some ([], r) := by
  cases r with
  | nil => rfl
  | cons c t =>
    have h := hr c rfl
    simp [scanExp, h.2.2.1, h.2.2.2]

theorem isDigit_ne_minus (c : Byte) (h : isDigit c = true) : c ≠ 0x2D := by
  intro hc
  rw [hc] at h
  exact absurd h (by decide)

theorem isDigit_ne_plus (c : Byte) (h : isDigit c = true) : c ≠ 0x2B := by
  intro hc
  rw [hc] at h
  exact absurd h (by decide)

/-- The integer part of a number text is read up to the end of its digits. -/
theorem scanIntPart_digits (ds r : Bytes) (hne : ds ≠ [])
    (hdig : ∀ d ∈ ds, isDigit d = true) (hlead : ds.head? = some 0x30 → ds = [0x30])
    (hr : numberEnd r) : scanIntPart (ds ++ r) = some (ds, r) := by
  cases ds with
  | nil => exact absurd rfl hne
  | cons c t =>
    by_cases h0 : c = 0x30
    · have := hlead (by simp [h0])
      simp only [List.cons.injEq] at this
      obtain ⟨-, rfl⟩ := this
      simp [scanIntPart, h0]
    · have hc : isDigit c = true := hdig c (by simp)
      have ht : ∀ a ∈ t, isDigit a = true := fun a ha => hdig a (by simp [ha])
      simp only [List.cons_append, scanIntPart, if_neg h0, hc, if_true]
      rw [List.takeWhile_append_of_pos ht, List.dropWhile_append_of_pos ht,
        takeWhile_numberEnd r hr, dropWhile_numberEnd r hr]
      simp

/-- A number without sign is read whole. -/
theorem scanNumber_digits (ds r : Bytes) (hne : ds ≠ [])
    (hdig : ∀ d ∈ ds, isDigit d = true) (hlead : ds.head? = some 0x30 → ds = [0x30])
    (hr : numberEnd r) : scanNumber (ds ++ r) = some (ds, r) := by
  have hsign : (ds ++ r).head? ≠ some 0x2D := by
    cases ds with
    | nil => exact absurd rfl hne
    | cons c t =>
      simp only [List.cons_append, List.head?_cons, ne_eq, Option.some.injEq]
      exact isDigit_ne_minus c (hdig c (by simp))
  unfold scanNumber
  simp only [hsign, if_false, List.length_nil, List.drop_zero,
    scanIntPart_digits ds r hne hdig hlead hr, scanFrac_numberEnd r hr, scanExp_numberEnd r hr]
  simp

/-- A number with a minus sign is read whole. -/
theorem scanNumber_minus (ds r : Bytes) (hne : ds ≠ [])
    (hdig : ∀ d ∈ ds, isDigit d = true) (hlead : ds.head? = some 0x30 → ds = [0x30])
    (hr : numberEnd r) : scanNumber (0x2D :: (ds ++ r)) = some (0x2D :: ds, r) := by
  unfold scanNumber
  simp only [List.head?_cons, if_true, List.length_singleton, List.drop_succ_cons, List.drop_zero,
    scanIntPart_digits ds r hne hdig hlead hr, scanFrac_numberEnd r hr, scanExp_numberEnd r hr]
  simp

/-- The text of an `int64` is read whole by the scanner. -/
theorem scanNumber_formatInt (i : Int64) (r : Bytes) (hr : numberEnd r) :
    scanNumber (formatInt i ++ r) = some (formatInt i, r) := by
  obtain ⟨ds, hds, hne, hdig, -, hlead⟩ := formatLoop_int64 i
  unfold formatInt
  rw [hds]
  split_ifs
  · exact scanNumber_minus ds r hne hdig hlead hr
  · exact scanNumber_digits ds r hne hdig hlead hr

/-- The first byte of the text of an `int64` is a minus sign or a digit. -/
theorem formatInt_head (i : Int64) :
    ∃ c t, formatInt i = c :: t ∧ (c = 0x2D ∨ isDigit c = true) := by
  obtain ⟨ds, hds, hne, hdig, -, -⟩ := formatLoop_int64 i
  unfold formatInt
  rw [hds]
  split_ifs
  · exact ⟨0x2D, ds, rfl, Or.inl rfl⟩
  · cases ds with
    | nil => exact absurd rfl hne
    | cons c t => exact ⟨c, t, rfl, Or.inr (hdig c (by simp))⟩

/-- The function `ParseInt` gives back the `int64` that `formatInt` wrote. -/
theorem parseInt_formatInt (i : Int64) : parseInt (formatInt i) = some i := by
  obtain ⟨ds, hds, hne, hdig, hval, -⟩ := formatLoop_int64 i
  have hlo := i.lo
  have hhi := i.hi
  have hall : ds.all isDigit = true := by
    rw [List.all_eq_true]
    exact hdig
  have hfold : (ds.foldl (fun a d => a * 10 + (d.val - 0x30)) 0 : Nat) = i.val.natAbs := hval
  unfold formatInt
  rw [hds]
  by_cases hneg : i.val < 0
  · rw [if_pos hneg]
    unfold parseInt
    simp only [List.head?_cons, List.tail_cons, true_or, if_true, decide_True]
    rw [if_pos ⟨hne, hall⟩]
    simp only [hfold, if_true]
    rw [dif_pos (by omega)]
    congr 1
    apply int64_ext
    show -((i.val.natAbs : Nat) : Int) = i.val
    omega
  · rw [if_neg hneg]
    cases ds with
    | nil => exact absurd rfl hne
    | cons c t =>
      have hc : isDigit c = true := hdig c (by simp)
      have h1 : c ≠ 0x2D := isDigit_ne_minus c hc
      have h2 : c ≠ 0x2B := isDigit_ne_plus c hc
      unfold parseInt
      simp only [List.head?_cons, Option.some.injEq, h1, h2, or_self, if_false, decide_False]
      rw [if_pos ⟨hne, hall⟩]
      simp only [hfold, Bool.false_eq_true, if_false]
      rw [dif_pos (by omega)]
      congr 1
      apply int64_ext
      show ((i.val.natAbs : Nat) : Int) = i.val
      omega

/-! ## The parser: more fuel changes nothing -/

theorem map_some_mono {α β : Type} {f : α → β} {a b : Option α} {r : β}
    (hab : ∀ x, a = some x → b = some x) (h : a.map f = some r) : b.map f = some r := by
  cases a with
  | none => simp at h
  | some x =>
    rw [hab x rfl]
    exact h

/-- A parse that succeeds with some fuel succeeds with one more. -/
theorem parse_mono (n : Nat) :
    (∀ s r, parseValue n s = some r → parseValue (n + 1) s = some r) ∧
    (∀ s r, parseElems n s = some r → parseElems (n + 1) s = some r) ∧
    (∀ s r, parseMembers n s = some r → parseMembers (n + 1) s = some r) := by
  induction n with
  | zero =>
    refine ⟨?_, ?_, ?_⟩ <;> intro s r h
    · simp [parseValue] at h
    · simp [parseElems] at h
    · simp [parseMembers] at h
  | succ n ih =>
    obtain ⟨ihv, ihe, ihm⟩ := ih
    refine ⟨?_, ?_, ?_⟩
    · intro s r h
      rw [parseValue] at h ⊢
      cases hs : skipSpace s with
      | nil => simp [hs] at h
      | cons c rest =>
        simp only [hs] at h ⊢
        split_ifs at h ⊢ with h1 h2 h3 h4 h5 h6 h7
        · cases hs2 : skipSpace rest with
          | nil => simp [hs2] at h
          | cons d rest2 =>
            simp only [hs2] at h ⊢
            split_ifs at h ⊢ with hd
            · exact h
            · exact map_some_mono (ihm _) h
        · cases hs2 : skipSpace rest with
          | nil => simp [hs2] at h
          | cons d rest2 =>
            simp only [hs2] at h ⊢
            split_ifs at h ⊢ with hd
            · exact h
            · exact map_some_mono (ihe _) h
        all_goals exact h
    · intro s r h
      rw [parseElems] at h ⊢
      cases hv : parseValue n s with
      | none => simp [hv] at h
      | some x =>
        obtain ⟨v, rest⟩ := x
        rw [ihv s _ hv]
        simp only [hv] at h ⊢
        cases hs : skipSpace rest with
        | nil => simp [hs] at h
        | cons c rest2 =>
          simp only [hs] at h ⊢
          split_ifs at h ⊢ with h1 h2
          · exact map_some_mono (ihe _) h
          · exact h
    · intro s r h
      rw [parseMembers] at h ⊢
      cases hs : skipSpace s with
      | nil => simp [hs] at h
      | cons q rest =>
        simp only [hs] at h ⊢
        split_ifs at h ⊢ with hq
        · cases hk : scanString rest with
          | none => simp [hk] at h
          | some x =>
            obtain ⟨key, rest1⟩ := x
            simp only [hk] at h ⊢
            cases hs1 : skipSpace rest1 with
            | nil => simp [hs1] at h
            | cons c rest2 =>
              simp only [hs1] at h ⊢
              split_ifs at h ⊢ with hc
              · cases hv : parseValue n rest2 with
                | none => simp [hv] at h
                | some y =>
                  obtain ⟨v, rest3⟩ := y
                  rw [ihv _ _ hv]
                  simp only [hv] at h ⊢
                  cases hs3 : skipSpace rest3 with
                  | nil => simp [hs3] at h
                  | cons d rest4 =>
                    simp only [hs3] at h ⊢
                    split_ifs at h ⊢ with hd1 hd2
                    · exact map_some_mono (ihm _) h
                    · exact h

theorem parseValue_mono {n m : Nat} (hnm : n ≤ m) {s : Bytes} {r : JSON × Bytes}
    (h : parseValue n s = some r) : parseValue m s = some r := by
  induction hnm with
  | refl => exact h
  | step _ ih => exact (parse_mono _).1 s r ih

theorem parseElems_mono {n m : Nat} (hnm : n ≤ m) {s : Bytes} {r : List JSON × Bytes}
    (h : parseElems n s = some r) : parseElems m s = some r := by
  induction hnm with
  | refl => exact h
  | step _ ih => exact (parse_mono _).2.1 s r ih

theorem parseMembers_mono {n m : Nat} (hnm : n ≤ m) {s : Bytes}
    {r : List (GoString × JSON) × Bytes}
    (h : parseMembers n s = some r) : parseMembers m s = some r := by
  induction hnm with
  | refl => exact h
  | step _ ih => exact (parse_mono _).2.2 s r ih

/-! ## The parser on the text `MarshalIndent` lays out -/

theorem skipSpace_spaces (ws r : Bytes) (h : spaces ws) : skipSpace (ws ++ r) = skipSpace r := by
  unfold skipSpace
  exact List.dropWhile_append_of_pos (List.all_eq_true.1 h)

theorem skipSpace_cons (c : Byte) (r : Bytes) (h : isSpace c = false) :
    skipSpace (c :: r) = c :: r := by
  unfold skipSpace
  rw [List.dropWhile_cons_of_neg (by simp [h])]

theorem skipSpace_spaces_cons (ws : Bytes) (c : Byte) (r : Bytes) (h : spaces ws)
    (hc : isSpace c = false) : skipSpace (ws ++ c :: r) = c :: r := by
  rw [skipSpace_spaces ws _ h, skipSpace_cons c r hc]

theorem follows_numberEnd (r : Bytes) (h : follows r) : numberEnd r := by
  intro c hc
  rcases h with h | h <;> rw [h] at hc <;> cases hc <;> decide

theorem follows_skipSpace_comma (r : Bytes) : skipSpace (0x2C :: r) = 0x2C :: r :=
  skipSpace_cons _ _ (by decide)

set_option maxRecDepth 100000 in
theorem digit_props (c : Byte) (hc : c = 0x2D ∨ isDigit c = true) :
    isSpace c = false ∧ c ≠ 0x7B ∧ c ≠ 0x5B ∧ c ≠ 0x22 := by
  revert c
  decide

/-- A string value in front of `rest`. -/
theorem parseValue_string (n : Nat) (ws : Bytes) (s : GoString) (rest : Bytes)
    (hws : spaces ws) (hs : utf8Valid s = true) :
    parseValue (n + 1) (ws ++ (appendString s ++ rest)) = some (JSON.str s, rest) := by
  have htext : appendString s ++ rest = 0x22 :: (quoted s ++ 0x22 :: rest) := by
    simp [appendString_eq]
  rw [htext, parseValue, skipSpace_spaces_cons ws _ _ hws (by decide)]
  simp [scanString_quoted s hs rest]

/-- A number value in front of `rest`. -/
theorem parseValue_number (n : Nat) (ws : Bytes) (i : Int64) (rest : Bytes)
    (hws : spaces ws) (hr : follows rest) :
    parseValue (n + 1) (ws ++ (formatInt i ++ rest)) = some (JSON.num (formatInt i), rest) := by
  obtain ⟨c, t, hct, hc⟩ := formatInt_head i
  have hsc := scanNumber_formatInt i rest (follows_numberEnd rest hr)
  obtain ⟨hnsp, h1, h2, h3⟩ := digit_props c hc
  rw [hct] at hsc ⊢
  rw [List.cons_append] at hsc ⊢
  rw [parseValue, skipSpace_spaces_cons ws _ _ hws hnsp]
  simp only
  rw [if_neg h1, if_neg h2, if_neg h3, if_pos hc, hsc]
  rfl

/-- The value `null` in front of `rest`. -/
theorem parseValue_null (n : Nat) (ws rest : Bytes) (hws : spaces ws) :
    parseValue (n + 1) (ws ++ (goStr "null" ++ rest)) = some (JSON.null, rest) := by
  have htext : goStr "null" ++ rest = 0x6E :: 0x75 :: 0x6C :: 0x6C :: rest := rfl
  rw [htext, parseValue, skipSpace_spaces_cons ws _ _ hws (by decide)]
  simp only [if_true]
  have hlit : expectLit (goStr "null") (0x6E :: 0x75 :: 0x6C :: 0x6C :: rest) = some rest := by
    have hg : goStr "null" = [0x6E, 0x75, 0x6C, 0x6C] := rfl
    rw [hg]
    simp [expectLit]
  rw [hlit]
  rfl

/-- The empty array in front of `rest`. -/
theorem parseValue_empty_array (n : Nat) (ws rest : Bytes) (hws : spaces ws) :
    parseValue (n + 1) (ws ++ (goStr "[]" ++ rest)) = some (JSON.arr [], rest) := by
  have htext : goStr "[]" ++ rest = 0x5B :: 0x5D :: rest := rfl
  rw [htext, parseValue, skipSpace_spaces_cons ws _ _ hws (by decide)]
  simp only [if_true]
  rw [skipSpace_cons _ _ (by decide)]
  simp

/-- One member read by `parseMembers`, up to what comes after its value. -/
theorem parseMembers_cons (k : Nat) (ws : Bytes) (key : GoString) (vt : Bytes) (v : JSON)
    (tail : Bytes) (hws : spaces ws) (hkey : utf8Valid key = true)
    (hv : parseValue k (0x20 :: (vt ++ tail)) = some (v, tail)) :
    parseMembers (k + 1) (ws ++ (memberText key vt ++ tail)) =
      match skipSpace tail with
      | [] => none
      | d :: rest4 =>
        if d = 0x2C then (parseMembers k rest4).map (fun x => ((key, v) :: x.1, x.2))
        else if d = 0x7D then some ([(key, v)], rest4)
        else none := by
  have htext : memberText key vt ++ tail =
      0x22 :: (quoted key ++ 0x22 :: (0x3A :: 0x20 :: (vt ++ tail))) := by
    simp [memberText, appendString_eq]
  rw [htext, parseMembers, skipSpace_spaces_cons ws _ _ hws (by decide)]
  simp only [if_true, scanString_quoted key hkey]
  rw [skipSpace_cons _ _ (by decide)]
  simp only [if_true, hv]

/-- One element read by `parseElems`, up to what comes after it. -/
theorem parseElems_cons (k : Nat) (s : Bytes) (v : JSON) (tail : Bytes)
    (hv : parseValue k s = some (v, tail)) :
    parseElems (k + 1) s =
      match skipSpace tail with
      | [] => none
      | c :: rest2 =>
        if c = 0x2C then (parseElems k rest2).map (fun x => (v :: x.1, x.2))
        else if c = 0x5D then some ([v], rest2)
        else none := by
  rw [parseElems, hv]

/-- An object that is not empty: the brace, white space, and the members. -/
theorem parseValue_object (k : Nat) (ws opening body : Bytes) (hws : spaces ws)
    (hop : spaces opening) :
    parseValue (k + 1) (ws ++ (0x7B :: (opening ++ (0x22 :: body)))) =
      (parseMembers k (0x22 :: body)).map (fun x => (JSON.obj x.1, x.2)) := by
  rw [parseValue, skipSpace_spaces_cons ws _ _ hws (by decide)]
  simp only [if_true]
  rw [skipSpace_spaces_cons opening _ _ hop (by decide)]
  simp

/-- An array that is not empty and starts with an object. -/
theorem parseValue_array (k : Nat) (ws opening body : Bytes) (hws : spaces ws)
    (hop : spaces opening) :
    parseValue (k + 1) (ws ++ (0x5B :: (opening ++ (0x7B :: body)))) =
      (parseElems k (0x7B :: body)).map (fun x => (JSON.arr x.1, x.2)) := by
  rw [parseValue, skipSpace_spaces_cons ws _ _ hws (by decide)]
  simp only [if_true]
  rw [skipSpace_spaces_cons opening _ _ hop (by decide)]
  simp

theorem follows_of_spaces_close (close rest : Bytes) (h : close.head? = some 0x0A) (c : Byte) :
    follows (close ++ c :: rest) := by
  cases close with
  | nil => simp at h
  | cons d t =>
    simp only [List.head?_cons, Option.some.injEq] at h
    subst h
    exact Or.inr rfl

/-- The members of an object laid out with the separator `sep` and closed
after the white space `close`, when each value is read back by `parseValue`
with fuel `n`. -/
theorem parseMembers_text (n : Nat) (sep close rest : Bytes) (hsep : spaces sep)
    (hclose : spaces close) (hclose0 : close.head? = some 0x0A) :
    ∀ (ms : List (GoString × Bytes × JSON)) (m : GoString × Bytes × JSON) (ws : Bytes),
      spaces ws →
      (∀ x ∈ m :: ms, utf8Valid x.1 = true ∧
        ∀ r, follows r → parseValue n (0x20 :: (x.2.1 ++ r)) = some (x.2.2, r)) →
      parseMembers (n + 1 + ms.length)
          (ws ++ (memberText m.1 m.2.1 ++ (membersTail sep ms ++ (close ++ 0x7D :: rest)))) =
        some ((m :: ms).map (fun x => (x.1, x.2.2)), rest) := by
  intro ms
  induction ms with
  | nil =>
    intro m ws hws hm
    obtain ⟨hkey, hval⟩ := hm m (by simp)
    have hv := hval (close ++ 0x7D :: rest) (follows_of_spaces_close close rest hclose0 _)
    simp only [membersTail, List.nil_append, List.length_nil, Nat.add_zero]
    rw [parseMembers_cons n ws m.1 m.2.1 m.2.2 _ hws hkey hv,
      skipSpace_spaces_cons close _ _ hclose (by decide)]
    simp
  | cons m' ms ih =>
    intro m ws hws hm
    obtain ⟨hkey, hval⟩ := hm m (by simp)
    have hfol : follows (membersTail sep (m' :: ms) ++ (close ++ 0x7D :: rest)) := Or.inl rfl
    have hv := parseValue_mono (Nat.le_add_right n (1 + ms.length)) (hval _ hfol)
    have hfuel : n + 1 + (m' :: ms).length = (n + (1 + ms.length)) + 1 := by
      simp only [List.length_cons]
      omega
    rw [hfuel, parseMembers_cons _ ws m.1 m.2.1 m.2.2 _ hws hkey hv]
    have htail : membersTail sep (m' :: ms) ++ (close ++ 0x7D :: rest) =
        0x2C :: (sep ++ (memberText m'.1 m'.2.1 ++
          (membersTail sep ms ++ (close ++ 0x7D :: rest)))) := by
      simp [membersTail]
    rw [htail, skipSpace_cons _ _ (by decide)]
    simp only [if_true]
    have hfuel2 : n + (1 + ms.length) = n + 1 + ms.length := by omega
    rw [hfuel2, ih m' sep hsep (fun x hx => hm x (by simp [List.mem_cons] at hx ⊢; tauto))]
    simp

/-! ## The value of the text of a configuration -/

theorem spaces_nl1 : spaces nl1 := by unfold spaces; decide

theorem spaces_nl2 : spaces nl2 := by unfold spaces; decide

theorem spaces_nl3 : spaces nl3 := by unfold spaces; decide

theorem spaces_blank : spaces [0x20] := by unfold spaces; decide

theorem spaces_nil : spaces [] := by unfold spaces; decide

theorem spaces_newline : spaces [0x0A] := by unfold spaces; decide

theorem memberText_append (key : GoString) (vt tail : Bytes) :
    memberText key vt ++ tail = 0x22 :: (quoted key ++ 0x22 :: 0x3A :: 0x20 :: (vt ++ tail)) := by
  simp [memberText, appendString_eq]

/-- An object laid out by `MarshalIndent` is read back, when each of its values
is. -/
theorem parseValue_objectText (n : Nat) (ws opening sep close rest : Bytes) (hws : spaces ws)
    (hop : spaces opening) (hsep : spaces sep) (hclose : spaces close)
    (hclose0 : close.head? = some 0x0A) (m : GoString × Bytes × JSON)
    (ms : List (GoString × Bytes × JSON))
    (hm : ∀ x ∈ m :: ms, utf8Valid x.1 = true ∧
      ∀ r, follows r → parseValue n (0x20 :: (x.2.1 ++ r)) = some (x.2.2, r)) :
    parseValue (n + 1 + ms.length + 1)
        (ws ++ (0x7B :: (opening ++ (memberText m.1 m.2.1 ++
          (membersTail sep ms ++ (close ++ 0x7D :: rest)))))) =
      some (JSON.obj ((m :: ms).map (fun x => (x.1, x.2.2))), rest) := by
  have h := parseMembers_text n sep close rest hsep hclose hclose0 ms m [] spaces_nil hm
  rw [List.nil_append] at h
  rw [memberText_append] at h ⊢
  rw [parseValue_object _ ws opening _ hws hop, h]
  rfl

/-- The layout of a record is that of an object with two members. -/
theorem marshalRecord_text (r : Record) (rest : Bytes) :
    marshalRecord r ++ rest =
      0x7B :: (nl3 ++ (memberText (goStr "Hostname") (appendString r.Hostname) ++
          (membersTail nl3 [(goStr "Id", appendString r.Id, JSON.str r.Id)] ++
            (nl2 ++ 0x7D :: rest)))) := by
  have c1 : goStr "\x7b\n\t\t\t\"Hostname\": " =
      0x7B :: (nl3 ++ (appendString (goStr "Hostname") ++ [0x3A, 0x20])) := by decide
  have c2 : goStr ",\n\t\t\t\"Id\": " =
      0x2C :: (nl3 ++ (appendString (goStr "Id") ++ [0x3A, 0x20])) := by decide
  have c3 : goStr "\n\t\t\x7d" = nl2 ++ [0x7D] := by decide
  unfold marshalRecord
  rw [c1, c2, c3]
  simp [membersTail, memberText, appendString_eq]

/-- A string value behind the blank that follows the colon. -/
theorem stringMember_ok (n : Nat) (key s : GoString) (hkey : utf8Valid key = true)
    (hs : utf8Valid s = true) :
    utf8Valid key = true ∧ ∀ r, follows r →
      parseValue (n + 1) (0x20 :: (appendString s ++ r)) = some (JSON.str s, r) :=
  ⟨hkey, fun r _ => parseValue_string n [0x20] s r spaces_blank hs⟩

/-- A number value behind the blank that follows the colon. -/
theorem numberMember_ok (n : Nat) (key : GoString) (i : Int64) (hkey : utf8Valid key = true) :
    utf8Valid key = true ∧ ∀ r, follows r →
      parseValue (n + 1) (0x20 :: (formatInt i ++ r)) = some (JSON.num (formatInt i), r) :=
  ⟨hkey, fun r hr => parseValue_number n [0x20] i r spaces_blank hr⟩

/-- The text of a record is read back as its value. -/
theorem parseValue_marshalRecord (k : Nat) (ws : Bytes) (r : Record) (rest : Bytes)
    (hws : spaces ws) (hr : Record.valid r) :
    parseValue (k + 4) (ws ++ (marshalRecord r ++ rest)) = some (recordTree r, rest) := by
  rw [marshalRecord_text]
  have h := parseValue_objectText (k + 1) ws nl3 nl3 nl2 rest hws spaces_nl3 spaces_nl3
    spaces_nl2 rfl (goStr "Hostname", appendString r.Hostname, JSON.str r.Hostname)
    [(goStr "Id", appendString r.Id, JSON.str r.Id)] (by
      intro x hx
      simp only [List.mem_cons, List.mem_singleton, List.not_mem_nil, or_false] at hx
      rcases hx with rfl | rfl
      · exact stringMember_ok k (goStr "Hostname") _ (by decide) hr.1
      · exact stringMember_ok k (goStr "Id") _ (by decide) hr.2)
  simpa [recordTree, Nat.add_assoc] using h

/-- The layout of `History` is that of an object with three members. -/
theorem marshalHistory_text (h : History) (rest : Bytes) :
    marshalHistory h ++ rest =
      0x7B :: (nl2 ++ (memberText (goStr "LastIP") (appendString h.LastIP) ++
          (membersTail nl2 [(goStr "LastSet", formatInt h.LastSet, JSON.num (formatInt h.LastSet)),
              (goStr "NextVerify", formatInt h.NextVerify, JSON.num (formatInt h.NextVerify))] ++
            (nl1 ++ 0x7D :: rest)))) := by
  have c1 : goStr "\x7b\n\t\t\"LastIP\": " =
      0x7B :: (nl2 ++ (appendString (goStr "LastIP") ++ [0x3A, 0x20])) := by decide
  have c2 : goStr ",\n\t\t\"LastSet\": " =
      0x2C :: (nl2 ++ (appendString (goStr "LastSet") ++ [0x3A, 0x20])) := by decide
  have c3 : goStr ",\n\t\t\"NextVerify\": " =
      0x2C :: (nl2 ++ (appendString (goStr "NextVerify") ++ [0x3A, 0x20])) := by decide
  have c4 : goStr "\n\t\x7d" = nl1 ++ [0x7D] := by decide
  unfold marshalHistory
  rw [c1, c2, c3, c4]
  simp [membersTail, memberText, appendString_eq]

/-- The text of `History` is read back as its value. -/
theorem parseValue_marshalHistory (k : Nat) (ws : Bytes) (h : History) (rest : Bytes)
    (hws : spaces ws) (hv : utf8Valid h.LastIP = true) :
    parseValue (k + 5) (ws ++ (marshalHistory h ++ rest)) = some (historyTree h, rest) := by
  rw [marshalHistory_text]
  have h := parseValue_objectText (k + 1) ws nl2 nl2 nl1 rest hws spaces_nl2 spaces_nl2
    spaces_nl1 rfl (goStr "LastIP", appendString h.LastIP, JSON.str h.LastIP)
    [(goStr "LastSet", formatInt h.LastSet, JSON.num (formatInt h.LastSet)),
      (goStr "NextVerify", formatInt h.NextVerify, JSON.num (formatInt h.NextVerify))] (by
      intro x hx
      simp only [List.mem_cons, List.mem_singleton, List.not_mem_nil, or_false] at hx
      rcases hx with rfl | rfl | rfl
      · exact stringMember_ok k (goStr "LastIP") _ (by decide) hv
      · exact numberMember_ok k (goStr "LastSet") _ (by decide)
      · exact numberMember_ok k (goStr "NextVerify") _ (by decide))
  simpa [historyTree, Nat.add_assoc] using h

theorem marshalMore_cons (r : Record) (rs : List Record) (tail : Bytes) :
    marshalMore (r :: rs) ++ tail =
      0x2C :: (nl2 ++ (marshalRecord r ++ (marshalMore rs ++ tail))) := by
  have c1 : goStr ",\n\t\t" = 0x2C :: nl2 := by decide
  simp [marshalMore, c1]

/-- The elements of a `Records` array are read back as their values. -/
theorem parseElems_records (k : Nat) (rest : Bytes) :
    ∀ (rs : List Record) (r : Record) (ws : Bytes), spaces ws →
      (∀ x ∈ r :: rs, Record.valid x) →
      parseElems (k + 5 + rs.length)
          (ws ++ (marshalRecord r ++ (marshalMore rs ++ (nl1 ++ 0x5D :: rest)))) =
        some ((r :: rs).map recordTree, rest) := by
  intro rs
  induction rs with
  | nil =>
    intro r ws hws hv
    have hp := parseValue_marshalRecord k ws r (marshalMore [] ++ (nl1 ++ 0x5D :: rest)) hws
      (hv r (by simp))
    simp only [List.length_nil, Nat.add_zero]
    rw [parseElems_cons (k + 4) _ _ _ hp]
    simp only [marshalMore, List.nil_append]
    rw [skipSpace_spaces_cons nl1 _ _ spaces_nl1 (by decide)]
    simp
  | cons r' rs ih =>
    intro r ws hws hv
    have hp := parseValue_marshalRecord (k + 1 + rs.length) ws r
      (marshalMore (r' :: rs) ++ (nl1 ++ 0x5D :: rest)) hws (hv r (by simp))
    have hfuel : k + 5 + (r' :: rs).length = (k + 1 + rs.length + 4) + 1 := by
      simp only [List.length_cons]
      omega
    rw [hfuel, parseElems_cons _ _ _ _ hp, marshalMore_cons, skipSpace_cons _ _ (by decide)]
    simp only [if_true]
    have hfuel2 : k + 1 + rs.length + 4 = k + 5 + rs.length := by omega
    rw [hfuel2, ih r' nl2 spaces_nl2 (fun x hx => hv x (by simp [List.mem_cons] at hx ⊢; tauto))]
    simp

/-- The layout of a `Records` that is not empty. -/
theorem marshalRecords_cons (r : Record) (rs : List Record) (rest : Bytes) :
    marshalRecords (some (r :: rs)) ++ rest =
      0x5B :: (nl2 ++ (marshalRecord r ++ (marshalMore rs ++ (nl1 ++ 0x5D :: rest)))) := by
  have c1 : goStr "[\n\t\t" = 0x5B :: nl2 := by decide
  have c2 : goStr "\n\t]" = nl1 ++ [0x5D] := by decide
  simp [marshalRecords, c1, c2]

/-- The text of `Records` is read back as its value. -/
theorem parseValue_marshalRecords (recs : Option (List Record)) (ws rest : Bytes)
    (hws : spaces ws) (hv : ∀ x ∈ recs.getD [], Record.valid x) :
    parseValue ((recs.getD []).length + 6) (ws ++ (marshalRecords recs ++ rest)) =
      some (recordsTree recs, rest) := by
  cases recs with
  | none => exact parseValue_null _ ws rest hws
  | some rs =>
    cases rs with
    | nil => exact parseValue_empty_array _ ws rest hws
    | cons r rs =>
      simp only [Option.getD_some] at hv
      rw [marshalRecords_cons, marshalRecord_text]
      have hfuel : ((some (r :: rs) : Option (List Record)).getD []).length + 6 =
          (1 + 5 + rs.length) + 1 := by
        simp only [Option.getD_some, List.length_cons]
        omega
      rw [hfuel, parseValue_array _ ws nl2 _ hws spaces_nl2, ← marshalRecord_text]
      have h := parseElems_records 1 rest rs r [] spaces_nil hv
      rw [List.nil_append] at h
      rw [h]
      rfl

/-! ## The text of a configuration is read back -/

/-- The layout of a configuration is that of an object with six members. -/
theorem jsonMarshalIndent_text (c : Config) (rest : Bytes) :
    (jsonMarshalIndent c).1 ++ rest =
      0x7B :: (nl1 ++ (memberText (goStr "LogFile") (appendString c.LogFile) ++
          (membersTail nl1 [(goStr "Email", appendString c.Email, JSON.str c.Email),
              (goStr "Token", appendString c.Token, JSON.str c.Token),
              (goStr "Zone", appendString c.Zone, JSON.str c.Zone),
              (goStr "Records", marshalRecords c.Records, recordsTree c.Records),
              (goStr "History", marshalHistory c.History, historyTree c.History)] ++
            ([0x0A] ++ 0x7D :: rest)))) := by
  have c1 : goStr "\x7b\n\t\"LogFile\": " =
      0x7B :: (nl1 ++ (appendString (goStr "LogFile") ++ [0x3A, 0x20])) := by decide
  have c2 : goStr ",\n\t\"Email\": " =
      0x2C :: (nl1 ++ (appendString (goStr "Email") ++ [0x3A, 0x20])) := by decide
  have c3 : goStr ",\n\t\"Token\": " =
      0x2C :: (nl1 ++ (appendString (goStr "Token") ++ [0x3A, 0x20])) := by decide
  have c4 : goStr ",\n\t\"Zone\": " =
      0x2C :: (nl1 ++ (appendString (goStr "Zone") ++ [0x3A, 0x20])) := by decide
  have c5 : goStr ",\n\t\"Records\": " =
      0x2C :: (nl1 ++ (appendString (goStr "Records") ++ [0x3A, 0x20])) := by decide
  have c6 : goStr ",\n\t\"History\": " =
      0x2C :: (nl1 ++ (appendString (goStr "History") ++ [0x3A, 0x20])) := by decide
  have c7 : goStr "\n\x7d" = [0x0A] ++ [0x7D] := by decide
  unfold jsonMarshalIndent
  simp only
  rw [c1, c2, c3, c4, c5, c6, c7]
  simp [membersTail, memberText, appendString_eq]

/-- The text of a configuration with valid strings is read back as its value. -/
theorem parseValue_jsonMarshalIndent (k : Nat) (c : Config) (rest : Bytes)
    (hv : Config.valid c) :
    parseValue (k + c.records.length + 13) ((jsonMarshalIndent c).1 ++ rest) =
      some (configTree c, rest) := by
  obtain ⟨h1, h2, h3, h4, h5, h6⟩ := hv
  rw [jsonMarshalIndent_text]
  have h := parseValue_objectText (k + c.records.length + 6) [] nl1 nl1 [0x0A] rest spaces_nil
    spaces_nl1 spaces_nl1 spaces_newline rfl
    (goStr "LogFile", appendString c.LogFile, JSON.str c.LogFile)
    [(goStr "Email", appendString c.Email, JSON.str c.Email),
      (goStr "Token", appendString c.Token, JSON.str c.Token),
      (goStr "Zone", appendString c.Zone, JSON.str c.Zone),
      (goStr "Records", marshalRecords c.Records, recordsTree c.Records),
      (goStr "History", marshalHistory c.History, historyTree c.History)] (by
      intro x hx
      simp only [List.mem_cons, List.mem_singleton, List.not_mem_nil, or_false] at hx
      rcases hx with rfl | rfl | rfl | rfl | rfl | rfl
      · exact stringMember_ok _ (goStr "LogFile") _ (by decide) h1
      · exact stringMember_ok _ (goStr "Email") _ (by decide) h2
      · exact stringMember_ok _ (goStr "Token") _ (by decide) h3
      · exact stringMember_ok _ (goStr "Zone") _ (by decide) h4
      · refine ⟨(by decide : utf8Valid (goStr "Records") = true), fun r _ => ?_⟩
        have := parseValue_marshalRecords c.Records [0x20] r spaces_blank h5
        exact parseValue_mono (by simp [Config.records]) this
      · refine ⟨(by decide : utf8Valid (goStr "History") = true), fun r _ => ?_⟩
        have := parseValue_marshalHistory (k + c.records.length + 1) [0x20] c.History r
          spaces_blank h6
        exact this)
  rw [List.nil_append] at h
  have hfuel : k + c.records.length + 13 = k + c.records.length + 6 + 1 +
      [(goStr "Email", appendString c.Email, JSON.str c.Email),
      (goStr "Token", appendString c.Token, JSON.str c.Token),
      (goStr "Zone", appendString c.Zone, JSON.str c.Zone),
      (goStr "Records", marshalRecords c.Records, recordsTree c.Records),
      (goStr "History", marshalHistory c.History, historyTree c.History)].length + 1 := by
    simp
  rw [hfuel, h]
  rfl

theorem marshalMore_length (rs : List Record) : rs.length ≤ (marshalMore rs).length := by
  induction rs with
  | nil => simp
  | cons r rs ih =>
    have c1 : (goStr ",\n\t\t").length = 4 := by decide
    simp only [marshalMore, List.length_append, List.length_cons, c1]
    omega

theorem marshalRecords_length (recs : Option (List Record)) :
    (recs.getD []).length ≤ (marshalRecords recs).length := by
  cases recs with
  | none => simp
  | some rs =>
    cases rs with
    | nil => simp
    | cons r rs =>
      have c1 : (goStr "[\n\t\t").length = 4 := by decide
      have := marshalMore_length rs
      simp only [Option.getD_some, marshalRecords, List.length_append, List.length_cons, c1]
      omega

/-- The text is longer than the number of records by more than a dozen. -/
theorem jsonMarshalIndent_length (c : Config) :
    c.records.length + 13 ≤ (jsonMarshalIndent c).1.length := by
  have c1 : (goStr "\x7b\n\t\"LogFile\": ").length = 14 := by decide
  have := marshalRecords_length c.Records
  simp only [jsonMarshalIndent, List.length_append, c1, Config.records]
  omega

/-- The whole text of a configuration with valid strings parses to its value. -/
theorem parseJSON_jsonMarshalIndent (c : Config) (hv : Config.valid c) :
    parseJSON (jsonMarshalIndent c).1 = some (configTree c) := by
  have h := parseValue_jsonMarshalIndent 0 c [] hv
  rw [List.append_nil, Nat.zero_add] at h
  have hlen := jsonMarshalIndent_length c
  have h' := parseValue_mono (m := 2 * (jsonMarshalIndent c).1.length + 2) (by omega) h
  unfold parseJSON
  rw [h']
  rfl

/-! ## The value of a configuration decodes to the configuration -/

theorem configMember_LogFile (st : DecodeState) (v : JSON) :
    configMember st (goStr "LogFile", v) =
      { st with config := { st.config with LogFile := (storeString v st.config.LogFile st.saved).1 },
                saved := (storeString v st.config.LogFile st.saved).2 } := rfl

theorem configMember_Email (st : DecodeState) (v : JSON) :
    configMember st (goStr "Email", v) =
      { st with config := { st.config with Email := (storeString v st.config.Email st.saved).1 },
                saved := (storeString v st.config.Email st.saved).2 } := rfl

theorem configMember_Token (st : DecodeState) (v : JSON) :
    configMember st (goStr "Token", v) =
      { st with config := { st.config with Token := (storeString v st.config.Token st.saved).1 },
                saved := (storeString v st.config.Token st.saved).2 } := rfl

theorem configMember_Zone (st : DecodeState) (v : JSON) :
    configMember st (goStr "Zone", v) =
      { st with config := { st.config with Zone := (storeString v st.config.Zone st.saved).1 },
                saved := (storeString v st.config.Zone st.saved).2 } := rfl

theorem configMember_Records (st : DecodeState) (v : JSON) :
    configMember st (goStr "Records", v) = decodeRecords v st := rfl

theorem configMember_History (st : DecodeState) (v : JSON) :
    configMember st (goStr "History", v) =
      { st with config := { st.config with
                  History := (decodeHistory v st.config.History st.saved).1 },
                saved := (decodeHistory v st.config.History st.saved).2 } := rfl

theorem recordMember_Hostname (st : Record × Option GoError) (v : JSON) :
    recordMember st (goStr "Hostname", v) =
      ({ st.1 with Hostname := (storeString v st.1.Hostname st.2).1 },
        (storeString v st.1.Hostname st.2).2) := rfl

theorem recordMember_Id (st : Record × Option GoError) (v : JSON) :
    recordMember st (goStr "Id", v) =
      ({ st.1 with Id := (storeString v st.1.Id st.2).1 }, (storeString v st.1.Id st.2).2) := rfl

theorem historyMember_LastIP (st : History × Option GoError) (v : JSON) :
    historyMember st (goStr "LastIP", v) =
      ({ st.1 with LastIP := (storeString v st.1.LastIP st.2).1 },
        (storeString v st.1.LastIP st.2).2) := rfl

theorem historyMember_LastSet (st : History × Option GoError) (v : JSON) :
    historyMember st (goStr "LastSet", v) =
      ({ st.1 with LastSet := (storeInt64 v st.1.LastSet st.2).1 },
        (storeInt64 v st.1.LastSet st.2).2) := rfl

theorem historyMember_NextVerify (st : History × Option GoError) (v : JSON) :
    historyMember st (goStr "NextVerify", v) =
      ({ st.1 with NextVerify := (storeInt64 v st.1.NextVerify st.2).1 },
        (storeInt64 v st.1.NextVerify st.2).2) := rfl

/-- A record's value decodes to the record. -/
theorem decodeRecord_recordTree (r old : Record) (saved : Option GoError) :
    decodeRecord (recordTree r) old saved = (r, saved) := by
  simp [decodeRecord, recordTree, recordMember_Hostname, recordMember_Id, storeString]

/-- The values of the records decode to the records. -/
theorem decodeElems_map (rs : List Record) (saved : Option GoError) :
    decodeElems (rs.map recordTree) [] saved = (rs, saved) := by
  induction rs with
  | nil => rfl
  | cons r rs ih => simp [decodeElems, decodeRecord_recordTree, ih]

/-- The value of `History` decodes to it. -/
theorem decodeHistory_historyTree (h old : History) (saved : Option GoError) :
    decodeHistory (historyTree h) old saved = (h, saved) := by
  simp [decodeHistory, historyTree, historyMember_LastIP, historyMember_LastSet,
    historyMember_NextVerify, storeString, storeInt64, parseInt_formatInt]

/-- The value of `Records` decodes to it, when the slice decoded into is nil. -/
theorem decodeRecords_recordsTree (recs : Option (List Record)) (st : DecodeState)
    (h1 : st.config.Records = none) (h2 : st.spare = []) :
    decodeRecords (recordsTree recs) st =
      { st with config := { st.config with Records := recs } } := by
  obtain ⟨c, spare, saved⟩ := st
  simp only at h1 h2
  subst h2
  cases recs with
  | none => simp [decodeRecords, recordsTree]
  | some rs =>
    cases rs with
    | nil => simp [decodeRecords, recordsTree]
    | cons r rs =>
      have hm : c.records ++ [] = [] := by simp [Config.records, h1]
      simp only [recordsTree, List.map_cons, decodeRecords, hm]
      have := decodeElems_map (r :: rs) saved
      simp only [List.map_cons] at this
      simp [this]

/-- The value of a configuration decodes, into the zero configuration, to the
configuration, without error. -/
theorem decodeConfig_configTree (c : Config) :
    decodeConfig (configTree c) Config.zero = (c, none) := by
  simp [decodeConfig, configTree, configMember_LogFile, configMember_Email,
    configMember_Token, configMember_Zone, configMember_Records, configMember_History,
    storeString, decodeHistory_historyTree, decodeRecords_recordsTree, Config.zero]

/-- The text `MarshalIndent` writes for a configuration whose strings are valid
UTF-8 is decoded by `Unmarshal`, into the zero configuration, to that very
configuration, without error. -/
theorem jsonUnmarshal_jsonMarshalIndent (c : Config) (hv : Config.valid c) :
    jsonUnmarshal (jsonMarshalIndent c).1 Config.zero = (c, none) := by
  unfold jsonUnmarshal
  rw [parseJSON_jsonMarshalIndent c hv]
  exact decodeConfig_configTree c

/-! ## The fuel of the parser is never used up -/

theorem skipSpace_length (s : Bytes) : (skipSpace s).length ≤ s.length :=
  (List.dropWhile_sublist isSpace).length_le

theorem dropWhile_isDigit_length (s : Bytes) : (s.dropWhile isDigit).length ≤ s.length :=
  (List.dropWhile_sublist isDigit).length_le

theorem prepend_eq_some {pre : Bytes} {r : Option (GoString × Bytes)} {x : GoString}
    {rest : Bytes} (h : prepend pre r = some (x, rest)) : ∃ y, r = some (y, rest) := by
  cases r with
  | none => simp [prepend] at h
  | some p =>
    obtain ⟨y, rest'⟩ := p
    simp only [prepend, Option.map_some', Option.some.injEq, Prod.mk.injEq] at h
    exact ⟨y, by rw [h.2]⟩

/-- What `unquoteLoop` leaves is no longer than its input. -/
theorem unquoteLoop_length (n : Nat) :
    ∀ (s : Bytes) (x : GoString) (rest : Bytes),
      unquoteLoop n s = some (x, rest) → rest.length ≤ s.length := by
  induction n with
  | zero => intro s x rest h; simp [unquoteLoop] at h
  | succ n ih =>
    intro s x rest h
    have key : ∀ (pre s' : Bytes), s'.length ≤ s.length →
        prepend pre (unquoteLoop n s') = some (x, rest) → rest.length ≤ s.length := by
      intro pre s' hs' hp
      obtain ⟨y, hy⟩ := prepend_eq_some hp
      exact le_trans (ih s' y rest hy) hs'
    cases s with
    | nil => simp [unquoteLoop] at h
    | cons c r =>
      by_cases h1 : c = 0x22
      · rw [h1, unquoteLoop_quote] at h
        simp only [Option.some.injEq, Prod.mk.injEq] at h
        rw [← h.2]
        simp
      by_cases h2 : c = 0x5C
      · subst h2
        cases r with
        | nil => simp [unquoteLoop] at h
        | cons e r2 =>
          unfold unquoteLoop at h
          rw [if_neg (by decide), if_pos rfl] at h
          simp only at h
          by_cases e1 : e = 0x22 ∨ e = 0x5C ∨ e = 0x2F
          · rw [if_pos e1] at h
            exact key _ r2 (by simp; omega) h
          rw [if_neg e1] at h
          by_cases e2 : e = 0x62
          · rw [if_pos e2] at h
            exact key _ r2 (by simp; omega) h
          rw [if_neg e2] at h
          by_cases e3 : e = 0x66
          · rw [if_pos e3] at h
            exact key _ r2 (by simp; omega) h
          rw [if_neg e3] at h
          by_cases e4 : e = 0x6E
          · rw [if_pos e4] at h
            exact key _ r2 (by simp; omega) h
          rw [if_neg e4] at h
          by_cases e5 : e = 0x72
          · rw [if_pos e5] at h
            exact key _ r2 (by simp; omega) h
          rw [if_neg e5] at h
          by_cases e6 : e = 0x74
          · rw [if_pos e6] at h
            exact key _ r2 (by simp; omega) h
          rw [if_neg e6] at h
          by_cases e7 : e = 0x75
          · rw [if_pos e7] at h
            cases hg : getu4 (0x5C :: e :: r2) with
            | none => simp [hg] at h
            | some rr =>
              simp only [hg] at h
              by_cases hsur : 0xD800 ≤ rr ∧ rr < 0xE000
              · rw [if_pos hsur] at h
                cases hg2 : getu4 (List.drop 6 (0x5C :: e :: r2)) with
                | none =>
                  simp only [hg2] at h
                  exact key _ _ (by simp; omega) h
                | some rr1 =>
                  simp only [hg2] at h
                  by_cases hdec : utf16DecodeRune rr rr1 ≠ RuneError
                  · rw [if_pos hdec] at h
                    exact key _ _ (by simp; omega) h
                  · rw [if_neg hdec] at h
                    exact key _ _ (by simp; omega) h
              · rw [if_neg hsur] at h
                exact key _ _ (by simp; omega) h
          · rw [if_neg e7] at h
            exact absurd h (by simp)
      · simp only [unquoteLoop, h1, h2, if_false] at h
        by_cases h3 : c.val < 0x20
        · rw [if_pos h3] at h
          exact absurd h (by simp)
        rw [if_neg h3] at h
        by_cases h4 : c.val < 0x80
        · rw [if_pos h4] at h
          exact key _ r (by simp) h
        · rw [if_neg h4] at h
          exact key _ _ (by simp) h

theorem scanString_length (s : Bytes) (x : GoString) (rest : Bytes)
    (h : scanString s = some (x, rest)) : rest.length ≤ s.length :=
  unquoteLoop_length _ s x rest h

theorem scanDigits_length (s t rest : Bytes) (h : scanDigits s = some (t, rest)) :
    rest.length ≤ s.length := by
  unfold scanDigits at h
  split_ifs at h
  simp only [Option.some.injEq, Prod.mk.injEq] at h
  rw [← h.2]
  exact dropWhile_isDigit_length s

theorem scanIntPart_length (s t rest : Bytes) (h : scanIntPart s = some (t, rest)) :
    rest.length ≤ s.length := by
  cases s with
  | nil => simp [scanIntPart] at h
  | cons c u =>
    simp only [scanIntPart] at h
    split_ifs at h
    · simp only [Option.some.injEq, Prod.mk.injEq] at h
      rw [← h.2]
      simp
    · simp only [Option.some.injEq, Prod.mk.injEq] at h
      rw [← h.2]
      exact le_trans (dropWhile_isDigit_length u) (by simp)

theorem map_pair_eq_some {α β : Type} {f : β × Bytes → α × Bytes}
    (hf : ∀ x, (f x).2 = x.2) {r : Option (β × Bytes)} {t : α} {rest : Bytes}
    (h : r.map f = some (t, rest)) : ∃ y, r = some (y, rest) := by
  cases r with
  | none => simp at h
  | some p =>
    simp only [Option.map_some', Option.some.injEq] at h
    have := hf p
    rw [h] at this
    simp only at this
    exact ⟨p.1, by rw [this]⟩

theorem scanFrac_length (s t rest : Bytes) (h : scanFrac s = some (t, rest)) :
    rest.length ≤ s.length := by
  cases s with
  | nil =>
    simp only [scanFrac, Option.some.injEq, Prod.mk.injEq] at h
    rw [← h.2]
  | cons c u =>
    simp only [scanFrac] at h
    split_ifs at h
    · obtain ⟨y, hy⟩ := map_pair_eq_some (f := fun x => (c :: x.1, x.2)) (fun _ => rfl) h
      exact le_trans (scanDigits_length u y rest hy) (by simp)
    · simp only [Option.some.injEq, Prod.mk.injEq] at h
      rw [← h.2]

theorem scanExp_length (s t rest : Bytes) (h : scanExp s = some (t, rest)) :
    rest.length ≤ s.length := by
  cases s with
  | nil =>
    simp only [scanExp, Option.some.injEq, Prod.mk.injEq] at h
    rw [← h.2]
  | cons c u =>
    simp only [scanExp] at h
    split_ifs at h
    · cases u with
      | nil => simp at h
      | cons d v =>
        simp only at h
        split_ifs at h
        · obtain ⟨y, hy⟩ :=
            map_pair_eq_some (f := fun x => (c :: d :: x.1, x.2)) (fun _ => rfl) h
          exact le_trans (scanDigits_length v y rest hy) (by simp; omega)
        · obtain ⟨y, hy⟩ := map_pair_eq_some (f := fun x => (c :: x.1, x.2)) (fun _ => rfl) h
          exact le_trans (scanDigits_length (d :: v) y rest hy) (by simp)
    · simp only [Option.some.injEq, Prod.mk.injEq] at h
      rw [← h.2]

/-- What `scanNumber` leaves is no longer than its input. -/
theorem scanNumber_length (s t rest : Bytes) (h : scanNumber s = some (t, rest)) :
    rest.length ≤ s.length := by
  unfold scanNumber at h
  simp only at h
  cases h1 : scanIntPart (List.drop (if s.head? = some 0x2D then [(0x2D : Byte)] else []).length s) with
  | none => simp [h1] at h
  | some p1 =>
    obtain ⟨ip, s1⟩ := p1
    simp only [h1] at h
    cases h2 : scanFrac s1 with
    | none => simp [h2] at h
    | some p2 =>
      obtain ⟨fp, s2⟩ := p2
      simp only [h2] at h
      cases h3 : scanExp s2 with
      | none => simp [h3] at h
      | some p3 =>
        obtain ⟨ep, s3⟩ := p3
        simp only [h3, Option.some.injEq, Prod.mk.injEq] at h
        rw [← h.2]
        have l1 := scanIntPart_length _ _ _ h1
        have l2 := scanFrac_length _ _ _ h2
        have l3 := scanExp_length _ _ _ h3
        simp only [List.length_drop] at l1
        omega

/-- What `expectLit` leaves is no longer than its input. -/
theorem expectLit_length (lit s rest : Bytes) (h : expectLit lit s = some rest) :
    rest.length ≤ s.length := by
  unfold expectLit at h
  split_ifs at h
  simp only [Option.some.injEq] at h
  rw [← h]
  simp

theorem map_lit_eq_some {v w : JSON} {r : Option Bytes} {rest : Bytes}
    (h : r.map (fun x => (v, x)) = some (w, rest)) : r = some rest := by
  cases r with
  | none => simp at h
  | some p =>
    simp only [Option.map_some', Option.some.injEq, Prod.mk.injEq] at h
    rw [h.2]

theorem skipSpace_cons_length {s : Bytes} {c : Byte} {rest : Bytes}
    (h : skipSpace s = c :: rest) : rest.length + 1 ≤ s.length := by
  have := skipSpace_length s
  rw [h] at this
  simpa using this

/-- What the parser leaves is no longer than its input. -/
theorem parse_length (n : Nat) :
    (∀ s v rest, parseValue n s = some (v, rest) → rest.length ≤ s.length) ∧
    (∀ s l rest, parseElems n s = some (l, rest) → rest.length ≤ s.length) ∧
    (∀ s l rest, parseMembers n s = some (l, rest) → rest.length ≤ s.length) := by
  induction n with
  | zero =>
    refine ⟨?_, ?_, ?_⟩ <;> intro s v rest h
    · simp [parseValue] at h
    · simp [parseElems] at h
    · simp [parseMembers] at h
  | succ n ih =>
    obtain ⟨ihv, ihe, ihm⟩ := ih
    refine ⟨?_, ?_, ?_⟩
    · intro s v rest h
      rw [parseValue] at h
      cases hs : skipSpace s with
      | nil => simp [hs] at h
      | cons c r =>
        have hc := skipSpace_cons_length hs
        simp only [hs] at h
        split_ifs at h with h1 h2 h3 h4 h5 h6 h7
        · cases hs2 : skipSpace r with
          | nil => simp [hs2] at h
          | cons d r2 =>
            have hd := skipSpace_cons_length hs2
            simp only [hs2] at h
            split_ifs at h with hd1
            · simp only [Option.some.injEq, Prod.mk.injEq] at h
              rw [← h.2]
              omega
            · obtain ⟨y, hy⟩ := map_pair_eq_some (f := fun x => (JSON.obj x.1, x.2)) (fun _ => rfl) h
              have := ihm _ _ _ hy
              simp only [List.length_cons] at this
              omega
        · cases hs2 : skipSpace r with
          | nil => simp [hs2] at h
          | cons d r2 =>
            have hd := skipSpace_cons_length hs2
            simp only [hs2] at h
            split_ifs at h with hd1
            · simp only [Option.some.injEq, Prod.mk.injEq] at h
              rw [← h.2]
              omega
            · obtain ⟨y, hy⟩ := map_pair_eq_some (f := fun x => (JSON.arr x.1, x.2)) (fun _ => rfl) h
              have := ihe _ _ _ hy
              simp only [List.length_cons] at this
              omega
        · obtain ⟨y, hy⟩ := map_pair_eq_some (f := fun x => (JSON.str x.1, x.2)) (fun _ => rfl) h
          have := scanString_length _ _ _ hy
          omega
        · obtain ⟨y, hy⟩ := map_pair_eq_some (f := fun x => (JSON.num x.1, x.2)) (fun _ => rfl) h
          have := scanNumber_length _ _ _ hy
          simp only [List.length_cons] at this
          omega
        · have := expectLit_length _ _ _ (map_lit_eq_some h)
          simp only [List.length_cons] at this
          omega
        · have := expectLit_length _ _ _ (map_lit_eq_some h)
          simp only [List.length_cons] at this
          omega
        · have := expectLit_length _ _ _ (map_lit_eq_some h)
          simp only [List.length_cons] at this
          omega
    · intro s l rest h
      rw [parseElems] at h
      cases hv : parseValue n s with
      | none => simp [hv] at h
      | some x =>
        obtain ⟨v, r⟩ := x
        have hr := ihv _ _ _ hv
        simp only [hv] at h
        cases hs : skipSpace r with
        | nil => simp [hs] at h
        | cons c r2 =>
          have hc := skipSpace_cons_length hs
          simp only [hs] at h
          split_ifs at h with h1 h2
          · obtain ⟨y, hy⟩ := map_pair_eq_some (f := fun x => (v :: x.1, x.2)) (fun _ => rfl) h
            have := ihe _ _ _ hy
            omega
          · simp only [Option.some.injEq, Prod.mk.injEq] at h
            rw [← h.2]
            omega
    · intro s l rest h
      rw [parseMembers] at h
      cases hs : skipSpace s with
      | nil => simp [hs] at h
      | cons q r =>
        have hq := skipSpace_cons_length hs
        simp only [hs] at h
        split_ifs at h with hq1
        cases hk : scanString r with
        | none => simp [hk] at h
        | some x =>
          obtain ⟨key, r1⟩ := x
          have hr1 := scanString_length _ _ _ hk
          simp only [hk] at h
          cases hs1 : skipSpace r1 with
          | nil => simp [hs1] at h
          | cons c r2 =>
            have hc := skipSpace_cons_length hs1
            simp only [hs1] at h
            split_ifs at h with hc1
            cases hv : parseValue n r2 with
            | none => simp [hv] at h
            | some y =>
              obtain ⟨v, r3⟩ := y
              have hr3 := ihv _ _ _ hv
              simp only [hv] at h
              cases hs3 : skipSpace r3 with
              | nil => simp [hs3] at h
              | cons d r4 =>
                have hd := skipSpace_cons_length hs3
                simp only [hs3] at h
                split_ifs at h with hd1 hd2
                · obtain ⟨z, hz⟩ :=
                    map_pair_eq_some (f := fun x => ((key, v) :: x.1, x.2)) (fun _ => rfl) h
                  have := ihm _ _ _ hz
                  omega
                · simp only [Option.some.injEq, Prod.mk.injEq] at h
                  rw [← h.2]
                  omega

/-- With fuel above twice the length of the input, one unit more changes
nothing. -/
theorem parse_fuel (n : Nat) :
    (∀ s, 2 * s.length + 2 ≤ n → parseValue (n + 1) s = parseValue n s) ∧
    (∀ s, 2 * s.length + 3 ≤ n → parseElems (n + 1) s = parseElems n s) ∧
    (∀ s, 2 * s.length + 3 ≤ n → parseMembers (n + 1) s = parseMembers n s) := by
  induction n with
  | zero =>
    refine ⟨?_, ?_, ?_⟩ <;> intro s h <;> omega
  | succ n ih =>
    obtain ⟨ihv, ihe, ihm⟩ := ih
    refine ⟨?_, ?_, ?_⟩
    · intro s hn
      rw [parseValue, parseValue]
      cases hs : skipSpace s with
      | nil => rfl
      | cons c r =>
        have hc := skipSpace_cons_length hs
        simp only
        cases hs2 : skipSpace r with
        | nil => rfl
        | cons d r2 =>
          have hd := skipSpace_cons_length hs2
          simp only
          rw [ihm (d :: r2) (by simp only [List.length_cons]; omega),
            ihe (d :: r2) (by simp only [List.length_cons]; omega)]
    · intro s hn
      rw [parseElems, parseElems, ihv s (by omega)]
      cases hv : parseValue n s with
      | none => rfl
      | some x =>
        obtain ⟨v, r⟩ := x
        have hr := (parse_length n).1 _ _ _ hv
        simp only
        cases hs : skipSpace r with
        | nil => rfl
        | cons c r2 =>
          have hc := skipSpace_cons_length hs
          simp only
          rw [ihe r2 (by omega)]
    · intro s hn
      rw [parseMembers, parseMembers]
      cases hs : skipSpace s with
      | nil => rfl
      | cons q r =>
        have hq := skipSpace_cons_length hs
        simp only
        cases hk : scanString r with
        | none => rfl
        | some x =>
          obtain ⟨key, r1⟩ := x
          have hr1 := scanString_length _ _ _ hk
          simp only
          cases hs1 : skipSpace r1 with
          | nil => rfl
          | cons c r2 =>
            have hc := skipSpace_cons_length hs1
            simp only
            rw [ihv r2 (by omega)]
            cases hv : parseValue n r2 with
            | none => rfl
            | some y =>
              obtain ⟨v, r3⟩ := y
              have hr3 := (parse_length n).1 _ _ _ hv
              simp only
              cases hs3 : skipSpace r3 with
              | nil => rfl
              | cons d r4 =>
                have hd := skipSpace_cons_length hs3
                simp only
                rw [ihm r4 (by omega)]

/-- The bound `parseJSON` gives the parser is never reached: any larger bound
gives the same result. -/
theorem parseValue_fuel_enough (s : Bytes) (m : Nat) (hm : 2 * s.length + 2 ≤ m) :
    parseValue m s = parseValue (2 * s.length + 2) s := by
  induction hm with
  | refl => rfl
  | step hle ih => rw [(parse_fuel _).1 s hle, ih]

theorem decodeRune_size_pos (c : Byte) (t : List Byte) : 1 ≤ (decodeRune (c :: t)).2 := by
  by_cases hc : c.val < 0x80
  · rw [decodeRune_ascii c t hc]
  · by_cases hv : decodeRune (c :: t) = (RuneError, 1)
    · rw [hv]
    · obtain ⟨r, sz, hd, h2, -, -, -⟩ := decodeRune_multi c t (by omega) hv
      rw [hd]
      simp only
      omega

/-- With fuel no less than the length of the input, `unquoteLoop` gives the
same result with one unit more: the fuel `scanString` gives it is never used
up. -/
theorem unquoteLoop_fuel (n : Nat) :
    ∀ s : Bytes, s.length ≤ n → unquoteLoop (n + 1) s = unquoteLoop n s := by
  induction n with
  | zero =>
    intro s hs
    have : s = [] := List.eq_nil_of_length_eq_zero (by omega)
    subst this
    rfl
  | succ n ih =>
    intro s hs
    cases s with
    | nil => rfl
    | cons c r =>
      have hr : r.length ≤ n := by simpa using hs
      have hsz := decodeRune_size_pos c r
      have i1 := ih r hr
      have i2 := ih (List.drop 6 (c :: r)) (by simp only [List.length_drop, List.length_cons]; omega)
      have i3 := ih (List.drop 12 (c :: r)) (by simp only [List.length_drop, List.length_cons]; omega)
      have i4 := ih (List.drop (decodeRune (c :: r)).2 (c :: r))
        (by simp only [List.length_drop, List.length_cons]; omega)
      cases r with
      | nil =>
        unfold unquoteLoop
        simp only [i1, i4]
      | cons e r2 =>
        have i5 := ih r2 (by simp only [List.length_cons] at hr; omega)
        unfold unquoteLoop
        simp only [i1, i2, i3, i4, i5]

/-! ## What the decoder returns is valid UTF-8 -/

theorem validLoop_fuel (n : Nat) :
    ∀ s : List Byte, s.length ≤ n → validLoop (n + 1) s = validLoop n s := by
  induction n with
  | zero =>
    intro s hs
    have : s = [] := List.eq_nil_of_length_eq_zero (by omega)
    subst this
    rfl
  | succ n ih =>
    intro s hs
    cases s with
    | nil => rfl
    | cons b t =>
      have hsz := decodeRune_size_pos b t
      unfold validLoop
      rw [ih _ (by simp only [List.length_drop, List.length_cons] at hs ⊢; omega)]

theorem validLoop_enough (s : List Byte) (m : Nat) (hm : s.length ≤ m) :
    validLoop m s = utf8Valid s := by
  unfold utf8Valid
  induction hm with
  | refl => rfl
  | step hle ih => rw [validLoop_fuel _ s hle, ih]

theorem byte_val_of_lt (n : Nat) (h : n < 256) : (byte n).val = n := by
  simp [byte, Nat.mod_eq_of_lt h]

theorem first_ne_none (b : Byte) (h1 : 0xC2 ≤ b.val) (h2 : b.val ≤ 0xF4) : first b ≠ none := by
  unfold first
  split_ifs <;> first | omega | simp

/-- The encoding of any rune, in front of any bytes, decodes as a valid sequence of
the length of the encoding. -/
theorem decodeRune_encodeRune (r : Nat) (x : List Byte) :
    ∃ c, decodeRune (encodeRune r ++ x) = (c, (encodeRune r).length) ∧
      (c, (encodeRune r).length) ≠ (RuneError, 1) ∧ 1 ≤ (encodeRune r).length := by
  unfold encodeRune
  split_ifs with h1 h2 h3 h4
  · have hv := byte_val_of_lt r (by omega)
    have hd := decodeRune_ascii (byte r) x (by omega)
    rw [hv] at hd
    refine ⟨r, hd, ?_, by simp⟩
    simp only [List.length_singleton, ne_eq, Prod.mk.injEq, and_true, RuneError]
    omega
  · have v0 := byte_val_of_lt (0xC0 + r / 64) (by omega)
    have v1 := byte_val_of_lt (0x80 + r % 64) (by omega)
    have hd := decodeRune_two (byte (0xC0 + r / 64)) (byte (0x80 + r % 64)) x (by omega)
      (by omega)
    rw [if_neg (by omega)] at hd
    exact ⟨_, hd, by simp, by simp⟩
  · have hd := decodeRune_three 0xEF 0xBF 0xBD x 0x80 0xBF (by decide) (by decide)
    rw [if_neg (by decide), if_neg (by decide)] at hd
    exact ⟨_, hd, by simp, by simp⟩
  · have v0 := byte_val_of_lt (0xE0 + r / 4096) (by omega)
    have v1 := byte_val_of_lt (0x80 + r / 64 % 64) (by omega)
    have v2 := byte_val_of_lt (0x80 + r % 64) (by omega)
    have hb : 0x80 ≤ (byte (0xE0 + r / 4096)).val := by omega
    rcases first_cases _ hb with hf | ⟨hf, _, _⟩ | ⟨hf, _⟩ | ⟨hf, _, _, _⟩ | ⟨hf, _⟩ |
      ⟨hf, _⟩ | ⟨hf, _, _⟩ | ⟨hf, _⟩
    · exact absurd hf (first_ne_none _ (by omega) (by omega))
    any_goals omega
    all_goals
      have hd := decodeRune_three _ (byte (0x80 + r / 64 % 64)) (byte (0x80 + r % 64)) x _ _
        hb hf
      rw [if_neg (by omega), if_neg (by omega)] at hd
      exact ⟨_, hd, by simp, by simp⟩
  · have hr : r ≤ 0x10FFFF := by
      unfold MaxRune at h3
      omega
    have v0 := byte_val_of_lt (0xF0 + r / 262144) (by omega)
    have v1 := byte_val_of_lt (0x80 + r / 4096 % 64) (by omega)
    have v2 := byte_val_of_lt (0x80 + r / 64 % 64) (by omega)
    have v3 := byte_val_of_lt (0x80 + r % 64) (by omega)
    have hb : 0x80 ≤ (byte (0xF0 + r / 262144)).val := by omega
    rcases first_cases _ hb with hf | ⟨hf, _, _⟩ | ⟨hf, _⟩ | ⟨hf, _, _, _⟩ | ⟨hf, _⟩ |
      ⟨hf, _⟩ | ⟨hf, _, _⟩ | ⟨hf, _⟩
    · exact absurd hf (first_ne_none _ (by omega) (by omega))
    any_goals omega
    all_goals
      have hd := decodeRune_four _ (byte (0x80 + r / 4096 % 64)) (byte (0x80 + r / 64 % 64))
        (byte (0x80 + r % 64)) x _ _ hb hf
      rw [if_neg (by omega), if_neg (by omega), if_neg (by omega)] at hd
      exact ⟨_, hd, by simp, by simp⟩

theorem validLoop_step (n : Nat) (b : Byte) (t : List Byte) :
    validLoop (n + 1) (b :: t) =
      if decodeRune (b :: t) = (RuneError, 1) then false
      else validLoop n ((b :: t).drop (decodeRune (b :: t)).2) := rfl

theorem utf8Valid_cons_ascii (c : Byte) (s : GoString) (hc : c.val < 0x80) :
    utf8Valid (c :: s) = utf8Valid s := by
  unfold utf8Valid
  rw [List.length_cons, validLoop_step, decodeRune_ascii c s hc, if_neg]
  · rfl
  · simp only [Prod.mk.injEq, and_true, RuneError]
    omega

theorem utf8Valid_encodeRune_append (r : Nat) (s : GoString) :
    utf8Valid (encodeRune r ++ s) = utf8Valid s := by
  obtain ⟨c, hd, hne, hlen⟩ := decodeRune_encodeRune r s
  cases he : encodeRune r with
  | nil => rw [he] at hlen; simp at hlen
  | cons b t =>
    rw [he] at hd hne
    unfold utf8Valid
    rw [List.cons_append, List.length_cons, validLoop_step]
    rw [List.cons_append] at hd
    rw [hd, if_neg hne]
    simp only
    rw [← List.cons_append, List.drop_left]
    exact validLoop_enough s _ (by simp)

theorem prepend_eq_some_append {pre : Bytes} {r : Option (GoString × Bytes)} {x : GoString}
    {rest : Bytes} (h : prepend pre r = some (x, rest)) :
    ∃ y, r = some (y, rest) ∧ x = pre ++ y := by
  cases r with
  | none => simp [prepend] at h
  | some p =>
    obtain ⟨y, rest1⟩ := p
    simp only [prepend, Option.map_some', Option.some.injEq, Prod.mk.injEq] at h
    exact ⟨y, by rw [h.2], h.1.symm⟩

/-- The string that `unquoteLoop` returns is valid UTF-8, whatever the bytes
between the quotes. -/
theorem unquoteLoop_valid (n : Nat) :
    ∀ (s : Bytes) (x : GoString) (rest : Bytes),
      unquoteLoop n s = some (x, rest) → utf8Valid x = true := by
  induction n with
  | zero => intro s x rest h; simp [unquoteLoop] at h
  | succ n ih =>
    intro s x rest h
    have key : ∀ (pre s1 : Bytes), (∀ y, utf8Valid (pre ++ y) = utf8Valid y) →
        prepend pre (unquoteLoop n s1) = some (x, rest) → utf8Valid x = true := by
      intro pre s1 hpre hp
      obtain ⟨y, hy, hx⟩ := prepend_eq_some_append hp
      rw [hx, hpre]
      exact ih s1 y rest hy
    have one : ∀ (c : Byte), c.val < 0x80 → ∀ y, utf8Valid ([c] ++ y) = utf8Valid y :=
      fun c hc y => utf8Valid_cons_ascii c y hc
    have enc : ∀ (r : Nat) (y : GoString), utf8Valid (encodeRune r ++ y) = utf8Valid y :=
      utf8Valid_encodeRune_append
    cases s with
    | nil => simp [unquoteLoop] at h
    | cons c r =>
      by_cases h1 : c = 0x22
      · rw [h1, unquoteLoop_quote] at h
        simp only [Option.some.injEq, Prod.mk.injEq] at h
        rw [← h.1]
        rfl
      by_cases h2 : c = 0x5C
      · subst h2
        cases r with
        | nil => simp [unquoteLoop] at h
        | cons e r2 =>
          unfold unquoteLoop at h
          rw [if_neg (by decide), if_pos rfl] at h
          simp only at h
          by_cases e1 : e = 0x22 ∨ e = 0x5C ∨ e = 0x2F
          · rw [if_pos e1] at h
            refine key _ r2 (one e ?_) h
            rcases e1 with e1 | e1 | e1 <;> rw [e1] <;> decide
          rw [if_neg e1] at h
          by_cases e2 : e = 0x62
          · rw [if_pos e2] at h
            exact key _ r2 (one _ (by decide)) h
          rw [if_neg e2] at h
          by_cases e3 : e = 0x66
          · rw [if_pos e3] at h
            exact key _ r2 (one _ (by decide)) h
          rw [if_neg e3] at h
          by_cases e4 : e = 0x6E
          · rw [if_pos e4] at h
            exact key _ r2 (one _ (by decide)) h
          rw [if_neg e4] at h
          by_cases e5 : e = 0x72
          · rw [if_pos e5] at h
            exact key _ r2 (one _ (by decide)) h
          rw [if_neg e5] at h
          by_cases e6 : e = 0x74
          · rw [if_pos e6] at h
            exact key _ r2 (one _ (by decide)) h
          rw [if_neg e6] at h
          by_cases e7 : e = 0x75
          · rw [if_pos e7] at h
            cases hg : getu4 (0x5C :: e :: r2) with
            | none => simp [hg] at h
            | some rr =>
              simp only [hg] at h
              by_cases hsur : 0xD800 ≤ rr ∧ rr < 0xE000
              · rw [if_pos hsur] at h
                cases hg2 : getu4 (List.drop 6 (0x5C :: e :: r2)) with
                | none =>
                  simp only [hg2] at h
                  exact key _ _ (enc _) h
                | some rr1 =>
                  simp only [hg2] at h
                  by_cases hdec : utf16DecodeRune rr rr1 ≠ RuneError
                  · rw [if_pos hdec] at h
                    exact key _ _ (enc _) h
                  · rw [if_neg hdec] at h
                    exact key _ _ (enc _) h
              · rw [if_neg hsur] at h
                exact key _ _ (enc _) h
          · rw [if_neg e7] at h
            exact absurd h (by simp)
      · simp only [unquoteLoop, h1, h2, if_false] at h
        by_cases h3 : c.val < 0x20
        · rw [if_pos h3] at h
          exact absurd h (by simp)
        rw [if_neg h3] at h
        by_cases h4 : c.val < 0x80
        · rw [if_pos h4] at h
          exact key _ r (one c h4) h
        · rw [if_neg h4] at h
          exact key _ _ (enc _) h

theorem scanString_valid (s : Bytes) (x : GoString) (rest : Bytes)
    (h : scanString s = some (x, rest)) : utf8Valid x = true :=
  unquoteLoop_valid _ s x rest h

theorem map_eq_some_val {α β : Type} {f : β × Bytes → α × Bytes}
    {r : Option (β × Bytes)} {t : α} {rest : Bytes}
    (h : r.map f = some (t, rest)) : ∃ y, r = some y ∧ f y = (t, rest) := by
  cases r with
  | none => simp at h
  | some p =>
    simp only [Option.map_some', Option.some.injEq] at h
    exact ⟨p, rfl, h⟩

theorem map_lit_val {v w : JSON} {r : Option Bytes} {rest : Bytes}
    (h : r.map (fun x => (v, x)) = some (w, rest)) : w = v := by
  cases r with
  | none => simp at h
  | some p =>
    simp only [Option.map_some', Option.some.injEq, Prod.mk.injEq] at h
    exact h.1.symm

/-- Every string inside a value that the parser returns is valid UTF-8. -/
theorem parse_ok (n : Nat) :
    (∀ s v rest, parseValue n s = some (v, rest) → JSON.ok v) ∧
    (∀ s l rest, parseElems n s = some (l, rest) → okList l) ∧
    (∀ s l rest, parseMembers n s = some (l, rest) → okMembers l) := by
  induction n with
  | zero =>
    refine ⟨?_, ?_, ?_⟩ <;> intro s v rest h
    · simp [parseValue] at h
    · simp [parseElems] at h
    · simp [parseMembers] at h
  | succ n ih =>
    obtain ⟨ihv, ihe, ihm⟩ := ih
    refine ⟨?_, ?_, ?_⟩
    · intro s v rest h
      rw [parseValue] at h
      cases hs : skipSpace s with
      | nil => simp [hs] at h
      | cons c r =>
        simp only [hs] at h
        split_ifs at h with h1 h2 h3 h4 h5 h6 h7
        · cases hs2 : skipSpace r with
          | nil => simp [hs2] at h
          | cons d r2 =>
            simp only [hs2] at h
            split_ifs at h with hd1
            · simp only [Option.some.injEq, Prod.mk.injEq] at h
              rw [← h.1]
              simp [JSON.ok, okMembers]
            · obtain ⟨y, hy, hf⟩ := map_eq_some_val h
              simp only [Prod.mk.injEq] at hf
              rw [← hf.1]
              simp only [JSON.ok]
              exact ihm _ y.1 y.2 hy
        · cases hs2 : skipSpace r with
          | nil => simp [hs2] at h
          | cons d r2 =>
            simp only [hs2] at h
            split_ifs at h with hd1
            · simp only [Option.some.injEq, Prod.mk.injEq] at h
              rw [← h.1]
              simp [JSON.ok, okList]
            · obtain ⟨y, hy, hf⟩ := map_eq_some_val h
              simp only [Prod.mk.injEq] at hf
              rw [← hf.1]
              simp only [JSON.ok]
              exact ihe _ y.1 y.2 hy
        · obtain ⟨y, hy, hf⟩ := map_eq_some_val h
          simp only [Prod.mk.injEq] at hf
          rw [← hf.1]
          simp only [JSON.ok]
          exact scanString_valid _ y.1 y.2 hy
        · obtain ⟨y, hy, hf⟩ := map_eq_some_val h
          simp only [Prod.mk.injEq] at hf
          rw [← hf.1]
          simp [JSON.ok]
        · rw [map_lit_val h]
          simp [JSON.ok]
        · rw [map_lit_val h]
          simp [JSON.ok]
        · rw [map_lit_val h]
          simp [JSON.ok]
    · intro s l rest h
      rw [parseElems] at h
      cases hv : parseValue n s with
      | none => simp [hv] at h
      | some x =>
        obtain ⟨v, r⟩ := x
        have hr := ihv _ _ _ hv
        simp only [hv] at h
        cases hs : skipSpace r with
        | nil => simp [hs] at h
        | cons c r2 =>
          simp only [hs] at h
          split_ifs at h with h1 h2
          · obtain ⟨y, hy, hf⟩ := map_eq_some_val h
            simp only [Prod.mk.injEq] at hf
            rw [← hf.1]
            exact ⟨hr, ihe _ y.1 y.2 hy⟩
          · simp only [Option.some.injEq, Prod.mk.injEq] at h
            rw [← h.1]
            exact ⟨hr, trivial⟩
    · intro s l rest h
      rw [parseMembers] at h
      cases hs : skipSpace s with
      | nil => simp [hs] at h
      | cons q r =>
        simp only [hs] at h
        split_ifs at h with hq1
        cases hk : scanString r with
        | none => simp [hk] at h
        | some x =>
          obtain ⟨key, r1⟩ := x
          simp only [hk] at h
          cases hs1 : skipSpace r1 with
          | nil => simp [hs1] at h
          | cons c r2 =>
            simp only [hs1] at h
            split_ifs at h with hc1
            cases hv : parseValue n r2 with
            | none => simp [hv] at h
            | some y =>
              obtain ⟨v, r3⟩ := y
              have hr3 := ihv _ _ _ hv
              simp only [hv] at h
              cases hs3 : skipSpace r3 with
              | nil => simp [hs3] at h
              | cons d r4 =>
                simp only [hs3] at h
                split_ifs at h with hd1 hd2
                · obtain ⟨z, hz, hf⟩ := map_eq_some_val h
                  simp only [Prod.mk.injEq] at hf
                  rw [← hf.1]
                  exact ⟨hr3, ihm _ z.1 z.2 hz⟩
                · simp only [Option.some.injEq, Prod.mk.injEq] at h
                  rw [← h.1]
                  exact ⟨hr3, trivial⟩

theorem parseJSON_ok (data : Bytes) (v : JSON) (h : parseJSON data = some v) : JSON.ok v := by
  unfold parseJSON at h
  cases hp : parseValue (2 * data.length + 2) data with
  | none => simp [hp] at h
  | some x =>
    obtain ⟨w, rest⟩ := x
    simp only [hp] at h
    split at h
    · simp only [Option.some.injEq] at h
      rw [← h]
      exact (parse_ok _).1 _ _ _ hp
    · exact absurd h (by simp)

theorem storeString_valid (v : JSON) (old : GoString) (saved : Option GoError)
    (hv : JSON.ok v) (ho : utf8Valid old = true) :
    utf8Valid (storeString v old saved).1 = true := by
  cases v <;> first | exact ho | exact hv

theorem recordMember_valid (st : Record × Option GoError) (m : GoString × JSON)
    (hm : JSON.ok m.2) (hs : Record.valid st.1) : Record.valid (recordMember st m).1 := by
  unfold recordMember
  split_ifs
  · exact ⟨storeString_valid _ _ _ hm hs.1, hs.2⟩
  · exact ⟨hs.1, storeString_valid _ _ _ hm hs.2⟩
  · exact hs

theorem foldl_recordMember_valid (ms : List (GoString × JSON)) :
    ∀ (st : Record × Option GoError), okMembers ms → Record.valid st.1 →
      Record.valid (ms.foldl recordMember st).1 := by
  induction ms with
  | nil => intro st _ hs; exact hs
  | cons m ms ih =>
    intro st hm hs
    exact ih _ hm.2 (recordMember_valid st m hm.1 hs)

theorem decodeRecord_valid (v : JSON) (old : Record) (saved : Option GoError)
    (hv : JSON.ok v) (ho : Record.valid old) : Record.valid (decodeRecord v old saved).1 := by
  cases v with
  | obj ms => exact foldl_recordMember_valid ms _ hv ho
  | _ => exact ho

theorem zeroRecord_valid : Record.valid Record.zero := by
  unfold Record.valid Record.zero
  exact ⟨rfl, rfl⟩

theorem headD_valid (mem : List Record) (hm : ∀ r ∈ mem, Record.valid r) :
    Record.valid (mem.headD Record.zero) := by
  cases mem with
  | nil => exact zeroRecord_valid
  | cons a t => exact hm a (List.mem_cons_self a t)

theorem decodeElems_valid (es : List JSON) :
    ∀ (mem : List Record) (saved : Option GoError), okList es →
      (∀ r ∈ mem, Record.valid r) → ∀ r ∈ (decodeElems es mem saved).1, Record.valid r := by
  induction es with
  | nil =>
    intro mem saved _ _ r hr
    simp [decodeElems] at hr
  | cons e es ih =>
    intro mem saved he hm r hr
    simp only [decodeElems, List.mem_cons] at hr
    rcases hr with hr | hr
    · rw [hr]
      exact decodeRecord_valid _ _ _ he.1 (headD_valid mem hm)
    · exact ih mem.tail _ he.2 (fun x hx => hm x (List.mem_of_mem_tail hx)) r hr

theorem historyMember_valid (st : History × Option GoError) (m : GoString × JSON)
    (hm : JSON.ok m.2) (hs : utf8Valid st.1.LastIP = true) :
    utf8Valid (historyMember st m).1.LastIP = true := by
  unfold historyMember
  split_ifs
  · exact storeString_valid _ _ _ hm hs
  · exact hs
  · exact hs
  · exact hs

theorem foldl_historyMember_valid (ms : List (GoString × JSON)) :
    ∀ (st : History × Option GoError), okMembers ms → utf8Valid st.1.LastIP = true →
      utf8Valid (ms.foldl historyMember st).1.LastIP = true := by
  induction ms with
  | nil => intro st _ hs; exact hs
  | cons m ms ih =>
    intro st hm hs
    exact ih _ hm.2 (historyMember_valid st m hm.1 hs)

theorem decodeHistory_valid (v : JSON) (old : History) (saved : Option GoError)
    (hv : JSON.ok v) (ho : utf8Valid old.LastIP = true) :
    utf8Valid (decodeHistory v old saved).1.LastIP = true := by
  cases v with
  | obj ms => exact foldl_historyMember_valid ms _ hv ho
  | _ => exact ho

theorem decodeRecords_valid (v : JSON) (st : DecodeState) (hv : JSON.ok v)
    (hs : DecodeState.valid st) : DecodeState.valid (decodeRecords v st) := by
  obtain ⟨⟨h1, h2, h3, h4, h5, h6⟩, hsp⟩ := hs
  have hmem : ∀ r ∈ st.config.records ++ st.spare, Record.valid r := by
    intro r hr
    rcases List.mem_append.1 hr with hr | hr
    · exact h5 r hr
    · exact hsp r hr
  cases v with
  | arr l =>
    cases l with
    | nil =>
      refine ⟨⟨h1, h2, h3, h4, ?_, h6⟩, ?_⟩
      · intro r hr
        exact absurd hr (List.not_mem_nil r)
      · intro r hr
        exact absurd hr (List.not_mem_nil r)
    | cons e es =>
      refine ⟨⟨h1, h2, h3, h4, ?_, h6⟩, ?_⟩
      · intro r hr
        exact decodeElems_valid (e :: es) _ _ hv hmem r hr
      · intro r hr
        exact hmem r (List.mem_of_mem_drop hr)
  | null =>
    refine ⟨⟨h1, h2, h3, h4, ?_, h6⟩, ?_⟩
    · intro r hr
      exact absurd hr (List.not_mem_nil r)
    · intro r hr
      exact absurd hr (List.not_mem_nil r)
  | _ => exact ⟨⟨h1, h2, h3, h4, h5, h6⟩, hsp⟩

theorem configMember_valid (st : DecodeState) (m : GoString × JSON) (hm : JSON.ok m.2)
    (hs : DecodeState.valid st) : DecodeState.valid (configMember st m) := by
  unfold configMember
  split_ifs
  · exact ⟨⟨storeString_valid _ _ _ hm hs.1.1, hs.1.2⟩, hs.2⟩
  · exact ⟨⟨hs.1.1, storeString_valid _ _ _ hm hs.1.2.1, hs.1.2.2⟩, hs.2⟩
  · exact ⟨⟨hs.1.1, hs.1.2.1, storeString_valid _ _ _ hm hs.1.2.2.1, hs.1.2.2.2⟩, hs.2⟩
  · exact ⟨⟨hs.1.1, hs.1.2.1, hs.1.2.2.1, storeString_valid _ _ _ hm hs.1.2.2.2.1,
      hs.1.2.2.2.2⟩, hs.2⟩
  · exact decodeRecords_valid _ _ hm hs
  · exact ⟨⟨hs.1.1, hs.1.2.1, hs.1.2.2.1, hs.1.2.2.2.1, hs.1.2.2.2.2.1,
      decodeHistory_valid _ _ _ hm hs.1.2.2.2.2.2⟩, hs.2⟩
  · exact hs

theorem foldl_configMember_valid (ms : List (GoString × JSON)) :
    ∀ (st : DecodeState), okMembers ms → DecodeState.valid st →
      DecodeState.valid (ms.foldl configMember st) := by
  induction ms with
  | nil => intro st _ hs; exact hs
  | cons m ms ih =>
    intro st hm hs
    exact ih _ hm.2 (configMember_valid st m hm.1 hs)

theorem decodeConfig_valid (v : JSON) (o : Config) (hv : JSON.ok v) (ho : Config.valid o) :
    Config.valid (decodeConfig v o).1 := by
  cases v with
  | obj ms =>
    exact (foldl_configMember_valid ms ⟨o, [], none⟩ hv ⟨ho, fun r hr => by simp at hr⟩).1
  | _ => exact ho

theorem zeroConfig_valid : Config.valid Config.zero := by
  unfold Config.valid
  refine ⟨rfl, rfl, rfl, rfl, ?_, rfl⟩
  intro r hr
  simp [Config.records, Config.zero] at hr

/-- Every string of a configuration that `json.Unmarshal` has filled is valid
UTF-8 when those of the configuration decoded into were. -/
theorem jsonUnmarshal_valid (data : Bytes) (o : Config) (ho : Config.valid o) :
    Config.valid (jsonUnmarshal data o).1 := by
  unfold jsonUnmarshal
  cases hp : parseJSON data with
  | none => exact ho
  | some v => exact decodeConfig_valid v o (parseJSON_ok data v hp) ho

theorem getState_valid (w : World) (file : GoString) (o : Config) (ho : Config.valid o) :
    Config.valid (getState w file o).2.1 := by
  rw [getState_result]
  cases w.files file with
  | error err => exact ho
  | ok data => exact jsonUnmarshal_valid data o ho

/-- The configuration `run` saves has valid strings when the loaded one and the
new address do. -/
theorem updated_valid (env : Env) (cfg : Config) (ip : GoString) (hc : Config.valid cfg)
    (hip : utf8Valid ip = true) : Config.valid (updated env cfg ip) :=
  ⟨hc.1, hc.2.1, hc.2.2.1, hc.2.2.2.1, hc.2.2.2.2.1, hip⟩

/-- A configuration that `getState` has loaded into the zero value has valid
strings. -/
theorem loaded_valid (w : World) (file : GoString) (cfg : Config) (err : Option GoError)
    (hload : (getState w file Config.zero).2 = (cfg, err)) : Config.valid cfg := by
  have h := getState_valid w file Config.zero zeroConfig_valid
  rw [hload] at h
  exact h

/-- A run that saves: it exits 0 with the updated configuration, and a later
`getState` on the config path decodes the text that was written. -/
theorem execute_saved (env : Env) (config : GoString) (cfg : Config) (resp : Response)
    (ip : GoString) (hne : config ≠ [])
    (hload : (getState (start env) config Config.zero).2 = (cfg, none))
    (hget : env.get = Except.ok resp) (hbody : resp.Body = Except.ok ip)
    (hdiff : ip ≠ cfg.History.LastIP)
    (hall : ∀ k, k < cfg.records.length → completes (env.post k) = true)
    (hsave : env.write = WriteOutcome.ok) :
    (execute env config).exit = 0 ∧ (execute env config).config = updated env cfg ip ∧
    (getState (execute env config).world config Config.zero).2 =
      jsonUnmarshal (jsonMarshalIndent (updated env cfg ip)).1 Config.zero := by
  rw [execute_updated env config cfg resp ip hne hload hget hbody hdiff hall, hsave]
  refine ⟨rfl, rfl, ?_⟩
  rw [getState_result]
  simp only [Function.update_same]

/-! ## The orchestrator -/

/-- C1 (no-op when unchanged): when the file at the config path loads into
`cfg` and the address the echo service returns equals `cfg.History.LastIP`, the
run makes no POST and no file write, and every file is what it was before. -/
theorem noop_when_unchanged (env : Env) (config : GoString) (cfg : Config) (resp : Response)
    (ip : GoString)
    (hload : (getState (start env) config Config.zero).2 = (cfg, none))
    (hget : env.get = Except.ok resp) (hbody : resp.Body = Except.ok ip)
    (hsame : ip = cfg.History.LastIP) :
    posts (execute env config).world.trace = [] ∧
    writes (execute env config).world.trace = [] ∧
    (execute env config).world.files = env.files := by
  by_cases hne : config = []
  · subst hne
    simp [execute, run, fmtPrintln, start, posts, writes]
  · rw [execute_same env config cfg resp ip hne hload hget hbody hsame]
    simp [ready, posts, writes]

theorem noop_when_unchanged_witness :
    posts (execute (sampleEnv (goStr "1.2.3.4") postsOk noon noon WriteOutcome.ok)
      samplePath).world.trace = [] ∧
    writes (execute (sampleEnv (goStr "1.2.3.4") postsOk noon noon WriteOutcome.ok)
      samplePath).world.trace = [] ∧
    (execute (sampleEnv (goStr "1.2.3.4") postsOk noon noon WriteOutcome.ok)
      samplePath).world.files = (sampleEnv (goStr "1.2.3.4") postsOk noon noon
        WriteOutcome.ok).files :=
  noop_when_unchanged _ samplePath sampleConfig (okResponse (goStr "1.2.3.4")) (goStr "1.2.3.4")
    (sample_loads _ _ _ _ _) rfl rfl (by decide)

/-- C2 (change detection): when the loaded configuration is `cfg`, the address
`ip` returned differs from `cfg.History.LastIP` and every POST completes, the
POSTs of the run are one for each element of `cfg.Records`, in that order, each
to `https://www.cloudflare.com/api_json.html` with the nine fields `a`, `tkn`,
`email`, `z`, `id`, `name`, `type`, `ttl`, `content`. -/
theorem posts_when_changed (env : Env) (config : GoString) (cfg : Config) (resp : Response)
    (ip : GoString) (hne : config ≠ [])
    (hload : (getState (start env) config Config.zero).2 = (cfg, none))
    (hget : env.get = Except.ok resp) (hbody : resp.Body = Except.ok ip)
    (hdiff : ip ≠ cfg.History.LastIP)
    (hall : ∀ k, k < cfg.records.length → completes (env.post k) = true) :
    posts (execute env config).world.trace =
      cfg.records.map (fun record =>
        (goStr "https://www.cloudflare.com/api_json.html",
          [(goStr "a", [goStr "rec_edit"]), (goStr "tkn", [cfg.Token]),
            (goStr "email", [cfg.Email]), (goStr "z", [cfg.Zone]), (goStr "id", [record.Id]),
            (goStr "name", [record.Hostname]), (goStr "type", [goStr "A"]),
            (goStr "ttl", [goStr "1"]), (goStr "content", [ip])])) := by
  rw [execute_updated env config cfg resp ip hne hload hget hbody hdiff hall]
  have h := afterPosts_posts env config cfg ip hall
  cases env.write with
  | ok =>
    simp only [posts, List.filterMap_append] at h ⊢
    rw [h]
    simp [apiURL, nineFields]
  | failed err left =>
    simp only [fail, fmtPrintln, posts, List.filterMap_append] at h ⊢
    rw [h]
    simp [apiURL, nineFields]

theorem posts_when_changed_witness :
    posts (execute (sampleEnv (goStr "5.6.7.8") postsOk noon noon WriteOutcome.ok)
      samplePath).world.trace =
      sampleConfig.records.map (fun record =>
        (goStr "https://www.cloudflare.com/api_json.html",
          [(goStr "a", [goStr "rec_edit"]), (goStr "tkn", [sampleConfig.Token]),
            (goStr "email", [sampleConfig.Email]), (goStr "z", [sampleConfig.Zone]),
            (goStr "id", [record.Id]), (goStr "name", [record.Hostname]),
            (goStr "type", [goStr "A"]), (goStr "ttl", [goStr "1"]),
            (goStr "content", [goStr "5.6.7.8"])])) :=
  posts_when_changed _ samplePath sampleConfig (okResponse (goStr "5.6.7.8")) (goStr "5.6.7.8")
    samplePath_ne (sample_loads _ _ _ _ _) rfl rfl (by decide) (fun _ _ => rfl)

/-- C3 (mid-loop failure containment): when the address changed and POST number
`k + 1` is the first that fails (the request is not completed or the body of the
answer cannot be read), POSTs are made for the first `k + 1` records and no
other, the run exits with status 1, nothing is written and every file is what it
was before. -/
theorem mid_loop_failure (env : Env) (config : GoString) (cfg : Config) (resp : Response)
    (ip : GoString) (k : Nat) (hne : config ≠ [])
    (hload : (getState (start env) config Config.zero).2 = (cfg, none))
    (hget : env.get = Except.ok resp) (hbody : resp.Body = Except.ok ip)
    (hdiff : ip ≠ cfg.History.LastIP)
    (hk : k < cfg.records.length)
    (hbefore : ∀ j, j < k → completes (env.post j) = true)
    (hfail : completes (env.post k) = false) :
    posts (execute env config).world.trace =
      (cfg.records.take (k + 1)).map (fun record => (apiURL, nineFields cfg record ip)) ∧
    (execute env config).exit = 1 ∧
    writes (execute env config).world.trace = [] ∧
    (execute env config).world.files = env.files := by
  rw [execute_changed env config cfg resp ip hne hload hget hbody hdiff]
  have h := loop_fail cfg ip cfg.records (ready env config) k hk
    (by intro j hj; simpa [ready] using hbefore j hj) (by simpa [ready] using hfail)
  obtain ⟨hf, -, -, hw, -, -⟩ := loop_frame cfg ip cfg.records (ready env config)
  generalize setPublicIPLoop cfg ip cfg.records (ready env config) = res at *
  obtain ⟨w3, err⟩ := res
  cases err with
  | none => exact absurd rfl h.1
  | some e =>
    simp only at h hf hw
    refine ⟨?_, rfl, ?_, hf⟩
    · simp only [fail, fmtPrintln, posts, List.filterMap_append] at h ⊢
      rw [h.2]
      simp [ready]
    · simp only [fail, fmtPrintln, writes, List.filterMap_append] at hw ⊢
      rw [hw]
      simp [ready]

theorem mid_loop_failure_witness :
    posts (execute (sampleEnv (goStr "5.6.7.8") secondPostFails noon noon WriteOutcome.ok)
      samplePath).world.trace =
      (sampleConfig.records.take (1 + 1)).map
        (fun record => (apiURL, nineFields sampleConfig record (goStr "5.6.7.8"))) ∧
    (execute (sampleEnv (goStr "5.6.7.8") secondPostFails noon noon WriteOutcome.ok)
      samplePath).exit = 1 ∧
    writes (execute (sampleEnv (goStr "5.6.7.8") secondPostFails noon noon WriteOutcome.ok)
      samplePath).world.trace = [] ∧
    (execute (sampleEnv (goStr "5.6.7.8") secondPostFails noon noon WriteOutcome.ok)
      samplePath).world.files =
      (sampleEnv (goStr "5.6.7.8") secondPostFails noon noon WriteOutcome.ok).files :=
  mid_loop_failure _ samplePath sampleConfig (okResponse (goStr "5.6.7.8")) (goStr "5.6.7.8") 1
    samplePath_ne (sample_loads _ _ _ _ _) rfl rfl (by decide) (by decide)
    (by intro j hj; interval_cases j; rfl) rfl

/-- C4 as the code has it (persisted address after a successful update): when
the address has changed, every POST completes and the write succeeds, the one
write of the run, which comes after all the POSTs, is made to the config path
with mode 0600 and carries the encoding of a configuration whose
`History.LastIP` is the new address; the file then holds that text, and when
the new address is valid UTF-8 loading the file gives that configuration
back. -/
theorem saved_once_after_posts (env : Env) (config : GoString) (cfg : Config)
    (resp : Response) (ip : GoString) (hne : config ≠ [])
    (hload : (getState (start env) config Config.zero).2 = (cfg, none))
    (hget : env.get = Except.ok resp) (hbody : resp.Body = Except.ok ip)
    (hdiff : ip ≠ cfg.History.LastIP)
    (hall : ∀ k, k < cfg.records.length → completes (env.post k) = true)
    (hsave : env.write = WriteOutcome.ok) :
    ∃ before,
      (execute env config).world.trace =
        before ++ [Event.writeFile config (jsonMarshalIndent (execute env config).config).1 0o600] ∧
      writes before = [] ∧
      posts before = cfg.records.map (fun record => (apiURL, nineFields cfg record ip)) ∧
      (execute env config).config.History.LastIP = ip ∧
      (execute env config).world.files config =
        Except.ok (jsonMarshalIndent (execute env config).config).1 ∧
      (utf8Valid ip = true →
        (getState (execute env config).world config Config.zero).2 =
          ((execute env config).config, none)) := by
  rw [execute_updated env config cfg resp ip hne hload hget hbody hdiff hall, hsave]
  refine ⟨(afterPosts env config cfg ip).trace, rfl, (afterPosts_frame env config cfg ip).2.1,
    afterPosts_posts env config cfg ip hall, rfl, ?_, ?_⟩
  · simp
  · intro hip
    rw [getState_result]
    simp only [Function.update_same]
    exact jsonUnmarshal_jsonMarshalIndent _
      (updated_valid env cfg ip (loaded_valid _ _ _ _ hload) hip)

theorem saved_once_after_posts_witness :
    ∃ before,
      (execute (sampleEnv (goStr "5.6.7.8") postsOk noon noon WriteOutcome.ok)
        samplePath).world.trace =
        before ++ [Event.writeFile samplePath (jsonMarshalIndent (execute
          (sampleEnv (goStr "5.6.7.8") postsOk noon noon WriteOutcome.ok) samplePath).config).1
          0o600] ∧
      writes before = [] ∧
      posts before = sampleConfig.records.map
        (fun record => (apiURL, nineFields sampleConfig record (goStr "5.6.7.8"))) ∧
      (execute (sampleEnv (goStr "5.6.7.8") postsOk noon noon WriteOutcome.ok)
        samplePath).config.History.LastIP = goStr "5.6.7.8" ∧
      (getState (execute (sampleEnv (goStr "5.6.7.8") postsOk noon noon WriteOutcome.ok)
        samplePath).world samplePath Config.zero).2 =
        ((execute (sampleEnv (goStr "5.6.7.8") postsOk noon noon WriteOutcome.ok)
          samplePath).config, none) := by
  obtain ⟨before, h1, h2, h3, h4, -, h6⟩ :=
    saved_once_after_posts (sampleEnv (goStr "5.6.7.8") postsOk noon noon WriteOutcome.ok)
      samplePath sampleConfig (okResponse (goStr "5.6.7.8")) (goStr "5.6.7.8") samplePath_ne
      (sample_loads _ _ _ _ _) rfl rfl (by decide) (fun _ _ => rfl) rfl
  exact ⟨before, h1, h2, h3, h4, h6 (by decide)⟩

set_option maxRecDepth 100000 in
/-- C4 as stated fails for an address that is not valid UTF-8: the echo service
answers the byte `0xFF`, the sample file loads, the three POSTs complete and the
write succeeds; the run exits 0 having handed `setState` a configuration whose
`LastIP` is that byte, and the file then loads without error into a
configuration whose `LastIP` is the three bytes of U+FFFD. -/
theorem persisted_address_coerced :
    (getState (start (sampleEnv [0xFF] postsOk noon noon WriteOutcome.ok)) samplePath
      Config.zero).2 = (sampleConfig, none) ∧
    ([0xFF] : GoString) ≠ sampleConfig.History.LastIP ∧
    sampleConfig.records.length = 3 ∧
    completes (postsOk 0) = true ∧ completes (postsOk 1) = true ∧
    completes (postsOk 2) = true ∧
    (execute (sampleEnv [0xFF] postsOk noon noon WriteOutcome.ok) samplePath).exit = 0 ∧
    (execute (sampleEnv [0xFF] postsOk noon noon WriteOutcome.ok)
      samplePath).config.History.LastIP = [0xFF] ∧
    (getState (execute (sampleEnv [0xFF] postsOk noon noon WriteOutcome.ok) samplePath).world
      samplePath Config.zero).2.2 = none ∧
    (getState (execute (sampleEnv [0xFF] postsOk noon noon WriteOutcome.ok) samplePath).world
      samplePath Config.zero).2.1.History.LastIP = [0xEF, 0xBF, 0xBD] ∧
    ([0xEF, 0xBF, 0xBD] : GoString) ≠ [0xFF] := by
  have h := execute_saved (sampleEnv [0xFF] postsOk noon noon WriteOutcome.ok) samplePath
    sampleConfig (okResponse [0xFF]) [0xFF] samplePath_ne (sample_loads _ _ _ _ _) rfl rfl
    (by decide) (fun _ _ => rfl) rfl
  refine ⟨sample_loads _ _ _ _ _, by decide, rfl, rfl, rfl, rfl, h.1, ?_, ?_, ?_, by decide⟩
  · rw [h.2.1]
    rfl
  · rw [h.2.2]
    decide
  · rw [h.2.2]
    decide

/-! ## The clock -/

/-- Fourteen minutes later the Unix time is 840 more. -/
theorem unix_add_14_minutes (t : Time) : (t.Add (14 * Minute)).Unix = t.Unix + 840 := by
  have h1 : (14 * Minute).tmod 1000000000 = 0 := by decide
  have h2 : (14 * Minute).tdiv 1000000000 = 840 := by decide
  have h3 : (t.nsec.val : Int) < 1000000000 := by exact_mod_cast t.nsec.isLt
  have h4 : (0 : Int) ≤ (t.nsec.val : Int) := Int.natCast_nonneg _
  unfold Time.Add
  rw [h1, h2]
  rw [if_neg (by omega), if_neg (by omega)]
  apply int64_ext
  show (Int64.wrap (t.sec.val + 840)).val = (Int64.wrap (t.sec.val + (Int64.wrap (840 : Nat)).val)).val
  simp only [Int64.wrap]
  norm_num

/-- C5 as the code has it (NextVerify offset): after a run that found the
address changed and completed every POST, the configuration handed to the save
has `LastSet` equal to the Unix time of the first clock reading and
`NextVerify` equal to the Unix time of the second reading plus 840; so
`NextVerify = LastSet + 840` whenever the two readings fall in the same second.
That configuration is what the one write of the run carries. -/
theorem next_verify_offset (env : Env) (config : GoString) (cfg : Config) (resp : Response)
    (ip : GoString) (hne : config ≠ [])
    (hload : (getState (start env) config Config.zero).2 = (cfg, none))
    (hget : env.get = Except.ok resp) (hbody : resp.Body = Except.ok ip)
    (hdiff : ip ≠ cfg.History.LastIP)
    (hall : ∀ k, k < cfg.records.length → completes (env.post k) = true) :
    (execute env config).config.History.LastSet = (env.clock 0).Unix ∧
    (execute env config).config.History.NextVerify = (env.clock 1).Unix + 840 ∧
    ((env.clock 1).Unix = (env.clock 0).Unix →
      (execute env config).config.History.NextVerify =
        (execute env config).config.History.LastSet + 840) ∧
    writes (execute env config).world.trace =
      [(config, (jsonMarshalIndent (execute env config).config).1, 0o600)] := by
  rw [execute_updated env config cfg resp ip hne hload hget hbody hdiff hall]
  have hw := (afterPosts_frame env config cfg ip).2.1
  cases env.write with
  | ok =>
    refine ⟨rfl, unix_add_14_minutes _, ?_, ?_⟩
    · intro h
      show ((env.clock 1).Add (14 * Minute)).Unix = (env.clock 0).Unix + 840
      rw [unix_add_14_minutes, h]
    · simp only [writes, List.filterMap_append] at hw ⊢
      rw [hw]
      simp
  | failed err left =>
    refine ⟨rfl, unix_add_14_minutes _, ?_, ?_⟩
    · intro h
      show ((env.clock 1).Add (14 * Minute)).Unix = (env.clock 0).Unix + 840
      rw [unix_add_14_minutes, h]
    · simp only [fail, fmtPrintln, writes, List.filterMap_append] at hw ⊢
      rw [hw]
      simp

theorem next_verify_offset_witness :
    (execute (sampleEnv (goStr "5.6.7.8") postsOk noon noon WriteOutcome.ok)
      samplePath).config.History.LastSet = noon.Unix ∧
    (execute (sampleEnv (goStr "5.6.7.8") postsOk noon noon WriteOutcome.ok)
      samplePath).config.History.NextVerify = noon.Unix + 840 ∧
    (noon.Unix = noon.Unix →
      (execute (sampleEnv (goStr "5.6.7.8") postsOk noon noon WriteOutcome.ok)
        samplePath).config.History.NextVerify =
      (execute (sampleEnv (goStr "5.6.7.8") postsOk noon noon WriteOutcome.ok)
        samplePath).config.History.LastSet + 840) ∧
    writes (execute (sampleEnv (goStr "5.6.7.8") postsOk noon noon WriteOutcome.ok)
      samplePath).world.trace =
      [(samplePath, (jsonMarshalIndent (execute
        (sampleEnv (goStr "5.6.7.8") postsOk noon noon WriteOutcome.ok) samplePath).config).1,
        0o600)] :=
  next_verify_offset (sampleEnv (goStr "5.6.7.8") postsOk noon noon WriteOutcome.ok) samplePath
    sampleConfig (okResponse (goStr "5.6.7.8")) (goStr "5.6.7.8") samplePath_ne
    (sample_loads _ _ _ _ _) rfl rfl (by decide) (fun _ _ => rfl)

set_option maxRecDepth 100000 in
/-- C5 as stated fails: with the first clock reading in the last nanosecond of
a second and the next reading in the following second, a successful update
saves `LastSet = 43199` and `NextVerify = 44040`, which is `LastSet + 841`. -/
theorem next_verify_not_offset :
    (execute (sampleEnv (goStr "5.6.7.8") postsOk beforeNoon noon WriteOutcome.ok)
      samplePath).exit = 0 ∧
    (execute (sampleEnv (goStr "5.6.7.8") postsOk beforeNoon noon WriteOutcome.ok)
      samplePath).config.History.LastSet = 43199 ∧
    (execute (sampleEnv (goStr "5.6.7.8") postsOk beforeNoon noon WriteOutcome.ok)
      samplePath).config.History.NextVerify = 44040 ∧
    (execute (sampleEnv (goStr "5.6.7.8") postsOk beforeNoon noon WriteOutcome.ok)
      samplePath).config.History.NextVerify ≠
    (execute (sampleEnv (goStr "5.6.7.8") postsOk beforeNoon noon WriteOutcome.ok)
      samplePath).config.History.LastSet + 840 := by
  decide

/-! ## Exit status and failures -/

theorem resolved_eq (env : Env) (resp : Response) (ip : GoString)
    (hget : env.get = Except.ok resp) (hbody : resp.Body = Except.ok ip) : resolved env = ip := by
  simp [resolved, getPublicIP, httpGet, start, hget, hbody]

/-- A run whose load fails. -/
theorem execute_load_error (env : Env) (config : GoString) (c1 : Config) (err : GoError)
    (hne : config ≠ [])
    (hload : (getState (start env) config Config.zero).2 = (c1, some err)) :
    execute env config = fail ⟨env, env.files, [Event.readFile config], 0, 0⟩ c1 err := by
  unfold execute run
  rw [if_neg hne, getState_world, hload]
  rfl

/-- A run whose GET fails. -/
theorem execute_get_error (env : Env) (config : GoString) (cfg : Config) (hne : config ≠ [])
    (hload : (getState (start env) config Config.zero).2 = (cfg, none))
    (hget : completes env.get = false) :
    ∃ err, execute env config = fail (ready env config) cfg err := by
  obtain ⟨e, he⟩ := getPublicIP_fail
    ⟨env, env.files, [Event.readFile config], 0, 0⟩ hget
  refine ⟨e, ?_⟩
  unfold execute run
  rw [if_neg hne, getState_world, hload]
  simp only [start, List.nil_append]
  rw [he]
  rfl

/-- C7 (exit status): the run exits with status 1 exactly when the config path
is empty, or loading the state fails, or resolving the address fails, or the
address has changed and some record's POST does not complete, or the address
has changed and the write of the state fails; otherwise it exits with status 0,
whatever status and body the answers to the POSTs carry. -/
theorem exit_code_iff (env : Env) (config : GoString) :
    ((execute env config).exit = 1 ↔
      config = [] ∨ loadError env config ≠ none ∨ completes env.get = false ∨
      (resolved env ≠ (loaded env config).History.LastIP ∧
        ∃ k, k < (loaded env config).records.length ∧ completes (env.post k) = false) ∨
      (resolved env ≠ (loaded env config).History.LastIP ∧ writeFails env)) ∧
    ((execute env config).exit ≠ 1 → (execute env config).exit = 0) := by
  by_cases hne : config = []
  · subst hne
    simp [execute, run]
  cases hl : (getState (start env) config Config.zero).2 with
  | mk cfg lerr =>
  have hcfg : loaded env config = cfg := by simp [loaded, hl]
  have herr : loadError env config = lerr := by simp [loadError, hl]
  rw [hcfg, herr]
  cases lerr with
  | some e =>
    rw [execute_load_error env config cfg e hne hl]
    simp [fail]
  | none =>
    cases hg : completes env.get with
    | false =>
      obtain ⟨e, he⟩ := execute_get_error env config cfg hne hl hg
      rw [he]
      simp [fail]
    | true =>
      obtain ⟨resp, ip, hget, hbody⟩ := completes_ok hg
      rw [resolved_eq env resp ip hget hbody]
      by_cases hsame : ip = cfg.History.LastIP
      · rw [execute_same env config cfg resp ip hne hl hget hbody hsame]
        simp [hne, hsame]
      · by_cases hall : ∀ k, k < cfg.records.length → completes (env.post k) = true
        · rw [execute_updated env config cfg resp ip hne hl hget hbody hsame hall]
          have hno : ¬ ∃ k, k < cfg.records.length ∧ completes (env.post k) = false := by
            rintro ⟨k, hk, hc⟩
            rw [hall k hk] at hc
            exact Bool.noConfusion hc
          cases hw : env.write with
          | ok => simp [hne, hsame, hno, writeFails, hw]
          | failed err left => simp [fail, hsame, writeFails, hw]
        · have hex : ∃ k, k < cfg.records.length ∧ completes (env.post k) = false := by
            by_contra hcon
            apply hall
            intro k hk
            by_contra hc
            exact hcon ⟨k, hk, by simpa using hc⟩
          have hloop := (loop_error_iff cfg ip cfg.records (ready env config)).2
            (by simpa [ready] using hex)
          rw [execute_changed env config cfg resp ip hne hl hget hbody hsame]
          generalize setPublicIPLoop cfg ip cfg.records (ready env config) = res at *
          obtain ⟨w3, err⟩ := res
          cases err with
          | none => exact absurd rfl hloop
          | some e => simp [fail, hsame, hex]

/-- C8 as the code has it (load failure): when the config path is not empty and
its file cannot be read, or its contents are not JSON, or they are JSON whose
value the decoder reports a type error for, the run exits with status 1 having
made no GET, no POST and no file write; the one call it made is the read of the
file.  A value that is `null` where an object, a string or a number is expected
is no such error. -/
theorem load_failure (env : Env) (config : GoString) (hne : config ≠ [])
    (hfail : (∃ err, env.files config = Except.error err) ∨
      (∃ data, env.files config = Except.ok data ∧ parseJSON data = none) ∨
      (∃ data v, env.files config = Except.ok data ∧ parseJSON data = some v ∧
        (decodeConfig v Config.zero).2 ≠ none)) :
    (execute env config).exit = 1 ∧
    gets (execute env config).world.trace = [] ∧
    posts (execute env config).world.trace = [] ∧
    writes (execute env config).world.trace = [] ∧
    reads (execute env config).world.trace = [config] ∧
    (execute env config).world.files = env.files := by
  have hl : ∃ c1 err, (getState (start env) config Config.zero).2 = (c1, some err) := by
    rw [getState_result]
    rcases hfail with ⟨err, he⟩ | ⟨data, hd, hp⟩ | ⟨data, v, hd, hp, hu⟩
    · exact ⟨Config.zero, err, by simp [start, he]⟩
    · exact ⟨Config.zero, GoError.malformed, by simp [start, hd, jsonUnmarshal, hp]⟩
    · cases hj : decodeConfig v Config.zero with
      | mk c1 oerr =>
        cases oerr with
        | none => simp [hj] at hu
        | some err => exact ⟨c1, err, by simp [start, hd, jsonUnmarshal, hp, hj]⟩
  obtain ⟨c1, err, hl⟩ := hl
  rw [execute_load_error env config c1 err hne hl]
  simp [fail, fmtPrintln, gets, posts, writes, reads]

set_option maxRecDepth 100000 in
theorem load_failure_witness :
    ((execute noFiles samplePath).exit = 1 ∧
      gets (execute noFiles samplePath).world.trace = [] ∧
      posts (execute noFiles samplePath).world.trace = [] ∧
      writes (execute noFiles samplePath).world.trace = [] ∧
      reads (execute noFiles samplePath).world.trace = [samplePath] ∧
      (execute noFiles samplePath).world.files = noFiles.files) ∧
    ((execute wrongShape samplePath).exit = 1 ∧
      gets (execute wrongShape samplePath).world.trace = [] ∧
      posts (execute wrongShape samplePath).world.trace = [] ∧
      writes (execute wrongShape samplePath).world.trace = [] ∧
      reads (execute wrongShape samplePath).world.trace = [samplePath] ∧
      (execute wrongShape samplePath).world.files = wrongShape.files) :=
  ⟨load_failure noFiles samplePath samplePath_ne (Or.inl ⟨_, rfl⟩),
    load_failure wrongShape samplePath samplePath_ne
      (Or.inr (Or.inr ⟨goStr "\x7b\"Email\": 5\x7d",
        JSON.obj [(goStr "Email", JSON.num [0x35])], rfl, rfl, by decide⟩))⟩

set_option maxRecDepth 100000 in
/-- C8 as stated fails for a file whose contents are `null`: the text is valid
JSON and not of the shape of a configuration, yet `getState` returns no error
and leaves the zero configuration; the run then makes the GET, finds the answer
different from the empty `LastIP`, has no record to post, writes the file and
exits with status 0. -/
theorem null_file_loads :
    samplePath ≠ [] ∧
    nullFile.files samplePath = Except.ok (goStr "null") ∧
    (getState (start nullFile) samplePath Config.zero).2 = (Config.zero, none) ∧
    (execute nullFile samplePath).exit = 0 ∧
    gets (execute nullFile samplePath).world.trace = [goStr "http://myip.dnsomatic.com/"] ∧
    posts (execute nullFile samplePath).world.trace = [] ∧
    writes (execute nullFile samplePath).world.trace =
      [(samplePath, (jsonMarshalIndent (execute nullFile samplePath).config).1, 0o600)] ∧
    (execute nullFile samplePath).config.History.LastIP = goStr "1.2.3.4" ∧
    (execute nullFile samplePath).world.files samplePath =
      Except.ok (jsonMarshalIndent (execute nullFile samplePath).config).1 ∧
    (jsonMarshalIndent (execute nullFile samplePath).config).1 ≠ goStr "null" := by
  refine ⟨by decide, rfl, by decide, by decide, by decide, by decide, by decide, by decide,
    ?_, by decide⟩
  rfl

/-- C9 (missing config flag): with the empty string as the value of `--config`
the run exits with status 1 and all it does is print one line; it reads no
file, writes no file and makes no GET and no POST. -/
theorem missing_config_flag (env : Env) :
    (execute env []).exit = 1 ∧
    (execute env []).world.trace =
      [Event.println
        [Operand.str (goStr "error: No config file specified. Use --config or -c.")]] ∧
    reads (execute env []).world.trace = [] ∧
    writes (execute env []).world.trace = [] ∧
    gets (execute env []).world.trace = [] ∧
    posts (execute env []).world.trace = [] ∧
    (execute env []).world.files = env.files := by
  simp [execute, run, fmtPrintln, start, reads, writes, gets, posts]

/-- C10 (the update touches only `History`): when the file loads into `cfg`
and the run gets to the save, the one write of the run carries the encoding of
a configuration that has the `LogFile`, `Email`, `Token`, `Zone` and `Records`
of `cfg`. -/
theorem update_touches_only_history (env : Env) (config : GoString) (cfg : Config)
    (hload : (getState (start env) config Config.zero).2 = (cfg, none))
    (hsave : writes (execute env config).world.trace ≠ []) :
    writes (execute env config).world.trace =
      [(config, (jsonMarshalIndent (execute env config).config).1, 0o600)] ∧
    (execute env config).config.LogFile = cfg.LogFile ∧
    (execute env config).config.Email = cfg.Email ∧
    (execute env config).config.Token = cfg.Token ∧
    (execute env config).config.Zone = cfg.Zone ∧
    (execute env config).config.Records = cfg.Records := by
  by_cases hne : config = []
  · subst hne
    exact absurd (missing_config_flag env).2.2.2.1 hsave
  cases hg : completes env.get with
  | false =>
    obtain ⟨e, he⟩ := execute_get_error env config cfg hne hload hg
    rw [he] at hsave
    simp [fail, fmtPrintln, ready, writes] at hsave
  | true =>
    obtain ⟨resp, ip, hget, hbody⟩ := completes_ok hg
    by_cases hsame : ip = cfg.History.LastIP
    · rw [execute_same env config cfg resp ip hne hload hget hbody hsame] at hsave
      simp [ready, writes] at hsave
    · rw [execute_changed env config cfg resp ip hne hload hget hbody hsame] at hsave ⊢
      obtain ⟨-, he, -, hw, -, -⟩ := loop_frame cfg ip cfg.records (ready env config)
      generalize setPublicIPLoop cfg ip cfg.records (ready env config) = res at *
      obtain ⟨w3, err⟩ := res
      have hw3 : writes w3.trace = [] := by
        simp only at hw
        rw [hw]
        simp [ready, writes]
      cases err with
      | some e =>
        simp only [fail, fmtPrintln, writes, List.filterMap_append] at hsave hw3
        simp [hw3] at hsave
      | none =>
        simp only [setState_eq, ioutilWriteFile] at hsave ⊢
        simp only [writes, List.filterMap_append] at hw3
        cases hwr : w3.env.write with
        | ok => simp [writes, hw3]
        | failed err left => simp [fail, fmtPrintln, writes, hw3]

set_option maxRecDepth 100000 in
theorem update_touches_only_history_witness :
    writes (execute (sampleEnv (goStr "5.6.7.8") postsOk noon noon WriteOutcome.ok)
      samplePath).world.trace =
      [(samplePath, (jsonMarshalIndent (execute
        (sampleEnv (goStr "5.6.7.8") postsOk noon noon WriteOutcome.ok) samplePath).config).1,
        0o600)] ∧
    (execute (sampleEnv (goStr "5.6.7.8") postsOk noon noon WriteOutcome.ok)
      samplePath).config.LogFile = sampleConfig.LogFile ∧
    (execute (sampleEnv (goStr "5.6.7.8") postsOk noon noon WriteOutcome.ok)
      samplePath).config.Email = sampleConfig.Email ∧
    (execute (sampleEnv (goStr "5.6.7.8") postsOk noon noon WriteOutcome.ok)
      samplePath).config.Token = sampleConfig.Token ∧
    (execute (sampleEnv (goStr "5.6.7.8") postsOk noon noon WriteOutcome.ok)
      samplePath).config.Zone = sampleConfig.Zone ∧
    (execute (sampleEnv (goStr "5.6.7.8") postsOk noon noon WriteOutcome.ok)
      samplePath).config.Records = sampleConfig.Records :=
  update_touches_only_history (sampleEnv (goStr "5.6.7.8") postsOk noon noon WriteOutcome.ok)
    samplePath sampleConfig (sample_loads _ _ _ _ _) (by decide)

/-! ## Saving and loading -/

/-- C6 as the code has it (save/load round trip): for a configuration whose
strings are all valid UTF-8, when `setState` returns no error, `getState` on the
same path into the zero configuration returns no error and the configuration
itself, equal in every field, the records in their order. -/
theorem save_load_round_trip (w : World) (file : GoString) (cfg : Config)
    (hvalid : Config.valid cfg) (hsave : (setState w file cfg).2 = none) :
    (getState (setState w file cfg).1 file Config.zero).2 = (cfg, none) := by
  rw [setState_eq] at hsave ⊢
  unfold ioutilWriteFile at hsave ⊢
  cases hw : w.env.write with
  | failed err left => simp [hw] at hsave
  | ok =>
    simp only [hw]
    rw [getState_result]
    simp only [Function.update_same]
    exact jsonUnmarshal_jsonMarshalIndent cfg hvalid

theorem save_load_round_trip_witness :
    (getState (setState (start noFiles) samplePath unicodeConfig).1 samplePath Config.zero).2 =
      (unicodeConfig, none) :=
  save_load_round_trip (start noFiles) samplePath unicodeConfig (by decide) rfl

set_option maxRecDepth 100000 in
/-- C6 as stated fails: `setState` succeeds for a configuration whose `LastIP`
is the byte `0xFF`, and `getState` then succeeds with a different
configuration, whose `LastIP` is the three bytes of U+FFFD. -/
theorem save_load_not_round_trip :
    (setState (start noFiles) samplePath badConfig).2 = none ∧
    (getState (setState (start noFiles) samplePath badConfig).1 samplePath Config.zero).2 =
      (coercedConfig, none) ∧
    coercedConfig ≠ badConfig := by
  decide

set_option maxRecDepth 100000 in
/-- The decoder is permissive: a text that is just `null` decodes without error
and changes nothing. -/
theorem jsonUnmarshal_null : jsonUnmarshal (goStr "null") Config.zero = (Config.zero, none) := by
  decide

end Cfupdate
